import Mathlib

/-!
# friendly-errors: message formatting and deep validation traversal

A shallow embedding of `errors.go` (package `friendlyerrors`).

* Go strings are Lean strings, Go maps are association lists with unique keys
  (`mapSet` overwrites in place, so the last write for a key wins).
* `fmt.Sprintf` is interpreted by `Sprintf` for the two verbs that occur in the
  source, `%s` and `%d`, including the `%!s(MISSING)` and `%!(EXTRA ...)` output
  Go produces when a format and its argument list disagree.
* The constraint evaluator (`validator.Validate`) is an external collaborator and
  is a parameter of the embedding: `Validate.report` gives the violations it
  reports for a struct value.
* A run-time panic of the Go code is the result `none`.
* Struct fields are exported, named fields: promoted fields of embedded structs
  and reflect's refusal to read unexported fields are outside the data model.
* `Value` does not tie the elements of a slice or array to its element type.
  `Value.WellTyped` says they have the kind of that type, as the Go type system
  guarantees.
* Two panics of `deepValidator` are outside the data model, which has no time
  values and no unexported fields: `validate.Struct` also refuses a struct
  whose type converts to `time.Time`, on which the unchecked type assertion
  panics, and `field.Interface()` panics on an unexported field. The embedding
  so returns a report on inputs where the code panics, and nothing is claimed
  about whether the traversal returns on a struct: every theorem about the
  report of a traversal is stated for the runs that return one.
-/

namespace friendlyerrors

/-! ## reflect: kinds, types, values -/

/-- The kinds of `reflect.Kind` whose values the traversal never enters. -/
inductive BasicKind where
  | Invalid | Bool | Int | Int8 | Int16 | Int32 | Int64
  | Uint | Uint8 | Uint16 | Uint32 | Uint64 | Uintptr
  | Float32 | Float64 | Complex64 | Complex128
  | Chan | Func | Interface | Map | String | UnsafePointer
  deriving DecidableEq, Repr

/-- The type `reflect.Kind`. -/
inductive Kind where
  | basic (b : BasicKind)
  | Array
  | Ptr
  | Slice
  | Struct
  deriving DecidableEq, Repr

/-- The constant `reflect.String`. -/
abbrev Kind.String : Kind := Kind.basic BasicKind.String

/-- A `reflect.Type`, as far as the source inspects one: its kind and, for
pointers, slices and arrays, its element type. -/
inductive GoType where
  | basic (b : BasicKind)
  | struct
  | ptr (elem : GoType)
  | slice (elem : GoType)
  | array (elem : GoType)
  deriving DecidableEq, Repr

/-- The method `Type.Kind()`. -/
def GoType.Kind : GoType → Kind
  | .basic b => Kind.basic b
  | .struct => Kind.Struct
  | .ptr _ => Kind.Ptr
  | .slice _ => Kind.Slice
  | .array _ => Kind.Array

/-- A `reflect.StructField`: the internal name, the value of
`field.Tag.Get("json")` (empty when the field has no json annotation) and the
value of `field.Tag.Get("validate")`, which only the evaluator reads. -/
structure StructField where
  Name : String
  jsonTag : String
  validateTag : String
  deriving DecidableEq, Repr

/-- A Go value as `reflect.ValueOf` sees it. A struct carries its field layout,
a slice or array carries its static element type, a pointer is nil or points to
a value, and every other value is a leaf with its kind and a printed payload. -/
inductive Value where
  | basic (b : BasicKind) (text : String)
  | struct (fields : List (StructField × Value))
  | ptr (target : Option Value)
  | slice (elem : GoType) (elems : List Value)
  | array (elem : GoType) (elems : List Value)
  deriving Repr

/-- The method `Value.Kind()`. -/
def Value.Kind : Value → Kind
  | .basic b _ => Kind.basic b
  | .struct _ => Kind.Struct
  | .ptr _ => Kind.Ptr
  | .slice _ _ => Kind.Slice
  | .array _ _ => Kind.Array

/-! ## fmt.Sprintf -/

/-- An operand of `fmt.Sprintf`: the source passes strings and one `int`. -/
inductive Arg where
  | str (s : String)
  | int (n : Int)
  deriving DecidableEq, Repr

/-- The Go type name printed for an operand in an error marker. -/
def Arg.typeName : Arg → String
  | .str _ => "string"
  | .int _ => "int"

/-- The default rendering of an operand. -/
def Arg.text : Arg → String
  | .str s => s
  | .int n => toString n

/-- The operands left over after the format is consumed, as listed inside
`%!(EXTRA ...)`. -/
def extraArgs : List Arg → List Char
  | [] => []
  | [a] => (a.typeName ++ "=" ++ a.text).data
  | a :: b :: rest => (a.typeName ++ "=" ++ a.text ++ ", ").data ++ extraArgs (b :: rest)

/-- The formatting loop of `fmt.Sprintf` over the characters of the format.
The verbs `%s` and `%d` are interpreted; no other verb occurs in the source. -/
def doPrintf : List Char → List Arg → List Char
  | [], [] => []
  | [], a :: rest => "%!(EXTRA ".data ++ extraArgs (a :: rest) ++ [')']
  | [c], args => c :: doPrintf [] args
  | c :: v :: rest, args =>
    if c = '%' then
      match args with
      | [] => ['%', '!', v] ++ "(MISSING)".data ++ doPrintf rest []
      | a :: more =>
        if v = 's' then
          match a with
          | .str s => s.data ++ doPrintf rest more
          | .int n => "%!s(int=".data ++ (toString n).data ++ [')'] ++ doPrintf rest more
        else if v = 'd' then
          match a with
          | .int n => (toString n).data ++ doPrintf rest more
          | .str s => "%!d(string=".data ++ s.data ++ [')'] ++ doPrintf rest more
        else c :: doPrintf (v :: rest) args
    else c :: doPrintf (v :: rest) args

/-- Every `%` of a format is followed by `s` or `d`, the verbs `doPrintf`
interprets. -/
def knownVerbs : List Char → Bool
  | [] => true
  | [c] => c != '%'
  | c :: v :: rest =>
    if c = '%' then (v = 's' || v = 'd') && knownVerbs rest else knownVerbs (v :: rest)

/-- The function `fmt.Sprintf`. -/
def Sprintf (format : String) (args : List Arg) : String :=
  ⟨doPrintf format.data args⟩

/-! ## The message catalog -/

/-- The table `errorMessages`: constraint kind to message template. -/
def errorMessages : List (String × String) := [
  -- Comparisons between fields
  ("eqcsfield", "the field '%s' must be equal to the field '%s'"),
  ("eqfield", "the field '%s' must be equal to the field '%s'"),
  ("gtcsfield", "the field '%s' must be greater than the field '%s'"),
  ("gtecsfield", "the field '%s' must be greater than or equal to the field '%s'"),
  ("gtefield", "the field '%s' must be greater than or equal to the field '%s'"),
  ("gtfield", "the field '%s' must be greater than the field '%s'"),
  ("ltcsfield", "the field '%s' must be less than the field '%s'"),
  ("ltecsfield", "the field '%s' must be less than or equal to the field '%s'"),
  ("ltefield", "the field '%s' must be less than or equal to the field '%s'"),
  ("ltfield", "the field '%s' must be less than the field '%s'"),
  ("necsfield", "the field '%s' must not be equal to the field '%s'"),
  ("nefield", "the field '%s' must not be equal to the field '%s'"),
  -- Network validations
  ("cidr", "the field '%s' must be a valid CIDR notation"),
  ("cidrv4", "the field '%s' must be a valid IPv4 CIDR notation"),
  ("cidrv6", "the field '%s' must be a valid IPv6 CIDR notation"),
  ("datauri", "the field '%s' must be a valid data URI"),
  ("fqdn", "the field '%s' must be a valid fully qualified domain name"),
  ("hostname", "the field '%s' must be a valid hostname according to RFC 952"),
  ("hostname_port", "the field '%s' must be a valid host:port format"),
  ("hostname_rfc1123", "the field '%s' must be a valid hostname according to RFC 1123"),
  ("ip", "the field '%s' must be a valid IP address"),
  ("ip4_addr", "the field '%s' must be a valid IPv4 address"),
  ("ip6_addr", "the field '%s' must be a valid IPv6 address"),
  ("ip_addr", "the field '%s' must be a valid IP address"),
  ("ipv4", "the field '%s' must be a valid IPv4 address"),
  ("ipv6", "the field '%s' must be a valid IPv6 address"),
  ("mac", "the field '%s' must be a valid MAC address"),
  ("tcp4_addr", "the field '%s' must be a valid TCP IPv4 address"),
  ("tcp6_addr", "the field '%s' must be a valid TCP IPv6 address"),
  ("tcp_addr", "the field '%s' must be a valid TCP address"),
  ("udp4_addr", "the field '%s' must be a valid UDP IPv4 address"),
  ("udp6_addr", "the field '%s' must be a valid UDP IPv6 address"),
  ("udp_addr", "the field '%s' must be a valid UDP address"),
  ("unix_addr", "the field '%s' must be a valid Unix domain socket address"),
  ("uri", "the field '%s' must be a valid URI"),
  ("url", "the field '%s' must be a valid URL"),
  ("http_url", "the field '%s' must be a valid HTTP URL"),
  ("url_encoded", "the field '%s' must be a valid URL encoded string"),
  ("urn_rfc2141", "the field '%s' must be a valid URN according to RFC 2141"),
  -- String validations
  ("alpha", "the field '%s' must contain only alphabetic characters"),
  ("alphanum", "the field '%s' must contain only alphanumeric characters"),
  ("alphanumunicode", "the field '%s' must contain only alphanumeric Unicode characters"),
  ("alphaunicode", "the field '%s' must contain only alphabetic Unicode characters"),
  ("ascii", "the field '%s' must contain only ASCII characters"),
  ("boolean", "the field '%s' must be a valid boolean value"),
  ("contains", "the field '%s' must contain the text '%s'"),
  ("containsany", "the field '%s' must contain any of the characters '%s'"),
  ("containsrune", "the field '%s' must contain the character '%s'"),
  ("endsnotwith", "the field '%s' must not end with '%s'"),
  ("endswith", "the field '%s' must end with '%s'"),
  ("excludes", "the field '%s' must not contain the text '%s'"),
  ("excludesall", "the field '%s' must not contain any of the characters '%s'"),
  ("excludesrune", "the field '%s' must not contain the character '%s'"),
  ("lowercase", "the field '%s' must be in lowercase"),
  ("multibyte", "the field '%s' must contain multi-byte characters"),
  ("number", "the field '%s' must be a valid number"),
  ("numeric", "the field '%s' must be a valid numeric value"),
  ("printascii", "the field '%s' must contain only printable ASCII characters"),
  ("startsnotwith", "the field '%s' must not start with '%s'"),
  ("startswith", "the field '%s' must start with '%s'"),
  ("uppercase", "the field '%s' must be in uppercase"),
  -- Format validations
  ("base64", "the field '%s' must be a valid Base64 string"),
  ("base64url", "the field '%s' must be a valid Base64URL string"),
  ("base64rawurl", "the field '%s' must be a valid Base64RawURL string"),
  ("bic", "the field '%s' must be a valid Business Identifier Code (BIC)"),
  ("bcp47_language_tag", "the field '%s' must be a valid BCP 47 language tag"),
  ("btc_addr", "the field '%s' must be a valid Bitcoin address"),
  ("btc_addr_bech32", "the field '%s' must be a valid Bitcoin Bech32 address"),
  ("credit_card", "the field '%s' must be a valid credit card number"),
  ("mongodb", "the field '%s' must be a valid MongoDB ObjectID"),
  ("mongodb_connection_string", "the field '%s' must be a valid MongoDB connection string"),
  ("cron", "the field '%s' must be a valid cron expression"),
  ("spicedb", "the field '%s' must be a valid SpiceDb identifier"),
  ("datetime", "the field '%s' must be a valid datetime format '%s'"),
  ("e164", "the field '%s' must be a valid E.164 formatted phone number"),
  ("ein", "the field '%s' must be a valid U.S. Employer Identification Number"),
  ("email", "the field '%s' must be a valid email address"),
  ("eth_addr", "the field '%s' must be a valid Ethereum address"),
  ("hexadecimal", "the field '%s' must be a valid hexadecimal string"),
  ("hexcolor", "the field '%s' must be a valid hex color"),
  ("hsl", "the field '%s' must be a valid HSL color"),
  ("hsla", "the field '%s' must be a valid HSLA color"),
  ("html", "the field '%s' must contain valid HTML tags"),
  ("html_encoded", "the field '%s' must be HTML encoded"),
  ("isbn", "the field '%s' must be a valid ISBN"),
  ("isbn10", "the field '%s' must be a valid ISBN-10"),
  ("isbn13", "the field '%s' must be a valid ISBN-13"),
  ("issn", "the field '%s' must be a valid ISSN"),
  ("iso3166_1_alpha2", "the field '%s' must be a valid ISO 3166-1 alpha-2 country code"),
  ("iso3166_1_alpha3", "the field '%s' must be a valid ISO 3166-1 alpha-3 country code"),
  ("iso3166_1_alpha_numeric", "the field '%s' must be a valid ISO 3166-1 numeric country code"),
  ("iso3166_2", "the field '%s' must be a valid ISO 3166-2 country subdivision code"),
  ("iso4217", "the field '%s' must be a valid ISO 4217 currency code"),
  ("json", "the field '%s' must be valid JSON"),
  ("jwt", "the field '%s' must be a valid JSON Web Token (JWT)"),
  ("latitude", "the field '%s' must be a valid latitude"),
  ("longitude", "the field '%s' must be a valid longitude"),
  ("luhn_checksum", "the field '%s' must pass the Luhn algorithm checksum"),
  ("postcode_iso3166_alpha2", "the field '%s' must be a valid postcode for the country '%s'"),
  ("postcode_iso3166_alpha2_field",
    "the field '%s' must be a valid postcode for the country in field '%s'"),
  ("rgb", "the field '%s' must be a valid RGB color"),
  ("rgba", "the field '%s' must be a valid RGBA color"),
  ("ssn", "the field '%s' must be a valid Social Security Number"),
  ("timezone", "the field '%s' must be a valid timezone"),
  ("uuid", "the field '%s' must be a valid UUID"),
  ("uuid3", "the field '%s' must be a valid UUID v3"),
  ("uuid3_rfc4122", "the field '%s' must be a valid UUID v3 RFC4122"),
  ("uuid4", "the field '%s' must be a valid UUID v4"),
  ("uuid4_rfc4122", "the field '%s' must be a valid UUID v4 RFC4122"),
  ("uuid5", "the field '%s' must be a valid UUID v5"),
  ("uuid5_rfc4122", "the field '%s' must be a valid UUID v5 RFC4122"),
  ("uuid_rfc4122", "the field '%s' must be a valid UUID RFC4122"),
  ("md4", "the field '%s' must be a valid MD4 hash"),
  ("md5", "the field '%s' must be a valid MD5 hash"),
  ("sha256", "the field '%s' must be a valid SHA256 hash"),
  ("sha384", "the field '%s' must be a valid SHA384 hash"),
  ("sha512", "the field '%s' must be a valid SHA512 hash"),
  ("ripemd128", "the field '%s' must be a valid RIPEMD-128 hash"),
  ("ripemd160", "the field '%s' must be a valid RIPEMD-160 hash"),
  ("tiger128", "the field '%s' must be a valid TIGER128 hash"),
  ("tiger160", "the field '%s' must be a valid TIGER160 hash"),
  ("tiger192", "the field '%s' must be a valid TIGER192 hash"),
  ("semver", "the field '%s' must be a valid semantic version"),
  ("ulid", "the field '%s' must be a valid ULID"),
  ("cve", "the field '%s' must be a valid CVE identifier"),
  -- Numeric/string comparisons
  ("eq", "the field '%s' must be equal to '%s'"),
  ("eq_ignore_case", "the field '%s' must be equal to '%s' ignoring case"),
  ("gt", "the field '%s' must be greater than %s"),
  ("gte", "the field '%s' must be greater than or equal to %s"),
  ("lt", "the field '%s' must be less than %s"),
  ("lte", "the field '%s' must be less than or equal to %s"),
  ("ne", "the field '%s' must not be equal to '%s'"),
  ("ne_ignore_case", "the field '%s' must not be equal to '%s' ignoring case"),
  -- Length/size validations for strings
  ("len", "the field '%s' must have a length of %s"),
  ("max", "the field '%s' must be no more than %s"),
  ("min", "the field '%s' must have a length of %s"),
  -- Other validations
  ("oneof", "the field '%s' must be one of the following values: %s"),
  ("required", "the field '%s' is required"),
  ("required_if", "the field '%s' is required when %s"),
  ("required_unless", "the field '%s' is required unless %s"),
  ("required_with", "the field '%s' is required when %s is present"),
  ("required_with_all", "the field '%s' is required when all of %s are present"),
  ("required_without", "the field '%s' is required when %s is not present"),
  ("required_without_all", "the field '%s' is required when none of %s are present"),
  ("excluded_if", "the field '%s' is excluded when %s"),
  ("excluded_unless", "the field '%s' is excluded unless %s"),
  ("excluded_with", "the field '%s' is excluded when %s is present"),
  ("excluded_with_all", "the field '%s' is excluded when all of %s are present"),
  ("excluded_without", "the field '%s' is excluded when %s is not present"),
  ("excluded_without_all", "the field '%s' is excluded when none of %s are present"),
  ("unique", "the field '%s' must contain unique values"),
  ("validateFn", "the field '%s' failed custom validation"),
  -- Aliases
  ("iscolor", "the field '%s' must be a valid color (hex, rgb, rgba, hsl, or hsla)"),
  ("country_code",
    "the field '%s' must be a valid country code (ISO 3166-1 alpha-2, alpha-3, or numeric)")]

/-- A Go map read `m[k]`: the zero value `""` when the key is absent. -/
def mapIndex (m : List (String × String)) (k : String) : String :=
  (m.lookup k).getD ""

/-- A Go map write `m[k] = v`: overwrite the entry of `k`, or add one. -/
def mapSet : List (String × String) → String → String → List (String × String)
  | [], k, v => [(k, v)]
  | (k0, v0) :: rest, k, v =>
    if k0 = k then (k, v) :: rest else (k0, v0) :: mapSet rest k v

/-! ## getJSONFieldName -/

/-- The list `strings.Split(s, ",")`. -/
def splitComma : List Char → List (List Char)
  | [] => [[]]
  | c :: rest =>
    if c = ',' then [] :: splitComma rest
    else
      match splitComma rest with
      | [] => [[c]]
      | p :: ps => (c :: p) :: ps

/-- The function `getJSONFieldName`: the JSON field name for a struct field. -/
def getJSONFieldName (field : StructField) : String :=
  let jsonTag := field.jsonTag
  if jsonTag = "" ∨ jsonTag = "-" then field.Name
  else
    let parts := splitComma jsonTag.data
    match parts with
    | p :: _ => if p ≠ [] then ⟨p⟩ else field.Name
    | [] => field.Name

/-! ## formatErrorMessage -/

/-- A `validator.FieldError`, through the accessors the source calls: `Tag()`,
`Param()`, `Kind()`, `StructField()` and `Error()`. -/
structure FieldError where
  Tag : String
  Param : String
  Kind : Kind
  StructField : String
  Error : String
  deriving DecidableEq, Repr

/-- The labels of the first `case` of the switch in `formatErrorMessage`. -/
def caseNameOnly : List String :=
  ["required", "dir", "file", "image", "isdefault", "unique", "validateFn",
   "lowercase", "uppercase", "multibyte", "ascii", "printascii",
   "boolean", "alpha", "alphanum", "alphanumunicode", "alphaunicode",
   "ip", "ipv4", "ipv6", "email", "url", "uri", "http_url", "uuid",
   "json", "credit_card", "isbn", "isbn10", "isbn13", "issn", "ssn",
   "hexadecimal", "hexcolor", "rgb", "rgba", "hsl", "hsla", "iscolor",
   "country_code", "timezone", "latitude", "longitude",
   "cidr", "hostname", "fqdn", "mac", "base64", "jwt", "html", "html_encoded",
   "number", "numeric", "semver", "ulid", "cve", "ein", "btc_addr",
   "btc_addr_bech32", "eth_addr", "bic", "bcp47_language_tag", "mongodb",
   "mongodb_connection_string", "cron", "spicedb", "luhn_checksum", "e164"]

/-- The labels of the `case "eq", "ne", ...` clause. -/
def caseCompare : List String :=
  ["eq", "ne", "gt", "gte", "lt", "lte", "eq_ignore_case", "ne_ignore_case"]

/-- The labels of the field-to-field comparison clause. -/
def caseFieldCompare : List String :=
  ["eqfield", "nefield", "gtfield", "gtefield", "ltfield", "ltefield",
   "eqcsfield", "necsfield", "gtcsfield", "gtecsfield", "ltcsfield", "ltecsfield"]

/-- The labels of the substring and character clause. -/
def caseContains : List String :=
  ["contains", "containsany", "containsrune", "excludes", "excludesall",
   "excludesrune", "endswith", "endsnotwith", "startswith", "startsnotwith"]

/-- The labels of the conditional requirement and exclusion clause. -/
def caseConditional : List String :=
  ["required_if", "required_unless", "required_with", "required_with_all",
   "required_without", "required_without_all", "excluded_if", "excluded_unless",
   "excluded_with", "excluded_with_all", "excluded_without", "excluded_without_all"]

/-- The labels of the postcode clause. -/
def casePostcode : List String :=
  ["postcode_iso3166_alpha2", "postcode_iso3166_alpha2_field"]

/-- The function `formatErrorMessage`. The switch is a chain of tests in the
order of its clauses; a Go switch takes the first clause with a matching label. -/
def formatErrorMessage (err : FieldError) (jsonFieldName : String) : String :=
  let tag := err.Tag
  let param := err.Param
  match errorMessages.lookup tag with
  | some messageFormat =>
    if tag ∈ caseNameOnly then
      Sprintf messageFormat [.str jsonFieldName]
    else if tag ∈ caseCompare then
      Sprintf messageFormat [.str jsonFieldName, .str param]
    else if tag = "len" then
      Sprintf messageFormat [.str jsonFieldName, .str param]
    else if tag ∈ ["max", "min"] then
      if err.Kind = Kind.String then
        Sprintf (mapIndex errorMessages "len") [.str jsonFieldName, .str param]
      else
        if tag = "min" then
          Sprintf "the field '%s' must be at least %s" [.str jsonFieldName, .str param]
        else
          Sprintf "the field '%s' must be no more than %s" [.str jsonFieldName, .str param]
    else if tag = "oneof" then
      Sprintf messageFormat [.str jsonFieldName, .str param]
    else if tag ∈ caseFieldCompare then
      Sprintf messageFormat [.str jsonFieldName, .str param]
    else if tag ∈ caseContains then
      Sprintf messageFormat [.str jsonFieldName, .str param]
    else if tag ∈ caseConditional then
      Sprintf messageFormat [.str jsonFieldName, .str param]
    else if tag ∈ casePostcode then
      Sprintf messageFormat [.str jsonFieldName, .str param]
    else if tag = "datetime" then
      Sprintf messageFormat [.str jsonFieldName, .str param]
    else
      Sprintf messageFormat [.str jsonFieldName]
  | none => err.Error

/-! ## The constraint evaluator -/

/-- The `error` returned by `validate.Struct`: nil, an `InvalidValidationError`
for a value that is not a struct, or the `ValidationErrors` found. -/
inductive ValidateResult where
  | nil
  | InvalidValidationError
  | ValidationErrors (errs : List FieldError)
  deriving DecidableEq, Repr

/-- The external evaluator `*validator.Validate`: `report` lists the violations
it finds on a struct value. -/
structure Validate where
  report : Value → List FieldError

/-- A non-nil pointer is followed once, every other value is itself. -/
def Value.deref : Value → Value
  | .ptr (some v) => v
  | v => v

/-- The method `validate.Struct`, as the library documents it: the argument is
dereferenced once; a value that is not a struct is refused with an
`InvalidValidationError`; for a struct the result is nil when there is no
violation and the `ValidationErrors` otherwise. The library also refuses a
struct whose type converts to `time.Time`; the data model has no time values,
so that refusal is not part of the embedding. -/
def Validate.Struct (validate : Validate) (s : Value) : ValidateResult :=
  match s.deref with
  | .struct fields =>
    match validate.report (.struct fields) with
    | [] => .nil
    | e :: errs => .ValidationErrors (e :: errs)
  | _ => .InvalidValidationError

/-! ## Reports -/

/-- A Go `map[string]string` result: the nil map, or a map with its entries.
The entries are listed in the order in which their keys were first written; the
order carries no meaning, a Go map has none. -/
inductive Report where
  | nil
  | map (entries : List (String × String))
  deriving DecidableEq, Repr

/-- The entries a `range` over the map visits; none for the nil map. -/
def Report.entries : Report → List (String × String)
  | .nil => []
  | .map es => es

/-- The keys of a report. -/
def Report.keys (r : Report) : List String :=
  r.entries.map Prod.fst

/-- The number of entries, Go's `len(m)`. -/
def Report.len (r : Report) : Nat :=
  r.entries.length

/-- The lookup `m[k]` with its presence flag. -/
def Report.get? (r : Report) (k : String) : Option String :=
  r.entries.lookup k

/-! ## deepValidator -/

/-- The method `Value.IsNil()` of a pointer. -/
def Value.IsNil : Value → Bool
  | .ptr none => true
  | _ => false

/-- The kind of `v.Elem()` for a non-nil pointer `v`. -/
def Value.ElemKind : Value → Option friendlyerrors.Kind
  | .ptr (some v) => some v.Kind
  | _ => none

/-- The method `typ.FieldByName` on the layout of a struct. -/
def FieldByName (typ : List (StructField × Value)) (name : String) : Option StructField :=
  (typ.find? (fun f => f.1.Name = name)).map (fun f => f.1)

/-- The loop over `errs` in `deepValidator`: every violation whose field is in
the layout is written under the field's JSON name. -/
def levelErrors (typ : List (StructField × Value)) (errs : List FieldError)
    (errors : List (String × String)) : List (String × String) :=
  errs.foldl (fun errors e =>
    match FieldByName typ e.StructField with
    | some f => mapSet errors (getJSONFieldName f) (formatErrorMessage e (getJSONFieldName f))
    | none => errors) errors

/-- The loop `for k, v := range nestedErrors { errors[key(k)] = v }`. -/
def mergeNested (errors : List (String × String)) (key : String → String) (nested : Report) :
    List (String × String) :=
  nested.entries.foldl (fun errors kv => mapSet errors (key kv.1) kv.2) errors

mutual
/-- The function `deepValidator`. The result `none` is a panic: the type
assertion on an `InvalidValidationError`, or `NumField` on a value that is not
a struct. -/
def deepValidator (s : Value) (validate : Validate) : Option Report :=
  match s with
  | .ptr none => some .nil
  | .ptr (some (.struct fields)) | .struct fields =>
    match validate.Struct s with
    | .InvalidValidationError => none
    | .nil => (walkFields fields validate []).map Report.map
    | .ValidationErrors errs =>
      (walkFields fields validate (levelErrors fields errs [])).map Report.map
  | _ => none

/-- The loop `for i := 0; i < val.NumField(); i++` of `deepValidator`, from the
field at the head of `fields` on, with the map `errors` built so far. The call
`field.Interface()` panics on an unexported field; the data model has exported
fields only, so that panic is not part of the embedding. -/
def walkFields (fields : List (StructField × Value)) (validate : Validate)
    (errors : List (String × String)) : Option (List (String × String)) :=
  match fields with
  | [] => some errors
  | (fieldType, field) :: rest =>
    let jsonFieldName := getJSONFieldName fieldType
    match field.Kind with
    | Kind.Struct =>
      match deepValidator field validate with
      | none => none
      | some nestedErrors =>
        walkFields rest validate
          (mergeNested errors (fun k => Sprintf "%s.%s" [.str jsonFieldName, .str k])
            nestedErrors)
    | Kind.Ptr =>
      if field.IsNil = false ∧ field.ElemKind = some Kind.Struct then
        match deepValidator field validate with
        | none => none
        | some nestedErrors =>
          walkFields rest validate
            (mergeNested errors (fun k => Sprintf "%s.%s" [.str jsonFieldName, .str k])
              nestedErrors)
      else walkFields rest validate errors
    | Kind.Slice | Kind.Array =>
      match field with
      | .slice elemT elems | .array elemT elems =>
        -- Only process if the slice/array contains structs
        if elemT.Kind = Kind.Struct then
          match walkElems elems validate jsonFieldName 0 errors with
          | none => none
          | some errors => walkFields rest validate errors
        else walkFields rest validate errors
      | _ => walkFields rest validate errors
    | _ => walkFields rest validate errors

/-- The loop `for j := 0; j < field.Len(); j++` of `deepValidator`, from index
`j` on. -/
def walkElems (elems : List Value) (validate : Validate) (jsonFieldName : String) (j : Nat)
    (errors : List (String × String)) : Option (List (String × String)) :=
  match elems with
  | [] => some errors
  | elem :: rest =>
    match deepValidator elem validate with
    | none => none
    | some nestedErrors =>
      walkElems rest validate jsonFieldName (j + 1)
        (mergeNested errors
          (fun k => Sprintf "%s[%d].%s" [.str jsonFieldName, .int j, .str k]) nestedErrors)
end

/-! ## Entry points

An `interface{}` argument is an `Option Value`: `none` is the nil interface.
The evaluator each entry point creates with `validator.New()` is the parameter
`validate`. -/

/-- The function `ValidateStruct`. -/
def ValidateStruct (validate : Validate) (s : Option Value) : Option Report :=
  match s with
  | none => some .nil
  | some v => deepValidator v validate

/-- The function `ValidateStructDeep`. -/
def ValidateStructDeep (validate : Validate) (s : Option Value) : Option Report :=
  ValidateStruct validate s

/-- The usage-error report of `ValidateSliceDeep` and `ValidateAny`. -/
def rootError : Report :=
  .map [("root", "provided value is neither a struct nor a slice/array")]

/-- The kind of `t.Elem()` for a pointer, slice or array type `t`. -/
def GoType.ElemKind : GoType → Option friendlyerrors.Kind
  | .ptr e => some e.Kind
  | .slice e => some e.Kind
  | .array e => some e.Kind
  | _ => none

/-- The loop `for i := 0; i < val.Len(); i++` of `ValidateSliceDeep`, from
index `i` on. -/
def sliceLoop (elems : List Value) (validate : Validate) (i : Nat)
    (errors : List (String × String)) : Option (List (String × String)) :=
  match elems with
  | [] => some errors
  | elem :: rest =>
    if elem.Kind = Kind.Struct ∨
        (elem.Kind = Kind.Ptr ∧ elem.IsNil = false ∧ elem.ElemKind = some Kind.Struct) then
      match deepValidator elem validate with
      | none => none
      | some nestedErrors =>
        sliceLoop rest validate (i + 1)
          (mergeNested errors (fun k => Sprintf "[%d].%s" [.int i, .str k]) nestedErrors)
    else sliceLoop rest validate (i + 1) errors

/-- The function `ValidateSliceDeep`. -/
def ValidateSliceDeep (validate : Validate) (slice : Option Value) : Option Report :=
  match slice with
  | none => some .nil
  | some val =>
    match val with
    | .slice elemType elems | .array elemType elems =>
      -- Only process slices/arrays that contain structs
      if elemType.Kind ≠ Kind.Struct ∧
          (elemType.Kind = Kind.Ptr ∧ elemType.ElemKind ≠ some Kind.Struct) then
        some .nil
      else (sliceLoop elems validate 0 []).map Report.map
    | _ => some rootError

/-- The function `ValidateAny`. -/
def ValidateAny (validate : Validate) (input : Option Value) : Option Report :=
  match input with
  | none => some .nil
  | some x =>
    if x.Kind = Kind.Ptr ∧ x.IsNil = true then some .nil
    else
      let v := if x.Kind = Kind.Ptr then x.deref else x
      match v.Kind with
      | Kind.Struct => ValidateStructDeep validate input
      | Kind.Slice | Kind.Array => ValidateSliceDeep validate input
      | _ => some rootError

/-! ## Well-typed values and the shape of the traversal -/

mutual
/-- A value is well typed when every element of a slice or array in it has the
kind of the static element type, as every Go value does. -/
def Value.WellTyped : Value → Bool
  | .basic _ _ => true
  | .struct fields => wellTypedFields fields
  | .ptr none => true
  | .ptr (some v) => v.WellTyped
  | .slice elemT elems => wellTypedElems elemT elems
  | .array elemT elems => wellTypedElems elemT elems

/-- Every field value of a layout is well typed. -/
def wellTypedFields : List (StructField × Value) → Bool
  | [] => true
  | (_, v) :: rest => v.WellTyped && wellTypedFields rest

/-- Every element is well typed and has the kind of the element type. -/
def wellTypedElems (elemT : GoType) : List Value → Bool
  | [] => true
  | v :: rest => decide (v.Kind = elemT.Kind) && v.WellTyped && wellTypedElems elemT rest
end

/-- The layout `deepValidator` walks for its argument: the fields of a struct,
or of the struct a non-nil pointer points to. -/
def Value.fields? : Value → Option (List (StructField × Value))
  | .struct fields => some fields
  | .ptr (some (.struct fields)) => some fields
  | _ => none

/-- A value `deepValidator` accepts as a composite: a struct or a non-nil
pointer to one. -/
def Value.isComposite (v : Value) : Bool :=
  v.fields?.isSome

/-- One step of descent from a composite: into field `i`, or into element `j`
of the slice or array held by field `i`. -/
inductive Step where
  | field (i : Nat)
  | elem (i j : Nat)
  deriving DecidableEq, Repr

/-- A segment of a field path: a public field name, with the index of a
collection element when there is one. -/
structure Segment where
  name : String
  index : Option Nat
  deriving DecidableEq, Repr

/-- The field path made of the segments followed by the public name of a
field: `name.` for a plain segment and `name[i].` for an indexed one. -/
def pathKey : List Segment → String → String
  | [], g => g
  | ⟨p, none⟩ :: rest, g => p ++ "." ++ pathKey rest g
  | ⟨p, some i⟩ :: rest, g => p ++ "[" ++ toString i ++ "]." ++ pathKey rest g

/-- The composite one step below `v`, with the path segment of the step: a
field that is a struct or a non-nil pointer to a struct, or an element of a
field that is a slice or array of structs. -/
def Value.step (v : Value) (st : Step) : Option (Segment × Value) :=
  match v.fields? with
  | none => none
  | some fields =>
    match st with
    | .field i =>
      match fields[i]? with
      | some (f, .struct fs) => some (⟨getJSONFieldName f, none⟩, .struct fs)
      | some (f, .ptr (some (.struct fs))) =>
        some (⟨getJSONFieldName f, none⟩, .ptr (some (.struct fs)))
      | _ => none
    | .elem i j =>
      match fields[i]? with
      | some (f, .slice elemT elems) | some (f, .array elemT elems) =>
        if elemT.Kind = Kind.Struct then
          elems[j]?.map (fun e => (⟨getJSONFieldName f, some j⟩, e))
        else none
      | _ => none

/-- The composite reached from `v` along a list of steps, with the segments of
the path. -/
def descend : Value → List Step → Option (List Segment × Value)
  | v, [] => some ([], v)
  | v, st :: rest =>
    match v.step st with
    | none => none
    | some (seg, c) =>
      match descend c rest with
      | none => none
      | some (segs, d) => some (seg :: segs, d)

/-! ## The structures of the test suite -/

mutual
/-- Equality of values, computed structurally. -/
def Value.beq : Value → Value → Bool
  | .basic b t, .basic b2 t2 => decide (b = b2) && decide (t = t2)
  | .struct fs, .struct gs => beqFields fs gs
  | .ptr none, .ptr none => true
  | .ptr (some v), .ptr (some w) => Value.beq v w
  | .slice e vs, .slice e2 ws => decide (e = e2) && beqElems vs ws
  | .array e vs, .array e2 ws => decide (e = e2) && beqElems vs ws
  | _, _ => false

/-- Equality of layouts with their field values. -/
def beqFields : List (StructField × Value) → List (StructField × Value) → Bool
  | [], [] => true
  | (f, v) :: fs, (g, w) :: gs => decide (f = g) && Value.beq v w && beqFields fs gs
  | _, _ => false

/-- Equality of element lists. -/
def beqElems : List Value → List Value → Bool
  | [], [] => true
  | v :: vs, w :: ws => Value.beq v w && beqElems vs ws
  | _, _ => false
end

/-- A string field value. -/
def str (s : String) : Value := .basic .String s

/-- An int field value. -/
def int (n : Int) : Value := .basic .Int (toString n)

/-- A value of the type `TestStruct` of the test suite. -/
def TestStruct (name email : String) (age : Int)
    (password confirmPass website username : String) : Value :=
  .struct [
    (⟨"Name", "name", "required"⟩, str name),
    (⟨"Email", "email", "required,email"⟩, str email),
    (⟨"Age", "age", "required,min=18"⟩, int age),
    (⟨"Password", "password", "required,min=8"⟩, str password),
    (⟨"ConfirmPass", "confirm_password", "eqfield=Password"⟩, str confirmPass),
    (⟨"Website", "website", "url"⟩, str website),
    (⟨"Username", "username", "required,alphanum"⟩, str username)]

/-- A value of the type `TestNestedStruct` of the test suite. -/
def TestNestedStruct (address city zipCode : String) : Value :=
  .struct [
    (⟨"Address", "address", "required"⟩, str address),
    (⟨"City", "city", "required"⟩, str city),
    (⟨"ZipCode", "zip_code", "required,numeric"⟩, str zipCode)]

/-- A value of the type `TestComplexStruct` of the test suite. -/
def TestComplexStruct (user : Value) (contacts : List Value) (address : Value) : Value :=
  .struct [
    (⟨"User", "user", "required"⟩, user),
    (⟨"Contacts", "contacts", "required,min=1"⟩, .slice .struct contacts),
    (⟨"Address", "address", "required"⟩, address)]

/-- The field `User` of the invalid input of `TestValidateStructDeep`. -/
def invalidUser : Value :=
  TestStruct "" "invalid-email" 15 "123" "different" "not-a-url" "john doe"

/-- The element of `Contacts` in the invalid input of `TestValidateStructDeep`. -/
def invalidContact : Value :=
  TestStruct "" "another-invalid" 10 "short" "mismatch" "bad-url" "bad user"

/-- The field `Address` of the invalid input of `TestValidateStructDeep`. -/
def invalidAddress : Value :=
  TestNestedStruct "" "" "abc"

/-- The input of the case "invalid complex struct with nested errors" of
`TestValidateStructDeep`. -/
def invalidComplex : Value :=
  TestComplexStruct invalidUser [invalidContact] invalidAddress

/-- The default message of the evaluator for a violation. -/
def defaultError (ns field tag : String) : String :=
  "Key: '" ++ ns ++ "' Error:Field validation for '" ++ field ++ "' failed on the '" ++ tag
    ++ "' tag"

/-- The violations of an invalid `TestStruct` reached under the namespace `ns`:
one per field, for the first rule of the field that fails. -/
def testStructErrors (ns : String) : List FieldError :=
  [⟨"required", "", Kind.String, "Name", defaultError (ns ++ "Name") "Name" "required"⟩,
   ⟨"email", "", Kind.String, "Email", defaultError (ns ++ "Email") "Email" "email"⟩,
   ⟨"min", "18", Kind.basic .Int, "Age", defaultError (ns ++ "Age") "Age" "min"⟩,
   ⟨"min", "8", Kind.String, "Password", defaultError (ns ++ "Password") "Password" "min"⟩,
   ⟨"eqfield", "Password", Kind.String, "ConfirmPass",
      defaultError (ns ++ "ConfirmPass") "ConfirmPass" "eqfield"⟩,
   ⟨"url", "", Kind.String, "Website", defaultError (ns ++ "Website") "Website" "url"⟩,
   ⟨"alphanum", "", Kind.String, "Username",
      defaultError (ns ++ "Username") "Username" "alphanum"⟩]

/-- The violations of the invalid `TestNestedStruct` reached under the
namespace `ns`. -/
def testNestedErrors (ns : String) : List FieldError :=
  [⟨"required", "", Kind.String, "Address", defaultError (ns ++ "Address") "Address" "required"⟩,
   ⟨"required", "", Kind.String, "City", defaultError (ns ++ "City") "City" "required"⟩,
   ⟨"numeric", "", Kind.String, "ZipCode", defaultError (ns ++ "ZipCode") "ZipCode" "numeric"⟩]

/-- The evaluator on the values of the test suite. Run on a struct it also
validates the struct-typed fields, and names each violation by the field it
is on; it does not enter a slice that carries no `dive` rule. Every other value
is valid. -/
def testValidate : Validate where
  report v :=
    if v.beq invalidComplex then
      testStructErrors "TestComplexStruct.User." ++ testNestedErrors "TestComplexStruct.Address."
    else if v.beq invalidUser then testStructErrors "TestStruct."
    else if v.beq invalidContact then testStructErrors "TestStruct."
    else if v.beq invalidAddress then testNestedErrors "TestNestedStruct."
    else []

/-- The keys field `fv` with descriptor `ft` contributes to the report of its
struct: the keys of its own report behind `name.`, or the keys of the reports
of its elements behind `name[j].`. -/
def fieldContrib (validate : Validate) (ft : StructField) (fv : Value) (x : String) : Prop :=
  ((fv.Kind = Kind.Struct ∨
      (fv.Kind = Kind.Ptr ∧ fv.IsNil = false ∧ fv.ElemKind = some Kind.Struct)) ∧
    ∃ nested, deepValidator fv validate = some nested ∧
      ∃ k ∈ nested.keys, x = getJSONFieldName ft ++ "." ++ k) ∨
  (∃ elemT elems, (fv = .slice elemT elems ∨ fv = .array elemT elems) ∧
    elemT.Kind = Kind.Struct ∧
    ∃ (j : Nat) (e : Value) (nested : Report), elems[j]? = some e ∧ deepValidator e validate = some nested ∧
      ∃ k ∈ nested.keys, x = getJSONFieldName ft ++ "[" ++ toString j ++ "]." ++ k)


/-- The evaluator reports no violation on any composite reached from `v`. -/
def Clean (validate : Validate) (v : Value) : Prop :=
  ∀ path segs c cfs, descend v path = some (segs, c) → c.fields? = some cfs →
    validate.report (.struct cfs) = []

/-- An evaluator that reports no violation. -/
def noViolations : Validate where
  report _ := []

/-- The valid input of `TestValidateStruct`. -/
def validUser : Value :=
  TestStruct "John Doe" "john@example.com" 25 "password123" "password123"
    "https://example.com" "johndoe"

/-- The contact of the valid input of `TestValidateStructDeep`. -/
def validContact : Value :=
  TestStruct "Jane Doe" "jane@example.com" 23 "password456" "password456"
    "https://jane.com" "janedoe"

/-- The valid input of `TestValidateStructDeep`. -/
def validComplex : Value :=
  TestComplexStruct validUser [validContact] (TestNestedStruct "123 Main St" "New York" "10001")

/-- A struct whose field `Addresses` is a slice of pointers to
`TestNestedStruct`, holding one pointer to the invalid address. -/
def pointerSliceStruct : Value :=
  .struct [(⟨"Addresses", "addresses", ""⟩,
    .slice (.ptr .struct) [.ptr (some invalidAddress)])]

/-- A sub-record whose required field `Name` is empty. -/
def missingName : Value :=
  .struct [(⟨"Name", "name", "required"⟩, str "")]

/-- A structure holding a list of two sub-records, each with an empty `Name`. -/
def twoItems : Value :=
  .struct [(⟨"Items", "items", "required"⟩, .slice .struct [missingName, missingName])]

/-- The evaluator on `twoItems`: the empty `Name` of a sub-record violates
`required`; the list itself is not empty and is not entered. -/
def itemValidate : Validate where
  report v :=
    if v.beq missingName then
      [⟨"required", "", Kind.String, "Name", defaultError "Item.Name" "Name" "required"⟩]
    else []

/-- The public name of a field as the specification words it: the internal
name when the json annotation is empty or is `-`; otherwise the text of the
annotation before its first comma, or the internal name when that text is
empty. -/
def specPublicName (name jsonTag : String) : String :=
  if jsonTag = "" ∨ jsonTag = "-" then name
  else
    let head := jsonTag.data.takeWhile (fun c => c ≠ ',')
    if head = [] then name else ⟨head⟩

/-- A slice of pointers to `TestNestedStruct`: a nil pointer, then a pointer to
the invalid address. -/
def pointerSlice : Value :=
  .slice (.ptr .struct) [.ptr none, .ptr (some invalidAddress)]

/-- The number a list of decimal digits denotes, most significant digit first. -/
def digitsValue (l : List Char) : Nat :=
  l.foldl (fun a c => 10 * a + (c.toNat - 48)) 0

/-! ## Definitions for the formatter, the violations and the renaming -/

/-- The number of `%s` verbs of a format. -/
def placeholders : List Char → Nat
  | [] => 0
  | [_] => 0
  | c :: v :: rest =>
    if c = '%' ∧ v = 's' then placeholders rest + 1 else placeholders (v :: rest)

/-- Every `%` of a format starts the verb `%s`. -/
def stringVerbs : List Char → Bool
  | [] => true
  | [c] => c != '%'
  | c :: v :: rest =>
    if c = '%' then v = 's' && stringVerbs rest else stringVerbs (v :: rest)

/-- The plain substitution of strings for the `%s` verbs of a format, in order,
with no marker for a missing or a surplus operand: the text a format stands for
when it is given exactly the operands it asks for. -/
def substitute : List Char → List String → List Char
  | [], _ => []
  | [c], _ => [c]
  | c :: v :: rest, args =>
    if c = '%' ∧ v = 's' then
      match args with
      | a :: more => a.data ++ substitute rest more
      | [] => substitute rest []
    else c :: substitute (v :: rest) args

/-- The labels of the clauses of the switch in `formatErrorMessage` that pass
the field name and the parameter. -/
def twoArgKinds : List String :=
  caseCompare ++ ["len", "max", "min", "oneof"] ++ caseFieldCompare ++ caseContains ++
    caseConditional ++ casePostcode ++ ["datetime"]

/-- The first list starts the second. -/
def startsWith : List Char → List Char → Bool
  | [], _ => true
  | _ :: _, [] => false
  | a :: p, b :: l => a = b && startsWith p l

/-- The body of the loop over the fields in `deepValidator`, for one field: the
map after the field, or `none` when a call below panics. -/
def fieldStep (validate : Validate) (fieldType : StructField) (field : Value)
    (errors : List (String × String)) : Option (List (String × String)) :=
  match field with
  | .struct _ | .ptr (some (.struct _)) =>
    (deepValidator field validate).map (fun nestedErrors =>
      mergeNested errors
        (fun k => Sprintf "%s.%s" [.str (getJSONFieldName fieldType), .str k]) nestedErrors)
  | .slice elemT elems | .array elemT elems =>
    if elemT.Kind = Kind.Struct then
      walkElems elems validate (getJSONFieldName fieldType) 0 errors
    else some errors
  | _ => some errors

/-- An evaluator that reports, on the sub-record `missingName`, a violation on
a field `Ghost` that the sub-record does not have, before the one on `Name`. -/
def ghostValidate : Validate where
  report v :=
    if v.beq missingName then
      [⟨"required", "", Kind.String, "Ghost", defaultError "Item.Ghost" "Ghost" "required"⟩,
       ⟨"required", "", Kind.String, "Name", defaultError "Item.Name" "Name" "required"⟩]
    else []

/-- The entries the violations of one level stand for, one for each violation
whose subject field is in the layout, in the order the evaluator reports them:
the public name of the field and the message. -/
def levelEntries (typ : List (StructField × Value)) (errs : List FieldError) :
    List (String × String) :=
  errs.filterMap (fun e =>
    (FieldByName typ e.StructField).map (fun f =>
      (getJSONFieldName f, formatErrorMessage e (getJSONFieldName f))))

mutual
/-- The resolvable violations over all composites the traversal visits from
`v`, one pair for each, in the order of the traversal: the field path of the
violation and its message. Nothing is merged: two violations with the same
field path are two pairs. -/
def violationEntries (v : Value) (validate : Validate) : List (String × String) :=
  match v with
  | .ptr (some (.struct fields)) | .struct fields =>
    levelEntries fields (validate.report (.struct fields)) ++ fieldsEntries fields validate
  | _ => []

/-- The resolvable violations below the fields of a layout, each behind the
segment of its field. -/
def fieldsEntries (fields : List (StructField × Value)) (validate : Validate) :
    List (String × String) :=
  match fields with
  | [] => []
  | (fieldType, field) :: rest =>
    let jsonFieldName := getJSONFieldName fieldType
    (match field.Kind with
      | Kind.Struct =>
        (violationEntries field validate).map (fun kv => (jsonFieldName ++ "." ++ kv.1, kv.2))
      | Kind.Ptr =>
        if field.IsNil = false ∧ field.ElemKind = some Kind.Struct then
          (violationEntries field validate).map (fun kv => (jsonFieldName ++ "." ++ kv.1, kv.2))
        else []
      | Kind.Slice | Kind.Array =>
        match field with
        | .slice elemT elems | .array elemT elems =>
          if elemT.Kind = Kind.Struct then elemsEntries elems validate jsonFieldName 0 else []
        | _ => []
      | _ => []) ++ fieldsEntries rest validate

/-- The resolvable violations below the elements of a collection field, from
index `j` on, each behind the indexed segment of its element. -/
def elemsEntries (elems : List Value) (validate : Validate) (jsonFieldName : String) (j : Nat) :
    List (String × String) :=
  match elems with
  | [] => []
  | elem :: rest =>
    (violationEntries elem validate).map
        (fun kv => (jsonFieldName ++ "[" ++ toString j ++ "]." ++ kv.1, kv.2)) ++
      elemsEntries rest validate jsonFieldName (j + 1)
end

/-- The resolvable violations below one field, behind the segment of the field. -/
def fieldEntries (validate : Validate) (fieldType : StructField) (field : Value) :
    List (String × String) :=
  match field with
  | .struct _ | .ptr (some (.struct _)) =>
    (violationEntries field validate).map
      (fun kv => (getJSONFieldName fieldType ++ "." ++ kv.1, kv.2))
  | .slice elemT elems | .array elemT elems =>
    if elemT.Kind = Kind.Struct then elemsEntries elems validate (getJSONFieldName fieldType) 0
    else []
  | _ => []

/-- A public name that holds neither `.` nor `[`, the separators of a field
path. -/
@[reducible] def plainName (s : String) : Prop :=
  '.' ∉ s.data ∧ '[' ∉ s.data

/-- The condition on one composite with layout `cfs`: the public names of its
fields are pairwise distinct and plain, and no two violations the evaluator
reports on it resolve to the same field. -/
def LevelRegular (validate : Validate) (cfs : List (StructField × Value)) : Prop :=
  (cfs.map (fun p => getJSONFieldName p.1)).Nodup ∧
  (∀ p ∈ cfs, plainName (getJSONFieldName p.1)) ∧
  ((validate.report (.struct cfs)).filterMap (fun e => FieldByName cfs e.StructField)).Nodup

/-- The condition holds on every composite reached from `v`. -/
def Regular (validate : Validate) (v : Value) : Prop :=
  ∀ path segs c cfs, descend v path = some (segs, c) → c.fields? = some cfs →
    LevelRegular validate cfs

/-- The key `x` is the name `n`, a separator `.` or `[`, and a remainder. -/
def keyBelow (n x : String) : Prop :=
  ∃ c t, (c = '.' ∨ c = '[') ∧ x.data = n.data ++ c :: t

/-- The resolvable violations below the elements of a collection handed to
`ValidateSliceDeep`, from index `i` on, each behind the root segment `[i].` of
its element. -/
def rootEntries (elems : List Value) (validate : Validate) (i : Nat) :
    List (String × String) :=
  match elems with
  | [] => []
  | elem :: rest =>
    (violationEntries elem validate).map (fun kv => ("[" ++ toString i ++ "]." ++ kv.1, kv.2)) ++
      rootEntries rest validate (i + 1)

/-- The descriptor of a field after its json annotation is replaced; the
internal name and the validate annotation stay. -/
def renamed (f : StructField) (jsonTag : String) : StructField :=
  ⟨f.Name, jsonTag, f.validateTag⟩

/-- The entries of one level when the field `g` is written under `name g`: one
for each violation whose subject field is in the layout. -/
def levelEntriesAs (name : StructField → String) (typ : List (StructField × Value))
    (errs : List FieldError) : List (String × String) :=
  errs.filterMap (fun e =>
    (FieldByName typ e.StructField).map (fun g => (name g, formatErrorMessage e (name g))))

/-- An evaluator for a form: a field `Name` must not be empty and a field
`Email` must not be `invalid-email`. It reads the internal names and the
values, and no json annotation. -/
def formValidate : Validate where
  report v :=
    match v with
    | .struct fields =>
      fields.filterMap (fun p =>
        if p.1.Name = "Name" ∧ p.2.beq (str "") = true then
          some ⟨"required", "", Kind.String, "Name", defaultError "Form.Name" "Name" "required"⟩
        else if p.1.Name = "Email" ∧ p.2.beq (str "invalid-email") = true then
          some ⟨"email", "", Kind.String, "Email", defaultError "Form.Email" "Email" "email"⟩
        else none)
    | _ => []

/-- A form with an empty `Name` and an invalid `Email`. -/
def signup : Value :=
  .struct [(⟨"Name", "name", "required"⟩, str ""),
    (⟨"Email", "email", "required,email"⟩, str "invalid-email")]

/-- The form `signup` after the json name of `Email` is changed to `name`, the
json name of the field `Name`. -/
def signupCollision : Value :=
  .struct [(⟨"Name", "name", "required"⟩, str ""),
    (renamed ⟨"Email", "email", "required,email"⟩ "name", str "invalid-email")]

/-- The value a map holds under `x` after the pairs of a list are written to it
in order: the value of the last pair whose key is `x`. -/
def lastWrite : List (String × String) → String → Option String
  | [], _ => none
  | (k, v) :: rest, x => (lastWrite rest x).or (if k = x then some v else none)

/-- The entries of the violations of one level that resolve to the field `f`,
written under `name`. -/
def ownEntries (typ : List (StructField × Value)) (errs : List FieldError) (f : StructField)
    (name : String) : List (String × String) :=
  (errs.filter (fun e => decide (FieldByName typ e.StructField = some f))).map
    (fun e => (name, formatErrorMessage e name))

/-- The entries of all fields but `f`: those of the violations of the level
that do not resolve to `f`, and those below the fields before and after `f`. -/
def otherEntries (validate : Validate) (pre post typ : List (StructField × Value))
    (errs : List FieldError) (f : StructField) : List (String × String) :=
  levelEntries typ (errs.filter (fun e => !decide (FieldByName typ e.StructField = some f))) ++
    (fieldsEntries pre validate ++ fieldsEntries post validate)

/-- An evaluator for an order: a field `Name` must not be empty, and the empty
`Name` of a sub-record held by a field is also reported on the order itself,
under its leaf name `Name`. It reads the internal names and the values, and no
json annotation. -/
def orderValidate : Validate where
  report v :=
    match v with
    | .struct fields =>
      fields.filterMap (fun p =>
        if p.1.Name = "Name" ∧ p.2.beq (str "") = true then
          some ⟨"required", "", Kind.String, "Name", defaultError "Order.Name" "Name" "required"⟩
        else if p.2.beq missingName = true then
          some ⟨"required", "", Kind.String, "Name",
            defaultError "Order.Customer.Name" "Name" "required"⟩
        else none)
    | _ => []

/-- An order with an empty `Name` and a sub-record `Customer` with an empty
`Name`. -/
def customerOrder : Value :=
  .struct [(⟨"Name", "name", "required"⟩, str ""),
    (⟨"Customer", "customer", ""⟩, missingName)]

/-! ## Lemmas: maps -/

theorem mem_keys_mapSet (m : List (String × String)) (k v x : String) :
    x ∈ (mapSet m k v).map Prod.fst ↔ x = k ∨ x ∈ m.map Prod.fst := by
  induction m with
  | nil => simp [mapSet]
  | cons kv rest ih =>
    obtain ⟨k0, v0⟩ := kv
    by_cases h : k0 = k
    · subst h
      simp [mapSet]
    · simp only [mapSet, if_neg h, List.map_cons, List.mem_cons, ih]
      tauto

theorem lookup_mapSet (m : List (String × String)) (k v x : String) :
    (mapSet m k v).lookup x = if x = k then some v else m.lookup x := by
  induction m with
  | nil =>
    by_cases h : x = k
    · simp [mapSet, h, List.lookup]
    · have hb : (x == k) = false := by simpa using h
      simp [mapSet, h, List.lookup, hb]
  | cons kv rest ih =>
    obtain ⟨k0, v0⟩ := kv
    by_cases h : k0 = k
    · subst h
      by_cases hx : x = k0
      · simp [mapSet, hx, List.lookup]
      · have hb : (x == k0) = false := by simpa using hx
        simp [mapSet, hx, List.lookup, hb]
    · by_cases hx : x = k0
      · subst hx
        have hxk : ¬ x = k := h
        simp [mapSet, h, hxk, List.lookup]
      · have hb : (x == k0) = false := by simpa using hx
        simp [mapSet, h, List.lookup, ih, hb]

theorem mem_keys_mergeNested (key : String → String) (nested : Report)
    (errors : List (String × String)) (x : String) :
    x ∈ (mergeNested errors key nested).map Prod.fst ↔
      x ∈ errors.map Prod.fst ∨ ∃ k ∈ nested.keys, x = key k := by
  unfold mergeNested Report.keys
  generalize nested.entries = es
  induction es generalizing errors with
  | nil => simp
  | cons kv rest ih =>
    simp only [List.foldl_cons, ih, mem_keys_mapSet, List.map_cons, List.mem_cons]
    constructor
    · rintro ((h | h) | ⟨k, hk, h⟩)
      · exact Or.inr ⟨kv.1, Or.inl rfl, h⟩
      · exact Or.inl h
      · exact Or.inr ⟨k, Or.inr hk, h⟩
    · rintro (h | ⟨k, hk | hk, h⟩)
      · exact Or.inl (Or.inr h)
      · subst hk
        exact Or.inl (Or.inl h)
      · exact Or.inr ⟨k, hk, h⟩

theorem mem_keys_levelErrors (typ : List (StructField × Value)) (errs : List FieldError)
    (errors : List (String × String)) (x : String) :
    x ∈ (levelErrors typ errs errors).map Prod.fst ↔
      x ∈ errors.map Prod.fst ∨
        ∃ e ∈ errs, ∃ f, FieldByName typ e.StructField = some f ∧ x = getJSONFieldName f := by
  unfold levelErrors
  induction errs generalizing errors with
  | nil => simp
  | cons e rest ih =>
    simp only [List.foldl_cons, ih, List.mem_cons]
    cases hf : FieldByName typ e.StructField with
    | none =>
      simp only
      constructor
      · rintro (h | ⟨e1, h1, f, hf1, hx⟩)
        · exact Or.inl h
        · exact Or.inr ⟨e1, Or.inr h1, f, hf1, hx⟩
      · rintro (h | ⟨e1, h1 | h1, f, hf1, hx⟩)
        · exact Or.inl h
        · subst h1
          rw [hf] at hf1
          cases hf1
        · exact Or.inr ⟨e1, h1, f, hf1, hx⟩
    | some f0 =>
      simp only [mem_keys_mapSet]
      constructor
      · rintro ((h | h) | ⟨e1, h1, f, hf1, hx⟩)
        · exact Or.inr ⟨e, Or.inl rfl, f0, hf, h⟩
        · exact Or.inl h
        · exact Or.inr ⟨e1, Or.inr h1, f, hf1, hx⟩
      · rintro (h | ⟨e1, h1 | h1, f, hf1, hx⟩)
        · exact Or.inl (Or.inr h)
        · subst h1
          rw [hf] at hf1
          cases hf1
          exact Or.inl (Or.inl hx)
        · exact Or.inr ⟨e1, h1, f, hf1, hx⟩

/-! ## Lemmas: Sprintf on the formats of the source -/

theorem Sprintf_dot (a b : String) :
    Sprintf "%s.%s" [.str a, .str b] = a ++ "." ++ b := by
  apply String.ext
  simp [Sprintf, doPrintf]

theorem toString_natCast (j : Nat) : toString (j : Int) = toString j := rfl

theorem Sprintf_index (a b : String) (j : Nat) :
    Sprintf "%s[%d].%s" [.str a, .int j, .str b] = a ++ "[" ++ toString j ++ "]." ++ b := by
  apply String.ext
  simp [Sprintf, doPrintf, toString_natCast]

theorem Sprintf_rootIndex (b : String) (i : Nat) :
    Sprintf "[%d].%s" [.int i, .str b] = "[" ++ toString i ++ "]." ++ b := by
  apply String.ext
  simp [Sprintf, doPrintf, toString_natCast]


set_option maxRecDepth 100000 in
/-- The templates of the catalog use no verb but `%s`, and the formats written
in the source none but `%s` and `%d`. -/
theorem formats_knownVerbs :
    (∀ p ∈ errorMessages, knownVerbs p.2.data = true) ∧
    knownVerbs "the field '%s' must be at least %s".data = true ∧
    knownVerbs "the field '%s' must be no more than %s".data = true ∧
    knownVerbs "%s.%s".data = true ∧ knownVerbs "%s[%d].%s".data = true ∧
    knownVerbs "[%d].%s".data = true := by
  decide

/-! ## Lemmas: one level of the traversal -/

theorem mem_keys_walkElems (validate : Validate) (name : String) (x : String) :
    ∀ (elems : List Value) (j : Nat) (errors out : List (String × String)),
      walkElems elems validate name j errors = some out →
      (x ∈ out.map Prod.fst ↔
        x ∈ errors.map Prod.fst ∨
          ∃ (i : Nat) (e : Value) (nested : Report), elems[i]? = some e ∧ deepValidator e validate = some nested ∧
            ∃ k ∈ nested.keys, x = name ++ "[" ++ toString (j + i) ++ "]." ++ k) := by
  intro elems
  induction elems with
  | nil =>
    intro j errors out h
    simp only [walkElems, Option.some.injEq] at h
    subst h
    simp
  | cons elem rest ih =>
    intro j errors out h
    rw [walkElems] at h
    cases hd : deepValidator elem validate with
    | none => simp [hd] at h
    | some nested0 =>
      simp only [hd] at h
      rw [ih (j + 1) _ out h, mem_keys_mergeNested]
      constructor
      · rintro ((h1 | ⟨k, hk, hx⟩) | ⟨i, e, nested, hi, hde, k, hk, hx⟩)
        · exact Or.inl h1
        · refine Or.inr ⟨0, elem, nested0, by simp, hd, k, hk, ?_⟩
          rw [hx, Sprintf_index]
          rfl
        · refine Or.inr ⟨i + 1, e, nested, by simpa using hi, hde, k, hk, ?_⟩
          rw [hx, Nat.add_assoc, Nat.add_comm 1 i]
      · rintro (h1 | ⟨i, e, nested, hi, hde, k, hk, hx⟩)
        · exact Or.inl (Or.inl h1)
        · cases i with
          | zero =>
            simp only [List.getElem?_cons_zero, Option.some.injEq] at hi
            subst hi
            rw [hd] at hde
            cases hde
            refine Or.inl (Or.inr ⟨k, hk, ?_⟩)
            rw [hx, Sprintf_index]
            rfl
          | succ i =>
            refine Or.inr ⟨i, e, nested, by simpa using hi, hde, k, hk, ?_⟩
            rw [hx, Nat.add_assoc, Nat.add_comm 1 i]


theorem walkFields_cons (validate : Validate) (ft : StructField) (fv : Value)
    (rest : List (StructField × Value)) (errors out : List (String × String))
    (h : walkFields ((ft, fv) :: rest) validate errors = some out) :
    ∃ mid, walkFields rest validate mid = some out ∧
      ∀ x, x ∈ mid.map Prod.fst ↔ x ∈ errors.map Prod.fst ∨ fieldContrib validate ft fv x := by
  cases fv with
  | basic b t =>
    simp only [walkFields, Value.Kind] at h
    refine ⟨errors, h, fun x => ?_⟩
    simp [fieldContrib, Value.Kind]
  | struct fs =>
    simp only [walkFields, Value.Kind] at h
    cases hd : deepValidator (.struct fs) validate with
    | none => simp [hd] at h
    | some nested =>
      simp only [hd] at h
      refine ⟨_, h, fun x => ?_⟩
      rw [mem_keys_mergeNested]
      simp [fieldContrib, Value.Kind, hd, Sprintf_dot]
  | ptr t =>
    simp only [walkFields, Value.Kind] at h
    by_cases hc : (Value.ptr t).IsNil = false ∧ (Value.ptr t).ElemKind = some Kind.Struct
    · rw [if_pos hc] at h
      cases hd : deepValidator (.ptr t) validate with
      | none => simp [hd] at h
      | some nested =>
        simp only [hd] at h
        refine ⟨_, h, fun x => ?_⟩
        rw [mem_keys_mergeNested]
        simp [fieldContrib, Value.Kind, hd, Sprintf_dot, hc]
    · rw [if_neg hc] at h
      refine ⟨errors, h, fun x => ?_⟩
      simp only [fieldContrib, Value.Kind]
      constructor
      · exact Or.inl
      · rintro (h1 | ⟨(h2 | ⟨-, h2⟩), -⟩ | ⟨elemT, elems, (h2 | h2), -⟩)
        · exact h1
        · cases h2
        · exact absurd h2 hc
        · cases h2
        · cases h2
  | slice elemT elems =>
    simp only [walkFields, Value.Kind] at h
    by_cases hc : elemT.Kind = Kind.Struct
    · rw [if_pos hc] at h
      cases hw : walkElems elems validate (getJSONFieldName ft) 0 errors with
      | none => simp [hw] at h
      | some mid =>
        simp only [hw] at h
        refine ⟨mid, h, fun x => ?_⟩
        rw [mem_keys_walkElems validate _ x elems 0 errors mid hw]
        apply or_congr Iff.rfl
        constructor
        · rintro ⟨i, e, nested, hi, hde, k, hk, hx⟩
          refine Or.inr ⟨elemT, elems, Or.inl rfl, hc, i, e, nested, hi, hde, k, hk, ?_⟩
          simpa using hx
        · rintro (⟨h2, -⟩ | ⟨elemT1, elems1, h2, -, j, e, nested, hj, hde, k, hk, hx⟩)
          · simp [Value.Kind, Value.IsNil] at h2
          · refine ⟨j, e, nested, ?_, hde, k, hk, by simpa using hx⟩
            rcases h2 with h2 | h2 <;> cases h2
            exact hj
    · rw [if_neg hc] at h
      refine ⟨errors, h, fun x => ?_⟩
      simp [fieldContrib, Value.Kind, hc]
  | array elemT elems =>
    simp only [walkFields, Value.Kind] at h
    by_cases hc : elemT.Kind = Kind.Struct
    · rw [if_pos hc] at h
      cases hw : walkElems elems validate (getJSONFieldName ft) 0 errors with
      | none => simp [hw] at h
      | some mid =>
        simp only [hw] at h
        refine ⟨mid, h, fun x => ?_⟩
        rw [mem_keys_walkElems validate _ x elems 0 errors mid hw]
        apply or_congr Iff.rfl
        constructor
        · rintro ⟨i, e, nested, hi, hde, k, hk, hx⟩
          refine Or.inr ⟨elemT, elems, Or.inr rfl, hc, i, e, nested, hi, hde, k, hk, ?_⟩
          simpa using hx
        · rintro (⟨h2, -⟩ | ⟨elemT1, elems1, h2, -, j, e, nested, hj, hde, k, hk, hx⟩)
          · simp [Value.Kind, Value.IsNil] at h2
          · refine ⟨j, e, nested, ?_, hde, k, hk, by simpa using hx⟩
            rcases h2 with h2 | h2 <;> cases h2
            exact hj
    · rw [if_neg hc] at h
      refine ⟨errors, h, fun x => ?_⟩
      simp [fieldContrib, Value.Kind, hc]

theorem mem_keys_walkFields (validate : Validate) (x : String) :
    ∀ (fields : List (StructField × Value)) (errors out : List (String × String)),
      walkFields fields validate errors = some out →
      (x ∈ out.map Prod.fst ↔
        x ∈ errors.map Prod.fst ∨ ∃ p ∈ fields, fieldContrib validate p.1 p.2 x) := by
  intro fields
  induction fields with
  | nil =>
    intro errors out h
    simp only [walkFields, Option.some.injEq] at h
    subst h
    simp
  | cons p rest ih =>
    intro errors out h
    obtain ⟨ft, fv⟩ := p
    obtain ⟨mid, hrest, hmid⟩ := walkFields_cons validate ft fv rest errors out h
    rw [ih mid out hrest, hmid x]
    simp only [List.mem_cons, exists_eq_or_imp]
    tauto


/-! ## Lemmas: structs, pointers and induction on values -/

theorem deepValidator_ptr (validate : Validate) (fs : List (StructField × Value)) :
    deepValidator (.ptr (some (.struct fs))) validate = deepValidator (.struct fs) validate := by
  simp only [deepValidator, Validate.Struct, Value.deref]

theorem deepValidator_struct (validate : Validate) (fs : List (StructField × Value)) :
    deepValidator (.struct fs) validate =
      (walkFields fs validate (levelErrors fs (validate.report (.struct fs)) [])).map
        Report.map := by
  simp only [deepValidator, Validate.Struct, Value.deref]
  cases h : validate.report (.struct fs) with
  | nil => simp [levelErrors]
  | cons e errs => simp


theorem Value.induct {P : Value → Prop}
    (basic : ∀ b t, P (.basic b t))
    (struct : ∀ fields, (∀ p ∈ fields, P p.2) → P (.struct fields))
    (ptrNil : P (.ptr none))
    (ptr : ∀ v, P v → P (.ptr (some v)))
    (slice : ∀ elemT elems, (∀ e ∈ elems, P e) → P (.slice elemT elems))
    (array : ∀ elemT elems, (∀ e ∈ elems, P e) → P (.array elemT elems)) :
    ∀ v, P v := by
  intro v
  refine @Value.rec P (fun fields => ∀ p ∈ fields, P p.2) (fun o => ∀ w, o = some w → P w)
    (fun elems => ∀ e ∈ elems, P e) (fun p => P p.2)
    basic struct ?_ slice array ?_ ?_ ?_ ?_ ?_ ?_ ?_ v
  · intro target h
    cases target with
    | none => exact ptrNil
    | some w => exact ptr w (h w rfl)
  · intro p hp
    cases hp
  · intro head tail hh ht p hp
    rcases List.mem_cons.mp hp with h | h
    · subst h
      exact hh
    · exact ht p h
  · intro w hw
    cases hw
  · intro val hv w hw
    cases hw
    exact hv
  · intro e he
    cases he
  · intro head tail hh ht e he
    rcases List.mem_cons.mp he with h | h
    · subst h
      exact hh
    · exact ht e h
  · intro fst snd h
    exact h

theorem wellTypedFields_iff (fields : List (StructField × Value)) :
    wellTypedFields fields = true ↔ ∀ p ∈ fields, p.2.WellTyped = true := by
  induction fields with
  | nil => simp [wellTypedFields]
  | cons p rest ih =>
    obtain ⟨f, v⟩ := p
    simp [wellTypedFields, ih]

theorem wellTypedElems_iff (elemT : GoType) (elems : List Value) :
    wellTypedElems elemT elems = true ↔
      ∀ e ∈ elems, e.Kind = elemT.Kind ∧ e.WellTyped = true := by
  induction elems with
  | nil => simp [wellTypedElems]
  | cons e rest ih =>
    simp [wellTypedElems, ih, and_assoc]

theorem kind_struct_iff (v : Value) : v.Kind = Kind.Struct ↔ ∃ fs, v = .struct fs := by
  cases v <;> simp [Value.Kind]

theorem live_ptr_iff (v : Value) :
    (v.Kind = Kind.Ptr ∧ v.IsNil = false ∧ v.ElemKind = some Kind.Struct) ↔
      ∃ fs, v = .ptr (some (.struct fs)) := by
  cases v with
  | ptr t =>
    cases t with
    | none => simp [Value.Kind, Value.IsNil]
    | some w => cases w <;> simp [Value.Kind, Value.IsNil, Value.ElemKind]
  | _ => simp [Value.Kind]

/-! ## The formatter -/

theorem lookup_len :
    errorMessages.lookup "len" = some "the field '%s' must have a length of %s" := by
  decide

theorem Sprintf_length (a b : String) :
    Sprintf "the field '%s' must have a length of %s" [.str a, .str b]
      = "the field '" ++ a ++ "' must have a length of " ++ b := by
  apply String.ext
  simp [Sprintf, doPrintf]

/-- C8: a `min` or `max` violation on a string renders as the length message;
on any other kind `min` renders as "must be at least" and `max` as "must be no
more than", each with the public field name and the parameter. -/
theorem formatErrorMessage_min_max (err : FieldError) (n : String)
    (h : err.Tag = "min" ∨ err.Tag = "max") :
    formatErrorMessage err n =
      if err.Kind = Kind.String then
        "the field '" ++ n ++ "' must have a length of " ++ err.Param
      else if err.Tag = "min" then "the field '" ++ n ++ "' must be at least " ++ err.Param
      else "the field '" ++ n ++ "' must be no more than " ++ err.Param := by
  have h1 : ¬ (err.Tag ∈ caseNameOnly) := by rcases h with h | h <;> rw [h] <;> decide
  have h2 : ¬ (err.Tag ∈ caseCompare) := by rcases h with h | h <;> rw [h] <;> decide
  have h3 : ¬ (err.Tag = "len") := by rcases h with h | h <;> rw [h] <;> decide
  have h4 : err.Tag ∈ ["max", "min"] := by rcases h with h | h <;> rw [h] <;> decide
  have h5 : (errorMessages.lookup err.Tag).isSome = true := by
    rcases h with h | h <;> rw [h] <;> decide
  obtain ⟨t, ht⟩ := Option.isSome_iff_exists.mp h5
  unfold formatErrorMessage
  simp only [ht, h1, h2, h3, h4, if_true, if_false, mapIndex, lookup_len, Option.getD]
  split
  · exact Sprintf_length _ _
  · split
    · apply String.ext
      simp [Sprintf, doPrintf]
    · apply String.ext
      simp [Sprintf, doPrintf]

/-- The rule for `min` on the field `Age` of the test suite, an int below 18. -/
theorem formatErrorMessage_min_max_witness :
    ("min" = "min" ∨ "min" = "max") ∧
    formatErrorMessage ⟨"min", "18", Kind.basic .Int, "Age", ""⟩ "age" =
      if Kind.basic .Int = Kind.String then
        "the field '" ++ "age" ++ "' must have a length of " ++ "18"
      else if "min" = "min" then "the field '" ++ "age" ++ "' must be at least " ++ "18"
      else "the field '" ++ "age" ++ "' must be no more than " ++ "18" :=
  ⟨Or.inl rfl,
    formatErrorMessage_min_max ⟨"min", "18", Kind.basic .Int, "Age", ""⟩ "age" (Or.inl rfl)⟩

/-- C9: a `len` violation renders as "the field 'n' must have a length of N",
whatever the kind of the checked value. -/
theorem formatErrorMessage_len (err : FieldError) (n : String) (h : err.Tag = "len") :
    formatErrorMessage err n = "the field '" ++ n ++ "' must have a length of " ++ err.Param := by
  have h1 : ¬ ("len" ∈ caseNameOnly) := by decide
  have h2 : ¬ ("len" ∈ caseCompare) := by decide
  unfold formatErrorMessage
  simp only [h, lookup_len, h1, h2, if_true, if_false]
  exact Sprintf_length _ _

/-- The rule for `len` on an int field. -/
theorem formatErrorMessage_len_witness :
    "len" = "len" ∧
    formatErrorMessage ⟨"len", "5", Kind.basic .Int, "Code", ""⟩ "code" =
      "the field '" ++ "code" ++ "' must have a length of " ++ "5" :=
  ⟨rfl, formatErrorMessage_len ⟨"len", "5", Kind.basic .Int, "Code", ""⟩ "code" rfl⟩

theorem fieldCompare_two_args (err : FieldError) (n : String)
    (h : err.Tag ∈ caseFieldCompare) :
    formatErrorMessage err n =
      Sprintf (mapIndex errorMessages err.Tag) [.str n, .str err.Param] := by
  have key : ∀ tag ∈ caseFieldCompare,
      (errorMessages.lookup tag).isSome = true ∧ tag ∉ caseNameOnly ∧ tag ∉ caseCompare ∧
        tag ≠ "len" ∧ tag ∉ ["max", "min"] ∧ tag ≠ "oneof" := by
    decide
  obtain ⟨h0, h1, h2, h3, h4, h5⟩ := key err.Tag h
  obtain ⟨t, ht⟩ := Option.isSome_iff_exists.mp h0
  unfold formatErrorMessage
  simp only [ht, h1, h2, h3, h4, h5, h, if_true, if_false, mapIndex, Option.getD]


theorem doPrintf_plain (l rest : List Char) (args : List Arg) (h : '%' ∉ l) :
    doPrintf (l ++ rest) args = l ++ doPrintf rest args := by
  induction l with
  | nil => rfl
  | cons c l ih =>
    have hc : ¬ c = '%' := fun e => h (e ▸ List.mem_cons_self _ _)
    have hl : '%' ∉ l := fun e => h (List.mem_cons_of_mem _ e)
    cases hlr : l ++ rest with
    | nil =>
      have h1 : l = [] := (List.append_eq_nil.mp hlr).1
      have h2 : rest = [] := (List.append_eq_nil.mp hlr).2
      subst h1 h2
      simp [doPrintf]
    | cons v tl =>
      have e : doPrintf (c :: v :: tl) args = c :: doPrintf (v :: tl) args := by
        simp only [doPrintf, if_neg hc]
      rw [List.cons_append, hlr, e, ← hlr, ih hl]
      rfl

theorem doPrintf_string (l rest : List Char) (a : String) (args : List Arg) (h : '%' ∉ l) :
    doPrintf (l ++ '%' :: 's' :: rest) (.str a :: args) = l ++ (a.data ++ doPrintf rest args) := by
  rw [doPrintf_plain _ _ _ h]
  simp only [doPrintf, if_true]

theorem Sprintf_fieldCompare (rel n p : String) (hrel : '%' ∉ rel.data) :
    Sprintf ("the field '%s' must " ++ rel ++ " the field '%s'") [.str n, .str p] =
      "the field '" ++ n ++ "' must " ++ rel ++ " the field '" ++ p ++ "'" := by
  apply String.ext
  have hL : ("the field '%s' must " ++ rel ++ " the field '%s'").data =
      "the field '".data ++ '%' :: 's' ::
        (("' must ".data ++ (rel.data ++ " the field '".data)) ++ '%' :: 's' :: "'".data) := by
    simp [String.data_append]
  have hmid : '%' ∉ "' must ".data ++ (rel.data ++ " the field '".data) := by
    simp [hrel]
  show doPrintf _ _ = _
  rw [hL, doPrintf_string _ _ _ _ (by decide), doPrintf_string _ _ _ _ hmid]
  simp [doPrintf]


/-- C10: for each of the twelve field-to-field comparison kinds the message is
the kind's template "the field '%s' must REL the field '%s'" with the public
name of the subject in the first position and the raw parameter of the
violation, unchanged, in the second. -/
theorem formatErrorMessage_fieldCompare (tag : String)
    (h : tag ∈ ["eqfield", "nefield", "gtfield", "gtefield", "ltfield", "ltefield",
      "eqcsfield", "necsfield", "gtcsfield", "gtecsfield", "ltcsfield", "ltecsfield"]) :
    ∃ rel : String,
      mapIndex errorMessages tag = "the field '%s' must " ++ rel ++ " the field '%s'" ∧
      ∀ (err : FieldError) (n : String), err.Tag = tag →
        formatErrorMessage err n =
          "the field '" ++ n ++ "' must " ++ rel ++ " the field '" ++ err.Param ++ "'" := by
  have key : ∀ t ∈ caseFieldCompare,
      ∃ rel ∈ ["be equal to", "not be equal to", "be greater than",
        "be greater than or equal to", "be less than", "be less than or equal to"],
        mapIndex errorMessages t = "the field '%s' must " ++ rel ++ " the field '%s'" := by
    decide
  have plain : ∀ rel ∈ ["be equal to", "not be equal to", "be greater than",
      "be greater than or equal to", "be less than", "be less than or equal to"],
      '%' ∉ rel.data := by
    decide
  obtain ⟨rel, hrel, ht⟩ := key tag h
  refine ⟨rel, ht, fun err n he => ?_⟩
  subst he
  rw [fieldCompare_two_args err n h, ht]
  exact Sprintf_fieldCompare rel n err.Param (plain rel hrel)

/-- The rule for `eqfield` on the field `ConfirmPass` of the test suite. -/
theorem formatErrorMessage_fieldCompare_witness :
    "eqfield" ∈ ["eqfield", "nefield", "gtfield", "gtefield", "ltfield", "ltefield",
      "eqcsfield", "necsfield", "gtcsfield", "gtecsfield", "ltcsfield", "ltecsfield"] ∧
    (∃ rel : String,
      mapIndex errorMessages "eqfield" = "the field '%s' must " ++ rel ++ " the field '%s'" ∧
      ∀ (err : FieldError) (n : String), err.Tag = "eqfield" →
        formatErrorMessage err n =
          "the field '" ++ n ++ "' must " ++ rel ++ " the field '" ++ err.Param ++ "'") ∧
    formatErrorMessage ⟨"eqfield", "Password", Kind.String, "ConfirmPass", ""⟩
        "confirm_password" =
      "the field 'confirm_password' must be equal to the field 'Password'" :=
  ⟨by decide, formatErrorMessage_fieldCompare "eqfield" (by decide), by decide⟩

/-! ## Steps of descent -/

theorem step_field_iff (v : Value) (fs : List (StructField × Value)) (hv : v.fields? = some fs)
    (i : Nat) (seg : Segment) (c : Value) :
    v.step (.field i) = some (seg, c) ↔
      ∃ f, fs[i]? = some (f, c) ∧ seg = ⟨getJSONFieldName f, none⟩ ∧
        ∃ cfs, c = .struct cfs ∨ c = .ptr (some (.struct cfs)) := by
  simp only [Value.step, hv]
  cases hi : fs[i]? with
  | none => simp
  | some p =>
    obtain ⟨f, w⟩ := p
    cases w with
    | struct cfs =>
      simp only [Option.some.injEq, Prod.mk.injEq]
      constructor
      · rintro ⟨rfl, rfl⟩
        exact ⟨f, ⟨rfl, rfl⟩, rfl, cfs, Or.inl rfl⟩
      · rintro ⟨g, ⟨rfl, rfl⟩, rfl, -⟩
        exact ⟨rfl, rfl⟩
    | ptr t =>
      cases t with
      | none =>
        simp only [Option.some.injEq, Prod.mk.injEq]
        refine ⟨nofun, ?_⟩
        rintro ⟨g, ⟨rfl, rfl⟩, -, cfs, h | h⟩ <;> cases h
      | some u =>
        cases u with
        | struct cfs =>
          simp only [Option.some.injEq, Prod.mk.injEq]
          constructor
          · rintro ⟨rfl, rfl⟩
            exact ⟨f, ⟨rfl, rfl⟩, rfl, cfs, Or.inr rfl⟩
          · rintro ⟨g, ⟨rfl, rfl⟩, rfl, -⟩
            exact ⟨rfl, rfl⟩
        | _ =>
          simp only [Option.some.injEq, Prod.mk.injEq]
          refine ⟨nofun, ?_⟩
          rintro ⟨g, ⟨rfl, rfl⟩, -, cfs, h | h⟩ <;> cases h
    | _ =>
      simp only [Option.some.injEq, Prod.mk.injEq]
      refine ⟨nofun, ?_⟩
      rintro ⟨g, ⟨rfl, rfl⟩, -, cfs, h | h⟩ <;> cases h

theorem step_elem_iff (v : Value) (fs : List (StructField × Value)) (hv : v.fields? = some fs)
    (i j : Nat) (seg : Segment) (c : Value) :
    v.step (.elem i j) = some (seg, c) ↔
      ∃ f w elemT elems, fs[i]? = some (f, w) ∧
        (w = .slice elemT elems ∨ w = .array elemT elems) ∧ elemT.Kind = Kind.Struct ∧
        elems[j]? = some c ∧ seg = ⟨getJSONFieldName f, some j⟩ := by
  simp only [Value.step, hv]
  cases hi : fs[i]? with
  | none => simp
  | some p =>
    obtain ⟨f, w⟩ := p
    cases w with
    | slice elemT elems =>
      by_cases hk : elemT.Kind = Kind.Struct
      · simp only [hk, if_true, Option.map_eq_some', Prod.mk.injEq, Option.some.injEq]
        constructor
        · rintro ⟨e, he, rfl, rfl⟩
          exact ⟨f, _, elemT, elems, ⟨rfl, rfl⟩, Or.inl rfl, hk, he, rfl⟩
        · rintro ⟨g, w, eT, es, ⟨rfl, rfl⟩, h | h, -, he, rfl⟩
          · cases h
            exact ⟨c, he, rfl, rfl⟩
          · cases h
      · simp only [hk, if_false, Option.some.injEq, Prod.mk.injEq]
        refine ⟨nofun, ?_⟩
        rintro ⟨g, w, eT, es, ⟨rfl, rfl⟩, h | h, hk2, -⟩
        · cases h
          exact absurd hk2 hk
        · cases h
    | array elemT elems =>
      by_cases hk : elemT.Kind = Kind.Struct
      · simp only [hk, if_true, Option.map_eq_some', Prod.mk.injEq, Option.some.injEq]
        constructor
        · rintro ⟨e, he, rfl, rfl⟩
          exact ⟨f, _, elemT, elems, ⟨rfl, rfl⟩, Or.inr rfl, hk, he, rfl⟩
        · rintro ⟨g, w, eT, es, ⟨rfl, rfl⟩, h | h, -, he, rfl⟩
          · cases h
          · cases h
            exact ⟨c, he, rfl, rfl⟩
      · simp only [hk, if_false, Option.some.injEq, Prod.mk.injEq]
        refine ⟨nofun, ?_⟩
        rintro ⟨g, w, eT, es, ⟨rfl, rfl⟩, h | h, hk2, -⟩
        · cases h
        · cases h
          exact absurd hk2 hk
    | _ =>
      simp only [Option.some.injEq, Prod.mk.injEq]
      refine ⟨nofun, ?_⟩
      rintro ⟨g, w, eT, es, ⟨rfl, rfl⟩, h | h, -⟩ <;> cases h


theorem fieldContrib_iff_step (validate : Validate) (v : Value)
    (fs : List (StructField × Value)) (hv : v.fields? = some fs) (x : String) :
    (∃ p ∈ fs, fieldContrib validate p.1 p.2 x) ↔
      ∃ st seg c rc, v.step st = some (seg, c) ∧ deepValidator c validate = some rc ∧
        ∃ k ∈ rc.keys, x = pathKey [seg] k := by
  constructor
  · rintro ⟨⟨f, w⟩, hp, hc⟩
    obtain ⟨i, hi⟩ := List.mem_iff_getElem?.mp hp
    rcases hc with ⟨hshape, nested, hd, k, hk, hx⟩ | ⟨elemT, elems, hw, hkind, j, e, nested, hj, hd, k, hk, hx⟩
    · refine ⟨.field i, ⟨getJSONFieldName f, none⟩, w, nested, ?_, hd, k, hk, by simpa [pathKey] using hx⟩
      rw [step_field_iff v fs hv]
      refine ⟨f, hi, rfl, ?_⟩
      rcases hshape with h | h
      · obtain ⟨cfs, h⟩ := (kind_struct_iff w).mp h
        exact ⟨cfs, Or.inl h⟩
      · obtain ⟨cfs, h⟩ := (live_ptr_iff w).mp h
        exact ⟨cfs, Or.inr h⟩
    · refine ⟨.elem i j, ⟨getJSONFieldName f, some j⟩, e, nested, ?_, hd, k, hk,
        by simpa [pathKey] using hx⟩
      rw [step_elem_iff v fs hv]
      exact ⟨f, w, elemT, elems, hi, hw, hkind, hj, rfl⟩
  · rintro ⟨st, seg, c, rc, hst, hd, k, hk, hx⟩
    cases st with
    | field i =>
      obtain ⟨f, hi, rfl, cfs, hc⟩ := (step_field_iff v fs hv i seg c).mp hst
      refine ⟨(f, c), List.mem_iff_getElem?.mpr ⟨i, hi⟩, Or.inl ⟨?_, rc, hd, k, hk, by simpa [pathKey] using hx⟩⟩
      rcases hc with h | h
      · exact Or.inl ((kind_struct_iff c).mpr ⟨cfs, h⟩)
      · exact Or.inr ((live_ptr_iff c).mpr ⟨cfs, h⟩)
    | elem i j =>
      obtain ⟨f, w, elemT, elems, hi, hw, hkind, hj, rfl⟩ := (step_elem_iff v fs hv i j seg c).mp hst
      exact ⟨(f, w), List.mem_iff_getElem?.mpr ⟨i, hi⟩,
        Or.inr ⟨elemT, elems, hw, hkind, j, c, rc, hj, hd, k, hk, by simpa [pathKey] using hx⟩⟩

/-- The keys of the report of a composite: the public names of the fields with
a resolvable violation at this level, and the keys of the reports of the
composites one step below, each behind the segment of its step. -/
theorem mem_keys_deepValidator (validate : Validate) (v : Value)
    (fs : List (StructField × Value)) (hv : v.fields? = some fs) (r : Report)
    (hr : deepValidator v validate = some r) (x : String) :
    x ∈ r.keys ↔
      (∃ e ∈ validate.report (.struct fs), ∃ f,
        FieldByName fs e.StructField = some f ∧ x = getJSONFieldName f) ∨
      ∃ st seg c rc, v.step st = some (seg, c) ∧ deepValidator c validate = some rc ∧
        ∃ k ∈ rc.keys, x = pathKey [seg] k := by
  rw [← fieldContrib_iff_step validate v fs hv x]
  have hs : deepValidator (.struct fs) validate = some r := by
    cases v with
    | struct fs0 =>
      simp only [Value.fields?, Option.some.injEq] at hv
      subst hv
      exact hr
    | ptr t =>
      cases t with
      | none => simp [Value.fields?] at hv
      | some u =>
        cases u with
        | struct fs0 =>
          simp only [Value.fields?, Option.some.injEq] at hv
          subst hv
          rw [← deepValidator_ptr]
          exact hr
        | _ => simp [Value.fields?] at hv
    | _ => simp [Value.fields?] at hv
  rw [deepValidator_struct] at hs
  cases hw : walkFields fs validate (levelErrors fs (validate.report (.struct fs)) []) with
  | none => simp [hw] at hs
  | some out =>
    simp only [hw, Option.map_some', Option.some.injEq] at hs
    subst hs
    show x ∈ out.map Prod.fst ↔ _
    rw [mem_keys_walkFields validate x fs _ out hw, mem_keys_levelErrors]
    simp


theorem fields?_eq_some (v : Value) (fs : List (StructField × Value)) :
    v.fields? = some fs ↔ v = .struct fs ∨ v = .ptr (some (.struct fs)) := by
  cases v with
  | struct fs0 => simp [Value.fields?]
  | ptr t =>
    cases t with
    | none => simp [Value.fields?]
    | some u => cases u <;> simp [Value.fields?]
  | _ => simp [Value.fields?]

theorem step_fields? (v : Value) (st : Step) (seg : Segment) (c : Value)
    (h : v.step st = some (seg, c)) : ∃ fs, v.fields? = some fs := by
  cases hv : v.fields? with
  | none => simp [Value.step, hv] at h
  | some fs => exact ⟨fs, rfl⟩

theorem step_composite (v : Value) (st : Step) (seg : Segment) (c : Value)
    (fs : List (StructField × Value)) (hv : v.fields? = some fs)
    (hk : ∀ p ∈ fs, ∀ elemT elems, (p.2 = .slice elemT elems ∨ p.2 = .array elemT elems) →
      elemT.Kind = Kind.Struct → ∀ e ∈ elems, e.Kind = Kind.Struct)
    (h : v.step st = some (seg, c)) : ∃ cfs, c.fields? = some cfs := by
  cases st with
  | field i =>
    obtain ⟨f, -, -, cfs, hc⟩ := (step_field_iff v fs hv i seg c).mp h
    exact ⟨cfs, (fields?_eq_some c cfs).mpr hc⟩
  | elem i j =>
    obtain ⟨f, w, elemT, elems, hi, hw, hkind, hj, -⟩ := (step_elem_iff v fs hv i j seg c).mp h
    have := hk (f, w) (List.mem_iff_getElem?.mpr ⟨i, hi⟩) elemT elems hw hkind c
      (List.mem_iff_getElem?.mpr ⟨j, hj⟩)
    obtain ⟨cfs, hc⟩ := (kind_struct_iff c).mp this
    exact ⟨cfs, (fields?_eq_some c cfs).mpr (Or.inl hc)⟩

theorem sizeOf_fields_lt (v : Value) (fs : List (StructField × Value))
    (hv : v.fields? = some fs) : sizeOf fs < sizeOf v := by
  rcases (fields?_eq_some v fs).mp hv with h | h
  · subst h
    simp
  · subst h
    simp
    omega

theorem step_sizeOf_lt (v : Value) (st : Step) (seg : Segment) (c : Value)
    (h : v.step st = some (seg, c)) : sizeOf c < sizeOf v := by
  obtain ⟨fs, hv⟩ := step_fields? v st seg c h
  have h0 := sizeOf_fields_lt v fs hv
  cases st with
  | field i =>
    obtain ⟨f, hi, -, -⟩ := (step_field_iff v fs hv i seg c).mp h
    have h1 := List.sizeOf_lt_of_mem (List.mem_iff_getElem?.mpr ⟨i, hi⟩)
    have h2 : sizeOf c < sizeOf (f, c) := by simp
    omega
  | elem i j =>
    obtain ⟨f, w, elemT, elems, hi, hw, -, hj, -⟩ := (step_elem_iff v fs hv i j seg c).mp h
    have h1 := List.sizeOf_lt_of_mem (List.mem_iff_getElem?.mpr ⟨i, hi⟩)
    have h2 : sizeOf w < sizeOf (f, w) := by simp
    have h3 := List.sizeOf_lt_of_mem (List.mem_iff_getElem?.mpr ⟨j, hj⟩)
    have h4 : sizeOf elems < sizeOf w := by
      rcases hw with hw | hw <;> subst hw <;> simp
    omega


theorem walkElems_children (validate : Validate) (name : String) :
    ∀ (elems : List Value) (j : Nat) (errors out : List (String × String)),
      walkElems elems validate name j errors = some out →
      ∀ e ∈ elems, ∃ r, deepValidator e validate = some r := by
  intro elems
  induction elems with
  | nil => intro j errors out _ e he; cases he
  | cons elem rest ih =>
    intro j errors out h e he
    simp only [walkElems] at h
    cases hd : deepValidator elem validate with
    | none => simp [hd] at h
    | some nested =>
      simp only [hd] at h
      rcases List.mem_cons.mp he with rfl | he
      · exact ⟨nested, hd⟩
      · exact ih _ _ out h e he

theorem walkFields_children (validate : Validate) :
    ∀ (fields : List (StructField × Value)) (errors out : List (String × String)),
      walkFields fields validate errors = some out →
      ∀ p ∈ fields,
        ((∃ cfs, p.2 = .struct cfs ∨ p.2 = .ptr (some (.struct cfs))) →
          ∃ r, deepValidator p.2 validate = some r) ∧
        (∀ elemT elems, (p.2 = .slice elemT elems ∨ p.2 = .array elemT elems) →
          elemT.Kind = Kind.Struct → ∀ e ∈ elems, ∃ r, deepValidator e validate = some r) := by
  intro fields
  induction fields with
  | nil => intro errors out _ p hp; cases hp
  | cons q rest ih =>
    intro errors out h p hp
    obtain ⟨ft, fv⟩ := q
    obtain ⟨mid, hrest, -⟩ := walkFields_cons validate ft fv rest errors out h
    rcases List.mem_cons.mp hp with rfl | hp
    · cases fv with
      | basic b t =>
        refine ⟨?_, ?_⟩
        · rintro ⟨cfs, h1 | h1⟩ <;> cases h1
        · rintro elemT elems (h1 | h1) <;> cases h1
      | struct cfs0 =>
        refine ⟨fun _ => ?_, ?_⟩
        · simp only [walkFields, Value.Kind] at h
          cases hd : deepValidator (.struct cfs0) validate with
          | none => simp [hd] at h
          | some nested => exact ⟨nested, rfl⟩
        · rintro elemT elems (h1 | h1) <;> cases h1
      | ptr t =>
        refine ⟨?_, ?_⟩
        · rintro ⟨cfs, h1 | h1⟩
          · cases h1
          · cases h1
            simp only [walkFields, Value.Kind] at h
            have hc : (Value.ptr (some (.struct cfs))).IsNil = false ∧
                (Value.ptr (some (.struct cfs))).ElemKind = some Kind.Struct := by
              simp [Value.IsNil, Value.ElemKind, Value.Kind]
            rw [if_pos hc] at h
            cases hd : deepValidator (.ptr (some (.struct cfs))) validate with
            | none => simp [hd] at h
            | some nested => exact ⟨nested, rfl⟩
        · rintro elemT elems (h1 | h1) <;> cases h1
      | slice elemT0 elems0 =>
        refine ⟨?_, ?_⟩
        · rintro ⟨cfs, h1 | h1⟩ <;> cases h1
        · rintro elemT elems h1 hk
          have h2 : elemT0 = elemT ∧ elems0 = elems := by
            rcases h1 with h1 | h1 <;> cases h1
            exact ⟨rfl, rfl⟩
          obtain ⟨rfl, rfl⟩ := h2
          simp only [walkFields, Value.Kind] at h
          rw [if_pos hk] at h
          cases hw : walkElems elems0 validate (getJSONFieldName ft) 0 errors with
          | none => simp [hw] at h
          | some mid0 => exact walkElems_children validate _ elems0 0 errors mid0 hw
      | array elemT0 elems0 =>
        refine ⟨?_, ?_⟩
        · rintro ⟨cfs, h1 | h1⟩ <;> cases h1
        · rintro elemT elems h1 hk
          have h2 : elemT0 = elemT ∧ elems0 = elems := by
            rcases h1 with h1 | h1 <;> cases h1
            exact ⟨rfl, rfl⟩
          obtain ⟨rfl, rfl⟩ := h2
          simp only [walkFields, Value.Kind] at h
          rw [if_pos hk] at h
          cases hw : walkElems elems0 validate (getJSONFieldName ft) 0 errors with
          | none => simp [hw] at h
          | some mid0 => exact walkElems_children validate _ elems0 0 errors mid0 hw
    · exact ih mid out hrest p hp

theorem deepValidator_struct_of_fields? (validate : Validate) (v : Value)
    (fs : List (StructField × Value)) (hv : v.fields? = some fs) :
    deepValidator v validate = deepValidator (.struct fs) validate := by
  rcases (fields?_eq_some v fs).mp hv with h | h
  · rw [h]
  · rw [h, deepValidator_ptr]

theorem deepValidator_step_isSome (validate : Validate) (v : Value) (r : Report)
    (hr : deepValidator v validate = some r) (st : Step) (seg : Segment) (c : Value)
    (h : v.step st = some (seg, c)) : ∃ rc, deepValidator c validate = some rc := by
  obtain ⟨fs, hv⟩ := step_fields? v st seg c h
  rw [deepValidator_struct_of_fields? validate v fs hv, deepValidator_struct] at hr
  cases hw : walkFields fs validate (levelErrors fs (validate.report (.struct fs)) []) with
  | none => simp [hw] at hr
  | some out =>
    have hch := walkFields_children validate fs _ out hw
    cases st with
    | field i =>
      obtain ⟨f, hi, -, cfs, hc⟩ := (step_field_iff v fs hv i seg c).mp h
      exact (hch (f, c) (List.mem_iff_getElem?.mpr ⟨i, hi⟩)).1 ⟨cfs, hc⟩
    | elem i j =>
      obtain ⟨f, w, elemT, elems, hi, hw1, hk, hj, -⟩ := (step_elem_iff v fs hv i j seg c).mp h
      exact (hch (f, w) (List.mem_iff_getElem?.mpr ⟨i, hi⟩)).2 elemT elems hw1 hk c
        (List.mem_iff_getElem?.mpr ⟨j, hj⟩)

theorem pathKey_cons (seg : Segment) (segs : List Segment) (g : String) :
    pathKey (seg :: segs) g = pathKey [seg] (pathKey segs g) := by
  obtain ⟨p, idx⟩ := seg
  cases idx <;> rfl

theorem deepValidator_keys_composite (validate : Validate) (c : Value) (rc : Report)
    (hr : deepValidator c validate = some rc) (k : String) (hk : k ∈ rc.keys) :
    ∃ cfs, c.fields? = some cfs := by
  cases hc : c.fields? with
  | some cfs => exact ⟨cfs, rfl⟩
  | none =>
    exfalso
    cases c with
    | struct fs0 => simp [Value.fields?] at hc
    | ptr t =>
      cases t with
      | none =>
        simp only [deepValidator, Option.some.injEq] at hr
        subst hr
        simp [Report.keys, Report.entries] at hk
      | some u =>
        cases u with
        | struct fs0 => simp [Value.fields?] at hc
        | _ => simp [deepValidator] at hr
    | _ => simp [deepValidator] at hr

theorem descend_fields? (c1 : Value) (rest : List Step) (segs : List Segment) (c : Value)
    (cfs : List (StructField × Value)) (h : descend c1 rest = some (segs, c))
    (hc : c.fields? = some cfs) : ∃ fs1, c1.fields? = some fs1 := by
  cases rest with
  | nil =>
    simp only [descend, Option.some.injEq, Prod.mk.injEq] at h
    obtain ⟨-, rfl⟩ := h
    exact ⟨cfs, hc⟩
  | cons st rest =>
    simp only [descend] at h
    cases hst : c1.step st with
    | none => simp [hst] at h
    | some p => exact step_fields? c1 st p.1 p.2 hst

theorem descend_cons (v : Value) (st : Step) (rest : List Step) (segs : List Segment)
    (c : Value) :
    descend v (st :: rest) = some (segs, c) ↔
      ∃ seg c1 segs1, v.step st = some (seg, c1) ∧ descend c1 rest = some (segs1, c) ∧
        segs = seg :: segs1 := by
  constructor
  · intro h
    simp only [descend] at h
    split at h
    · cases h
    · rename_i seg c1 hst
      split at h
      · cases h
      · rename_i segs1 d hd
        simp only [Option.some.injEq, Prod.mk.injEq] at h
        obtain ⟨rfl, rfl⟩ := h
        exact ⟨seg, c1, segs1, hst, hd, rfl⟩
  · rintro ⟨seg, c1, segs1, hst, hd, rfl⟩
    simp only [descend, hst, hd]

/-- The keys of the report of a composite are the field paths of the
resolvable violations the evaluator reports on the composites reached from it. -/
theorem mem_keys_iff_path_aux (validate : Validate) :
    ∀ (n : Nat) (v : Value), sizeOf v ≤ n → ∀ fs, v.fields? = some fs → ∀ (r : Report),
      deepValidator v validate = some r → ∀ x : String,
      (x ∈ r.keys ↔
        ∃ path segs c cfs e f, descend v path = some (segs, c) ∧ c.fields? = some cfs ∧
          e ∈ validate.report (.struct cfs) ∧ FieldByName cfs e.StructField = some f ∧
          x = pathKey segs (getJSONFieldName f)) := by
  intro n
  induction n with
  | zero =>
    intro v hn
    cases v <;> simp at hn
  | succ n ih =>
    intro v hn fs hv r hr x
    rw [mem_keys_deepValidator validate v fs hv r hr x]
    constructor
    · rintro (⟨e, he, f, hf, hx⟩ | ⟨st, seg, c, rc, hst, hrc, k, hk, hx⟩)
      · exact ⟨[], [], v, fs, e, f, rfl, hv, he, hf, by simpa [pathKey] using hx⟩
      · obtain ⟨cfs, hc⟩ := deepValidator_keys_composite validate c rc hrc k hk
        have hlt := step_sizeOf_lt v st seg c hst
        obtain ⟨path, segs, d, dfs, e, f, hd, hdf, he, hf, hk2⟩ :=
          (ih c (by omega) cfs hc rc hrc k).mp hk
        refine ⟨st :: path, seg :: segs, d, dfs, e, f, ?_, hdf, he, hf, ?_⟩
        · exact (descend_cons v st path _ d).mpr ⟨seg, c, segs, hst, hd, rfl⟩
        · rw [hx, hk2, ← pathKey_cons]
    · rintro ⟨path, segs, c, cfs, e, f, hd, hc, he, hf, hx⟩
      cases path with
      | nil =>
        simp only [descend, Option.some.injEq, Prod.mk.injEq] at hd
        obtain ⟨rfl, rfl⟩ := hd
        rw [hv] at hc
        cases hc
        exact Or.inl ⟨e, he, f, hf, by simpa [pathKey] using hx⟩
      | cons st rest =>
        obtain ⟨seg, c1, segs1, hst, hd1, rfl⟩ := (descend_cons v st rest segs c).mp hd
        obtain ⟨rc1, hrc1⟩ := deepValidator_step_isSome validate v r hr st seg c1 hst
        obtain ⟨fs1, hfs1⟩ := descend_fields? c1 rest segs1 c cfs hd1 hc
        have hlt := step_sizeOf_lt v st seg c1 hst
        refine Or.inr ⟨st, seg, c1, rc1, hst, hrc1, pathKey segs1 (getJSONFieldName f), ?_, ?_⟩
        · exact (ih c1 (by omega) fs1 hfs1 rc1 hrc1 _).mpr
            ⟨rest, segs1, c, cfs, e, f, hd1, hc, he, hf, rfl⟩
        · rw [hx, ← pathKey_cons]

theorem mem_keys_iff_path (validate : Validate) (v : Value) (fs : List (StructField × Value))
    (hv : v.fields? = some fs) (r : Report) (hr : deepValidator v validate = some r)
    (x : String) :
    x ∈ r.keys ↔
      ∃ path segs c cfs e f, descend v path = some (segs, c) ∧ c.fields? = some cfs ∧
        e ∈ validate.report (.struct cfs) ∧ FieldByName cfs e.StructField = some f ∧
        x = pathKey segs (getJSONFieldName f) :=
  mem_keys_iff_path_aux validate (sizeOf v) v (Nat.le_refl _) fs hv r hr x

/-! ## The traversal: keys of nested violations -/

theorem isComposite_iff (v : Value) : v.isComposite = true ↔ ∃ fs, v.fields? = some fs := by
  simp [Value.isComposite, Option.isSome_iff_exists]

theorem ValidateStruct_some (validate : Validate) (v : Value) :
    ValidateStruct validate (some v) = deepValidator v validate := rfl

theorem ValidateStructDeep_some (validate : Validate) (v : Value) :
    ValidateStructDeep validate (some v) = deepValidator v validate := rfl

/-- C1: whenever the traversal returns a report on a composite input, through
`ValidateStruct` or `ValidateStructDeep`, then for every composite reached
through struct fields, non-nil pointers to structs and elements of slices or
arrays of structs, every violation the evaluator reports there on a field of
its layout has its field path as a key of the report: the public names of the
fields on the way, each followed by `.`, or by `[i].` for the element `i` of a
collection, and then the public name of the field. -/
theorem deepValidator_violation_key (validate : Validate) (s : Value) (r : Report)
    (hs : s.isComposite = true) (hr : ValidateStruct validate (some s) = some r) :
    ValidateStructDeep validate (some s) = some r ∧ deepValidator s validate = some r ∧
      ∀ (path : List Step) (segs : List Segment) (c : Value)
        (cfs : List (StructField × Value)) (e : FieldError) (g : StructField),
        descend s path = some (segs, c) → c.fields? = some cfs →
        e ∈ validate.report (.struct cfs) → FieldByName cfs e.StructField = some g →
        pathKey segs (getJSONFieldName g) ∈ r.keys := by
  obtain ⟨fs, hfs⟩ := (isComposite_iff s).mp hs
  refine ⟨hr, hr, fun path segs c cfs e g hd hc he hg => ?_⟩
  exact (mem_keys_iff_path validate s fs hfs r hr _).mpr
    ⟨path, segs, c, cfs, e, g, hd, hc, he, hg, rfl⟩

/-- Three nested violations of the invalid `TestComplexStruct` and their keys. -/
theorem deepValidator_violation_key_witness :
    ∃ r, ValidateStructDeep testValidate (some invalidComplex) = some r ∧
      "user.name" ∈ r.keys ∧ "contacts[0].email" ∈ r.keys ∧ "address.zip_code" ∈ r.keys := by
  obtain ⟨r, hr⟩ := Option.isSome_iff_exists.mp
    (by decide : (ValidateStruct testValidate (some invalidComplex)).isSome = true)
  obtain ⟨hdeep, -, hkeys⟩ :=
    deepValidator_violation_key testValidate invalidComplex r (by decide) hr
  refine ⟨r, hdeep, ?_, ?_, ?_⟩
  · exact hkeys [.field 0] [⟨"user", none⟩] invalidUser _
      ⟨"required", "", Kind.String, "Name", defaultError "TestStruct.Name" "Name" "required"⟩
      ⟨"Name", "name", "required"⟩ rfl rfl (by decide) (by decide)
  · exact hkeys [.elem 1 0] [⟨"contacts", some 0⟩] invalidContact _
      ⟨"email", "", Kind.String, "Email", defaultError "TestStruct.Email" "Email" "email"⟩
      ⟨"Email", "email", "required,email"⟩ rfl rfl (by decide) (by decide)
  · exact hkeys [.field 2] [⟨"address", none⟩] invalidAddress _
      ⟨"numeric", "", Kind.String, "ZipCode",
        defaultError "TestNestedStruct.ZipCode" "ZipCode" "numeric"⟩
      ⟨"ZipCode", "zip_code", "required,numeric"⟩ rfl rfl (by decide) (by decide)


/-! ## The traversal: inputs without violations, top-level violations -/

theorem keys_eq_nil_iff (r : Report) : r.keys = [] ↔ r.len = 0 := by
  simp [Report.keys, Report.len]

theorem entries_eq_nil_of_keys (r : Report) (h : ∀ x, x ∉ r.keys) : r.entries = [] := by
  cases hr : r.entries with
  | nil => rfl
  | cons p rest =>
    exfalso
    exact h p.1 (by simp [Report.keys, hr])

theorem clean_entries (validate : Validate) (v : Value) (fs : List (StructField × Value))
    (hv : v.fields? = some fs) (r : Report) (hr : deepValidator v validate = some r)
    (hc : Clean validate v) : r.entries = [] := by
  apply entries_eq_nil_of_keys
  intro x hx
  obtain ⟨path, segs, c, cfs, e, f, hd, hcf, he, -, -⟩ :=
    (mem_keys_iff_path validate v fs hv r hr x).mp hx
  rw [hc path segs c cfs hd hcf] at he
  cases he

theorem ValidateAny_composite (validate : Validate) (v : Value)
    (fs : List (StructField × Value)) (hv : v.fields? = some fs) :
    ValidateAny validate (some v) = deepValidator v validate := by
  rcases (fields?_eq_some v fs).mp hv with h | h
  · subst h
    simp [ValidateAny, Value.Kind, ValidateStructDeep, ValidateStruct]
  · subst h
    simp [ValidateAny, Value.Kind, Value.IsNil, Value.deref, ValidateStructDeep, ValidateStruct]

theorem ValidateAny_collection (validate : Validate) (c : Value) (elemT : GoType)
    (elems : List Value) (hc : c = .slice elemT elems ∨ c = .array elemT elems) :
    ValidateAny validate (some c) = ValidateSliceDeep validate (some c) := by
  rcases hc with h | h <;> subst h <;> simp [ValidateAny, Value.Kind]

theorem mergeNested_nil (errors : List (String × String)) (key : String → String)
    (nested : Report) (h : nested.entries = []) : mergeNested errors key nested = errors := by
  simp [mergeNested, h]

theorem sliceLoop_clean (validate : Validate) :
    ∀ (elems : List Value) (i : Nat) (errors out : List (String × String)),
      sliceLoop elems validate i errors = some out → (∀ e ∈ elems, Clean validate e) →
      out = errors := by
  intro elems
  induction elems with
  | nil =>
    intro i errors out h _
    simp only [sliceLoop, Option.some.injEq] at h
    exact h.symm
  | cons e rest ih =>
    intro i errors out h hc
    have hrest : ∀ e ∈ rest, Clean validate e := fun q hq => hc q (List.mem_cons_of_mem _ hq)
    simp only [sliceLoop] at h
    split at h
    · rename_i hk
      have hcomp : ∃ cfs, e.fields? = some cfs := by
        rcases hk with hk | hk
        · obtain ⟨cfs, h1⟩ := (kind_struct_iff e).mp hk
          exact ⟨cfs, (fields?_eq_some e cfs).mpr (Or.inl h1)⟩
        · obtain ⟨cfs, h1⟩ := (live_ptr_iff e).mp hk
          exact ⟨cfs, (fields?_eq_some e cfs).mpr (Or.inr h1)⟩
      obtain ⟨cfs, hcfs⟩ := hcomp
      cases hd : deepValidator e validate with
      | none => simp [hd] at h
      | some nested =>
        simp only [hd] at h
        rw [mergeNested_nil _ _ nested
          (clean_entries validate e cfs hcfs nested hd (hc e (List.mem_cons_self _ _)))] at h
        exact ih _ _ _ h hrest
    · exact ih _ _ _ h hrest

theorem deepValidator_clean (validate : Validate) (v : Value) (r : Report)
    (hr : deepValidator v validate = some r) (hc : Clean validate v) : r.len = 0 := by
  have hnil : r.entries = [] := by
    cases hv : v.fields? with
    | some fs => exact clean_entries validate v fs hv r hr hc
    | none =>
      apply entries_eq_nil_of_keys
      intro x hx
      obtain ⟨cfs, hcfs⟩ := deepValidator_keys_composite validate v r hr x hx
      rw [hv] at hcfs
      cases hcfs
  simp [Report.len, hnil]

/-- C6, as stated, fails: with an evaluator that reports no violation,
`ValidateAny` on a string returns the report with the one entry `root`, and
`ValidateStruct` and `ValidateStructDeep` return no report on it. -/
theorem unsupported_input_root_entry :
    ValidateAny noViolations (some (str "hello")) =
      some (.map [("root", "provided value is neither a struct nor a slice/array")]) ∧
    (ValidateAny noViolations (some (str "hello"))).map Report.len = some 1 ∧
    ValidateStruct noViolations (some (str "hello")) = none ∧
    ValidateStructDeep noViolations (some (str "hello")) = none := by
  decide

/-- C6, amended: when the evaluator reports no violation on any composite
reached from the input, every entry point that returns a report returns one
without entries, on the inputs it is made for: `ValidateStruct` and
`ValidateStructDeep` on every input, `ValidateAny` on a struct or a non-nil
pointer to one, `ValidateSliceDeep` and `ValidateAny` on a slice or array; on
an absent input `ValidateAny` and `ValidateSliceDeep` return the nil report,
and so does `ValidateAny` on a nil pointer. -/
theorem clean_input_empty_report (validate : Validate) :
    (∀ (s : Option Value) (r : Report), (∀ v, s = some v → Clean validate v) →
      ValidateStruct validate s = some r →
      ValidateStructDeep validate s = some r ∧ r.len = 0) ∧
    (∀ (v : Value) (r : Report), v.isComposite = true → Clean validate v →
      ValidateAny validate (some v) = some r → r.len = 0) ∧
    (∀ (c : Value) (elemT : GoType) (elems : List Value) (r : Report),
      (c = .slice elemT elems ∨ c = .array elemT elems) → (∀ e ∈ elems, Clean validate e) →
      (ValidateSliceDeep validate (some c) = some r → r.len = 0) ∧
      (ValidateAny validate (some c) = some r → r.len = 0)) ∧
    (ValidateAny validate none = some .nil ∧ ValidateSliceDeep validate none = some .nil ∧
      ValidateAny validate (some (.ptr none)) = some .nil ∧ Report.nil.len = 0) := by
  have hslice : ∀ (c : Value) (elemT : GoType) (elems : List Value) (r : Report),
      (c = .slice elemT elems ∨ c = .array elemT elems) → (∀ e ∈ elems, Clean validate e) →
      ValidateSliceDeep validate (some c) = some r → r.len = 0 := by
    intro c elemT elems r hshape hc hr
    have hcases : r = .nil ∨ ∃ out, sliceLoop elems validate 0 [] = some out ∧ r = .map out := by
      rcases hshape with h | h <;> subst h <;> simp only [ValidateSliceDeep] at hr <;>
        split at hr
      · exact Or.inl (Option.some.inj hr).symm
      · cases hl : sliceLoop elems validate 0 [] with
        | none => simp [hl] at hr
        | some out =>
          simp only [hl, Option.map_some', Option.some.injEq] at hr
          exact Or.inr ⟨out, rfl, hr.symm⟩
      · exact Or.inl (Option.some.inj hr).symm
      · cases hl : sliceLoop elems validate 0 [] with
        | none => simp [hl] at hr
        | some out =>
          simp only [hl, Option.map_some', Option.some.injEq] at hr
          exact Or.inr ⟨out, rfl, hr.symm⟩
    rcases hcases with rfl | ⟨out, hout, rfl⟩
    · rfl
    · rw [sliceLoop_clean validate elems 0 [] out hout hc]
      rfl
  refine ⟨fun s r hc hr => ⟨hr, ?_⟩, fun v r hv hc hr => ?_,
    fun c elemT elems r hshape hc => ⟨hslice c elemT elems r hshape hc, fun hr => ?_⟩,
    rfl, rfl, by simp [ValidateAny, Value.Kind, Value.IsNil], rfl⟩
  · cases s with
    | none =>
      simp only [ValidateStruct, Option.some.injEq] at hr
      subst hr
      rfl
    | some v => exact deepValidator_clean validate v r hr (hc v rfl)
  · obtain ⟨fs, hfs⟩ := (isComposite_iff v).mp hv
    rw [ValidateAny_composite validate v fs hfs] at hr
    exact deepValidator_clean validate v r hr hc
  · rw [ValidateAny_collection validate c elemT elems hshape] at hr
    exact hslice c elemT elems r hshape hc hr

/-- C7: whenever `ValidateStruct` returns a report on a composite none of whose
composites below the top level has a violation, the keys of the report are the
public names of the top-level fields that have a violation, with nothing put
before them. -/
theorem ValidateStruct_top_level_keys (validate : Validate) (v : Value)
    (fs : List (StructField × Value)) (hv : v.fields? = some fs) (r : Report)
    (hr : ValidateStruct validate (some v) = some r)
    (hnested : ∀ path segs c cfs, path ≠ [] → descend v path = some (segs, c) →
      c.fields? = some cfs → validate.report (.struct cfs) = []) :
    ∀ x, x ∈ r.keys ↔
      ∃ e ∈ validate.report (.struct fs), ∃ f,
        FieldByName fs e.StructField = some f ∧ x = getJSONFieldName f := by
  intro x
  rw [mem_keys_iff_path validate v fs hv r hr x]
  constructor
  · rintro ⟨path, segs, c, cfs, e, f, hd, hc, he, hf, hx⟩
    cases path with
    | nil =>
      simp only [descend, Option.some.injEq, Prod.mk.injEq] at hd
      obtain ⟨rfl, rfl⟩ := hd
      rw [hv] at hc
      cases hc
      exact ⟨e, he, f, hf, by simpa [pathKey] using hx⟩
    | cons st rest =>
      rw [hnested (st :: rest) segs c cfs (by simp) hd hc] at he
      cases he
  · rintro ⟨e, he, f, hf, hx⟩
    exact ⟨[], [], v, fs, e, f, rfl, hv, he, hf, by simpa [pathKey] using hx⟩


/-! ## Flat structs of the test suite -/

theorem flat_step_none (v : Value) (fs : List (StructField × Value))
    (hv : v.fields? = some fs)
    (hflat : ∀ p ∈ fs, p.2.Kind ∉ [Kind.Struct, Kind.Ptr, Kind.Slice, Kind.Array])
    (st : Step) : v.step st = none := by
  cases hst : v.step st with
  | none => rfl
  | some q =>
    exfalso
    obtain ⟨seg, c⟩ := q
    cases st with
    | field i =>
      obtain ⟨f, hi, -, cfs, hc⟩ := (step_field_iff v fs hv i seg c).mp hst
      have := hflat (f, c) (List.mem_iff_getElem?.mpr ⟨i, hi⟩)
      rcases hc with h | h <;> subst h <;> simp [Value.Kind] at this
    | elem i j =>
      obtain ⟨f, w, elemT, elems, hi, hw, -, -, -⟩ := (step_elem_iff v fs hv i j seg c).mp hst
      have := hflat (f, w) (List.mem_iff_getElem?.mpr ⟨i, hi⟩)
      rcases hw with h | h <;> subst h <;> simp [Value.Kind] at this

theorem flat_descend (v : Value) (fs : List (StructField × Value))
    (hv : v.fields? = some fs)
    (hflat : ∀ p ∈ fs, p.2.Kind ∉ [Kind.Struct, Kind.Ptr, Kind.Slice, Kind.Array])
    (path : List Step) (segs : List Segment) (c : Value)
    (hd : descend v path = some (segs, c)) : path = [] ∧ c = v := by
  cases path with
  | nil =>
    simp only [descend, Option.some.injEq, Prod.mk.injEq] at hd
    exact ⟨rfl, hd.2.symm⟩
  | cons st rest =>
    obtain ⟨seg, c1, segs1, hst, -, -⟩ := (descend_cons v st rest segs c).mp hd
    rw [flat_step_none v fs hv hflat st] at hst
    cases hst

theorem clean_flat (v : Value) (fs : List (StructField × Value)) (hv : v.fields? = some fs)
    (hflat : ∀ p ∈ fs, p.2.Kind ∉ [Kind.Struct, Kind.Ptr, Kind.Slice, Kind.Array])
    (validate : Validate) (hreport : validate.report (.struct fs) = []) : Clean validate v := by
  intro path segs c cfs hd hc
  obtain ⟨-, rfl⟩ := flat_descend v fs hv hflat path segs c hd
  rw [hv] at hc
  cases hc
  exact hreport

/-- The valid inputs of `TestValidateStruct` and `TestValidateSliceDeep`, each
with the empty report the entry points return on it. -/
theorem clean_input_empty_report_witness :
    (ValidateStruct testValidate (some validUser) = some (.map []) ∧
      ValidateStructDeep testValidate (some validUser) = some (.map []) ∧
      (Report.map []).len = 0) ∧
    (ValidateAny testValidate (some validUser) = some (.map []) ∧ (Report.map []).len = 0) ∧
    (ValidateSliceDeep testValidate (some (.slice .struct [validUser, validContact])) =
        some (.map []) ∧ (Report.map []).len = 0) ∧
    (ValidateAny testValidate (some (.slice .struct [validUser, validContact])) =
        some (.map []) ∧ (Report.map []).len = 0) :=
  have hu : Clean testValidate validUser :=
    clean_flat validUser _ rfl (by decide) testValidate (by decide)
  have hc : Clean testValidate validContact :=
    clean_flat validContact _ rfl (by decide) testValidate (by decide)
  have hs := (clean_input_empty_report testValidate).2.2.1
    (.slice .struct [validUser, validContact]) .struct [validUser, validContact] (.map [])
    (Or.inl rfl) (fun e he => by
      rcases List.mem_cons.mp he with h | h
      · rw [h]; exact hu
      · rw [List.mem_singleton.mp h]; exact hc)
  ⟨⟨by decide, (clean_input_empty_report testValidate).1 (some validUser) (.map [])
      (fun v hv => by cases hv; exact hu) (by decide)⟩,
    ⟨by decide, (clean_input_empty_report testValidate).2.1 validUser (.map []) (by decide) hu
      (by decide)⟩,
    ⟨by decide, hs.1 (by decide)⟩, ⟨by decide, hs.2 (by decide)⟩⟩

/-- The invalid flat input of `TestValidateStruct`. -/
theorem ValidateStruct_top_level_keys_witness :
    ∃ r, ValidateStruct testValidate (some invalidUser) = some r ∧
      ∀ x, x ∈ r.keys ↔
        ∃ e ∈ testValidate.report invalidUser, ∃ f,
          FieldByName
            [(⟨"Name", "name", "required"⟩, str ""),
             (⟨"Email", "email", "required,email"⟩, str "invalid-email"),
             (⟨"Age", "age", "required,min=18"⟩, int 15),
             (⟨"Password", "password", "required,min=8"⟩, str "123"),
             (⟨"ConfirmPass", "confirm_password", "eqfield=Password"⟩, str "different"),
             (⟨"Website", "website", "url"⟩, str "not-a-url"),
             (⟨"Username", "username", "required,alphanum"⟩, str "john doe")]
            e.StructField = some f ∧ x = getJSONFieldName f := by
  obtain ⟨r, hr⟩ := Option.isSome_iff_exists.mp
    (by decide : (ValidateStruct testValidate (some invalidUser)).isSome = true)
  exact ⟨r, hr, ValidateStruct_top_level_keys testValidate invalidUser _ rfl r hr
    (fun path segs c cfs hne hd _ => by
      exact absurd (flat_descend invalidUser _ rfl (by decide) path segs c hd).1 hne)⟩


/-! ## Reports have one entry per key -/

theorem nodup_mapSet (m : List (String × String)) (k v : String)
    (h : (m.map Prod.fst).Nodup) : ((mapSet m k v).map Prod.fst).Nodup := by
  induction m with
  | nil => simp [mapSet]
  | cons kv rest ih =>
    obtain ⟨k0, v0⟩ := kv
    simp only [List.map_cons, List.nodup_cons] at h
    by_cases hk : k0 = k
    · subst hk
      simp only [mapSet, if_true, List.map_cons, List.nodup_cons]
      exact h
    · simp only [mapSet, if_neg hk, List.map_cons, List.nodup_cons]
      refine ⟨fun hmem => ?_, ih h.2⟩
      rcases (mem_keys_mapSet rest k v k0).mp hmem with h1 | h1
      · exact hk h1
      · exact h.1 h1

theorem nodup_mergeNested (key : String → String) (nested : Report) :
    ∀ errors : List (String × String), (errors.map Prod.fst).Nodup →
      ((mergeNested errors key nested).map Prod.fst).Nodup := by
  unfold mergeNested
  generalize nested.entries = es
  induction es with
  | nil => intro errors h; simpa using h
  | cons kv rest ih =>
    intro errors h
    simp only [List.foldl_cons]
    exact ih _ (nodup_mapSet errors _ _ h)

theorem nodup_levelErrors (typ : List (StructField × Value)) (errs : List FieldError) :
    ∀ errors : List (String × String), (errors.map Prod.fst).Nodup →
      ((levelErrors typ errs errors).map Prod.fst).Nodup := by
  unfold levelErrors
  induction errs with
  | nil => intro errors h; simpa using h
  | cons e rest ih =>
    intro errors h
    simp only [List.foldl_cons]
    apply ih
    cases FieldByName typ e.StructField with
    | none => exact h
    | some f => exact nodup_mapSet errors _ _ h

theorem nodup_walkElems (validate : Validate) (name : String) :
    ∀ (elems : List Value) (j : Nat) (errors out : List (String × String)),
      walkElems elems validate name j errors = some out →
      (errors.map Prod.fst).Nodup → (out.map Prod.fst).Nodup := by
  intro elems
  induction elems with
  | nil =>
    intro j errors out h hn
    simp only [walkElems, Option.some.injEq] at h
    subst h
    exact hn
  | cons elem rest ih =>
    intro j errors out h hn
    simp only [walkElems] at h
    cases hd : deepValidator elem validate with
    | none => simp [hd] at h
    | some nested =>
      simp only [hd] at h
      exact ih _ _ out h (nodup_mergeNested _ nested errors hn)

theorem nodup_walkFields (validate : Validate) :
    ∀ (fields : List (StructField × Value)) (errors out : List (String × String)),
      walkFields fields validate errors = some out →
      (errors.map Prod.fst).Nodup → (out.map Prod.fst).Nodup := by
  intro fields
  induction fields with
  | nil =>
    intro errors out h hn
    simp only [walkFields, Option.some.injEq] at h
    subst h
    exact hn
  | cons q rest ih =>
    intro errors out h hn
    obtain ⟨ft, fv⟩ := q
    cases fv with
    | basic b t =>
      simp only [walkFields, Value.Kind] at h
      exact ih errors out h hn
    | struct cfs =>
      simp only [walkFields, Value.Kind] at h
      cases hd : deepValidator (.struct cfs) validate with
      | none => simp [hd] at h
      | some nested =>
        simp only [hd] at h
        exact ih _ out h (nodup_mergeNested _ nested errors hn)
    | ptr t =>
      simp only [walkFields, Value.Kind] at h
      split at h
      · cases hd : deepValidator (.ptr t) validate with
        | none => simp [hd] at h
        | some nested =>
          simp only [hd] at h
          exact ih _ out h (nodup_mergeNested _ nested errors hn)
      · exact ih errors out h hn
    | slice elemT elems =>
      simp only [walkFields, Value.Kind] at h
      split at h
      · cases hw : walkElems elems validate (getJSONFieldName ft) 0 errors with
        | none => simp [hw] at h
        | some mid =>
          simp only [hw] at h
          exact ih mid out h (nodup_walkElems validate _ elems 0 errors mid hw hn)
      · exact ih errors out h hn
    | array elemT elems =>
      simp only [walkFields, Value.Kind] at h
      split at h
      · cases hw : walkElems elems validate (getJSONFieldName ft) 0 errors with
        | none => simp [hw] at h
        | some mid =>
          simp only [hw] at h
          exact ih mid out h (nodup_walkElems validate _ elems 0 errors mid hw hn)
      · exact ih errors out h hn

theorem nodup_keys_deepValidator (validate : Validate) (v : Value) (r : Report)
    (hr : deepValidator v validate = some r) : r.keys.Nodup := by
  cases hv : v.fields? with
  | none =>
    have hnil : r.entries = [] := by
      apply entries_eq_nil_of_keys
      intro x hx
      obtain ⟨cfs, hc⟩ := deepValidator_keys_composite validate v r hr x hx
      rw [hv] at hc
      cases hc
    simp [Report.keys, hnil]
  | some fs =>
    rw [deepValidator_struct_of_fields? validate v fs hv, deepValidator_struct] at hr
    cases hw : walkFields fs validate (levelErrors fs (validate.report (.struct fs)) []) with
    | none => simp [hw] at hr
    | some out =>
      simp only [hw, Option.map_some', Option.some.injEq] at hr
      subst hr
      exact nodup_walkFields validate fs _ out hw (nodup_levelErrors fs _ [] (by simp))


/-! ## The traversal: collections of structs -/

theorem index_zero (a b : String) :
    a ++ "[" ++ toString (0 : Nat) ++ "]." ++ b = a ++ "[0]." ++ b := by
  have h : toString (0 : Nat) = "0" := by decide
  rw [h]
  apply String.ext
  simp [String.data_append]

theorem index_one (a b : String) :
    a ++ "[" ++ toString (1 : Nat) ++ "]." ++ b = a ++ "[1]." ++ b := by
  have h : toString (1 : Nat) = "1" := by decide
  rw [h]
  apply String.ext
  simp [String.data_append]

theorem index_zero_ne_one (a b : String) : a ++ "[0]." ++ b ≠ a ++ "[1]." ++ b := by
  intro h
  have h1 := congrArg String.data h
  simp only [String.data_append, List.append_assoc, List.append_right_inj] at h1
  have h2 : ("[0]." : String).data = "[1].".data := (List.append_left_inj b.data).mp h1
  exact absurd h2 (by decide)

theorem collection_shape_inj (w : Value) (elemT elemT1 : GoType) (elems elems1 : List Value)
    (h : w = .slice elemT elems ∨ w = .array elemT elems)
    (h1 : w = .slice elemT1 elems1 ∨ w = .array elemT1 elems1) : elems1 = elems := by
  rcases h with h | h <;> subst h <;> rcases h1 with h1 | h1 <;> cases h1 <;> rfl

theorem descend_elem (v : Value) (fs : List (StructField × Value)) (hv : v.fields? = some fs)
    (m : Nat) (f : StructField) (w : Value) (elemT : GoType) (elems : List Value)
    (hm : fs[m]? = some (f, w)) (hw : w = .slice elemT elems ∨ w = .array elemT elems)
    (i : Nat) (segs : List Segment) (c : Value)
    (hd : descend v [.elem m i] = some (segs, c)) :
    elems[i]? = some c ∧ segs = [⟨getJSONFieldName f, some i⟩] := by
  obtain ⟨seg, c1, segs1, hst, hd1, rfl⟩ := (descend_cons v _ [] segs c).mp hd
  simp only [descend, Option.some.injEq, Prod.mk.injEq] at hd1
  obtain ⟨rfl, rfl⟩ := hd1
  obtain ⟨f1, w1, elemT1, elems1, hi, hw1, -, hj, rfl⟩ := (step_elem_iff v fs hv m i seg c1).mp hst
  rw [hm] at hi
  simp only [Option.some.injEq, Prod.mk.injEq] at hi
  obtain ⟨rfl, rfl⟩ := hi
  rw [collection_shape_inj w elemT elemT1 elems elems1 hw hw1] at hj
  exact ⟨hj, rfl⟩

/-- C3: whenever the traversal returns a report on a struct, then for a field
with public name `p` that is a slice or array of structs, every key `k` of the
report of element `i` is in the report of the struct as `p[i].k`, with `i`
counted from zero; and when the collection holds two structs
that each have one violation, on the same field `g`, and nothing else has a
violation, the report has exactly the two keys `p[0].g` and `p[1].g`. -/
theorem deepValidator_collection_keys (validate : Validate) (v : Value)
    (fs : List (StructField × Value)) (hv : v.fields? = some fs) (r : Report)
    (hr : deepValidator v validate = some r)
    (m : Nat) (f : StructField) (w : Value) (elemT : GoType) (elems : List Value)
    (hm : fs[m]? = some (f, w)) (hw : w = .slice elemT elems ∨ w = .array elemT elems)
    (hk : elemT.Kind = Kind.Struct) :
      (∀ (i : Nat) (e : Value), elems[i]? = some e →
        ∃ re, deepValidator e validate = some re ∧
          ∀ k ∈ re.keys, getJSONFieldName f ++ "[" ++ toString i ++ "]." ++ k ∈ r.keys) ∧
      (∀ (l0 l1 : List (StructField × Value)) (x0 x1 : FieldError) (g : StructField),
        elems = [.struct l0, .struct l1] →
        validate.report (.struct l0) = [x0] → validate.report (.struct l1) = [x1] →
        FieldByName l0 x0.StructField = some g → FieldByName l1 x1.StructField = some g →
        (∀ path segs c cfs, descend v path = some (segs, c) → c.fields? = some cfs →
          path ≠ [.elem m 0] → path ≠ [.elem m 1] → validate.report (.struct cfs) = []) →
        r.len = 2 ∧ ∀ x, x ∈ r.keys ↔
          x = getJSONFieldName f ++ "[0]." ++ getJSONFieldName g ∨
          x = getJSONFieldName f ++ "[1]." ++ getJSONFieldName g) := by
  have hstep : ∀ (i : Nat) (e : Value), elems[i]? = some e →
      v.step (.elem m i) = some (⟨getJSONFieldName f, some i⟩, e) := fun i e hi =>
    (step_elem_iff v fs hv m i _ e).mpr ⟨f, w, elemT, elems, hm, hw, hk, hi, rfl⟩
  refine ⟨fun i e hi => ?_, ?_⟩
  · obtain ⟨re, hre⟩ := deepValidator_step_isSome validate v r hr _ _ e (hstep i e hi)
    refine ⟨re, hre, fun k hk1 => ?_⟩
    exact (mem_keys_deepValidator validate v fs hv r hr _).mpr
      (Or.inr ⟨_, _, e, re, hstep i e hi, hre, k, hk1, rfl⟩)
  · intro l0 l1 x0 x1 g helems h0 h1 hg0 hg1 hother
    have hd0 : descend v [.elem m 0] =
        some ([⟨getJSONFieldName f, some 0⟩], .struct l0) := by
      simp only [descend, hstep 0 (.struct l0) (by simp [helems])]
    have hd1 : descend v [.elem m 1] =
        some ([⟨getJSONFieldName f, some 1⟩], .struct l1) := by
      simp only [descend, hstep 1 (.struct l1) (by simp [helems])]
    have hkeys : ∀ x, x ∈ r.keys ↔
        x = getJSONFieldName f ++ "[0]." ++ getJSONFieldName g ∨
        x = getJSONFieldName f ++ "[1]." ++ getJSONFieldName g := by
      intro x
      rw [mem_keys_iff_path validate v fs hv r hr x]
      constructor
      · rintro ⟨path, segs, c, cfs, e, g1, hd, hc, he, hg, hx⟩
        by_cases hp0 : path = [.elem m 0]
        · subst hp0
          rw [hd0] at hd
          simp only [Option.some.injEq, Prod.mk.injEq] at hd
          obtain ⟨rfl, rfl⟩ := hd
          simp only [Value.fields?, Option.some.injEq] at hc
          subst hc
          rw [h0, List.mem_singleton] at he
          subst he
          rw [hg0] at hg
          cases hg
          exact Or.inl (hx.trans (index_zero _ _))
        · by_cases hp1 : path = [.elem m 1]
          · subst hp1
            rw [hd1] at hd
            simp only [Option.some.injEq, Prod.mk.injEq] at hd
            obtain ⟨rfl, rfl⟩ := hd
            simp only [Value.fields?, Option.some.injEq] at hc
            subst hc
            rw [h1, List.mem_singleton] at he
            subst he
            rw [hg1] at hg
            cases hg
            exact Or.inr (hx.trans (index_one _ _))
          · rw [hother path segs c cfs hd hc hp0 hp1] at he
            cases he
      · rintro (hx | hx)
        · exact ⟨_, _, _, l0, x0, g, hd0, rfl, by simp [h0], hg0,
            hx.trans (index_zero _ _).symm⟩
        · exact ⟨_, _, _, l1, x1, g, hd1, rfl, by simp [h1], hg1,
            hx.trans (index_one _ _).symm⟩
    refine ⟨?_, hkeys⟩
    have hperm : r.keys.Perm
        [getJSONFieldName f ++ "[0]." ++ getJSONFieldName g,
         getJSONFieldName f ++ "[1]." ++ getJSONFieldName g] := by
      apply (List.perm_ext_iff_of_nodup (nodup_keys_deepValidator validate v r hr) ?_).mpr
      · intro x
        rw [hkeys x]
        simp
      · simp [index_zero_ne_one]
    have := hperm.length_eq
    simpa [Report.keys, Report.len] using this

theorem twoItems_other_paths (path : List Step) (segs : List Segment) (c : Value)
    (cfs : List (StructField × Value)) (hd : descend twoItems path = some (segs, c))
    (hc : c.fields? = some cfs) (hp0 : path ≠ [.elem 0 0]) (hp1 : path ≠ [.elem 0 1]) :
    itemValidate.report (.struct cfs) = [] := by
  cases path with
  | nil =>
    simp only [descend, Option.some.injEq, Prod.mk.injEq] at hd
    obtain ⟨-, rfl⟩ := hd
    cases hc
    decide
  | cons st rest =>
    exfalso
    obtain ⟨seg, c1, segs1, hst, hd1, -⟩ := (descend_cons twoItems st rest segs c).mp hd
    cases st with
    | field i =>
      obtain ⟨f, hi, -, cfs1, hc1⟩ := (step_field_iff twoItems _ rfl i seg c1).mp hst
      cases i with
      | zero =>
        simp only [List.getElem?_cons_zero, Option.some.injEq, Prod.mk.injEq] at hi
        obtain ⟨-, rfl⟩ := hi
        rcases hc1 with h | h <;> cases h
      | succ i => simp at hi
    | elem i j =>
      obtain ⟨f, w, elemT, elems, hi, hw, -, hj, -⟩ :=
        (step_elem_iff twoItems _ rfl i j seg c1).mp hst
      cases i with
      | succ i => simp at hi
      | zero =>
        simp only [List.getElem?_cons_zero, Option.some.injEq, Prod.mk.injEq] at hi
        obtain ⟨-, rfl⟩ := hi
        have he : elems = [missingName, missingName] := by
          rcases hw with h | h <;> cases h
          rfl
        subst he
        have hflat : c1 = missingName → rest = [] := fun h => by
          subst h
          exact (flat_descend missingName _ rfl (by decide) rest segs1 c hd1).1
        cases j with
        | zero =>
          simp only [List.getElem?_cons_zero, Option.some.injEq] at hj
          exact hp0 (by rw [hflat hj.symm])
        | succ j =>
          cases j with
          | zero =>
            simp only [List.getElem?_cons_succ, List.getElem?_cons_zero,
              Option.some.injEq] at hj
            exact hp1 (by rw [hflat hj.symm])
          | succ j => simp at hj

/-- A list of two sub-records with an empty required `Name`. -/
theorem deepValidator_collection_keys_witness :
    ∃ r, deepValidator twoItems itemValidate = some r ∧
      (∃ re, deepValidator missingName itemValidate = some re ∧
        ∀ k ∈ re.keys, "items" ++ "[" ++ toString 1 ++ "]." ++ k ∈ r.keys) ∧
      r.len = 2 ∧ ∀ x, x ∈ r.keys ↔ x = "items[0].name" ∨ x = "items[1].name" := by
  obtain ⟨r, hr⟩ := Option.isSome_iff_exists.mp
    (by decide : (deepValidator twoItems itemValidate).isSome = true)
  obtain ⟨hall, htwo⟩ :=
    deepValidator_collection_keys itemValidate twoItems _ rfl r hr 0
      ⟨"Items", "items", "required"⟩ _ .struct [missingName, missingName] rfl (Or.inl rfl) rfl
  obtain ⟨hlen, hkeys⟩ := htwo _ _
    ⟨"required", "", Kind.String, "Name", defaultError "Item.Name" "Name" "required"⟩
    ⟨"required", "", Kind.String, "Name", defaultError "Item.Name" "Name" "required"⟩
    ⟨"Name", "name", "required"⟩ rfl (by decide) (by decide)
    (by decide) (by decide) twoItems_other_paths
  exact ⟨r, hr, hall 1 missingName rfl, hlen, hkeys⟩

/-! ## Evaluation on the inputs of the test suite -/

/-- C2: on the input of the case "invalid complex struct with nested errors" of
`TestValidateStructDeep` the report has eighteen entries, one more than the
seventeen field paths with a violation: the violation the evaluator reports at
the top level for the field `Address` of the nested `TestNestedStruct` resolves
to the field `Address` of `TestComplexStruct` and is stored under the bare key
`address`. -/
theorem ValidateStructDeep_invalidComplex :
    ValidateStructDeep testValidate (some invalidComplex) =
      some (.map [
        ("address", "the field 'address' is required"),
        ("user.name", "the field 'name' is required"),
        ("user.email", "the field 'email' must be a valid email address"),
        ("user.age", "the field 'age' must be at least 18"),
        ("user.password", "the field 'password' must have a length of 8"),
        ("user.confirm_password",
          "the field 'confirm_password' must be equal to the field 'Password'"),
        ("user.website", "the field 'website' must be a valid URL"),
        ("user.username", "the field 'username' must contain only alphanumeric characters"),
        ("contacts[0].name", "the field 'name' is required"),
        ("contacts[0].email", "the field 'email' must be a valid email address"),
        ("contacts[0].age", "the field 'age' must be at least 18"),
        ("contacts[0].password", "the field 'password' must have a length of 8"),
        ("contacts[0].confirm_password",
          "the field 'confirm_password' must be equal to the field 'Password'"),
        ("contacts[0].website", "the field 'website' must be a valid URL"),
        ("contacts[0].username",
          "the field 'username' must contain only alphanumeric characters"),
        ("address.address", "the field 'address' is required"),
        ("address.city", "the field 'city' is required"),
        ("address.zip_code", "the field 'zip_code' must be a valid numeric value")]) ∧
    (ValidateStructDeep testValidate (some invalidComplex)).map Report.len = some 18 ∧
    (ValidateStructDeep testValidate (some invalidComplex)).map
      (fun r => r.get? "address") = some (some "the field 'address' is required") := by
  decide

/-- C4: a slice of pointers to structs held by a field is not entered: the
report of `pointerSliceStruct` has no entry, although element 0 of its field
`Addresses` is a non-nil pointer to a struct whose own report has the keys
`address`, `city` and `zip_code`. -/
theorem deepValidator_pointerSliceStruct :
    pointerSliceStruct.WellTyped = true ∧
    deepValidator pointerSliceStruct testValidate = some (.map []) ∧
    deepValidator (.ptr (some invalidAddress)) testValidate =
      some (.map [("address", "the field 'address' is required"),
        ("city", "the field 'city' is required"),
        ("zip_code", "the field 'zip_code' must be a valid numeric value")]) ∧
    (deepValidator pointerSliceStruct testValidate).map
      (fun r => r.get? "addresses[0].address") = some none := by
  decide

/-- C5: the message stored under a nested key names the field by its bare
public name, not by the key: under `user.name` the report of the invalid
`TestComplexStruct` holds "the field 'name' is required", and under `[0].age`
the report of the invalid slice holds "the field 'age' must be at least 18". -/
theorem nested_message_bare_name :
    (ValidateStructDeep testValidate (some invalidComplex)).map (fun r => r.get? "user.name") =
      some (some "the field 'name' is required") ∧
    (ValidateSliceDeep testValidate (some (.slice .struct [invalidUser, invalidContact]))).map
      (fun r => r.get? "[0].age") = some (some "the field 'age' must be at least 18") := by
  decide

/-! ## The formatter: kinds outside the catalog -/

/-- C11: for a violation whose kind is not a key of `errorMessages` the result
is the evaluator's own message `err.Error()`, whatever the public field name,
the parameter and the kind of the value. -/
theorem formatErrorMessage_unknown_kind (err : FieldError) (n : String)
    (h : errorMessages.lookup err.Tag = none) : formatErrorMessage err n = err.Error := by
  unfold formatErrorMessage
  simp only [h]

/-- A custom rule `is_even`, which the catalog does not list. -/
theorem formatErrorMessage_unknown_kind_witness :
    errorMessages.lookup "is_even" = none ∧
    formatErrorMessage
      ⟨"is_even", "", Kind.basic .Int, "Count",
        defaultError "Order.Count" "Count" "is_even"⟩ "count" =
      defaultError "Order.Count" "Count" "is_even" :=
  ⟨by decide, formatErrorMessage_unknown_kind _ "count" (by decide)⟩

/-! ## Entry points: absent and unsupported inputs -/

/-- C12: for an absent root the entry points return the nil map:
`ValidateStruct` and `ValidateStructDeep` on a nil pointer, and `ValidateStruct`,
`ValidateStructDeep`, `ValidateSliceDeep` and `ValidateAny` on the nil
interface; `ValidateAny` on a nil pointer does too. -/
theorem absent_root_nil (validate : Validate) :
    ValidateStruct validate (some (.ptr none)) = some .nil ∧
    ValidateStructDeep validate (some (.ptr none)) = some .nil ∧
    ValidateStruct validate none = some .nil ∧
    ValidateStructDeep validate none = some .nil ∧
    ValidateSliceDeep validate none = some .nil ∧
    ValidateAny validate none = some .nil ∧
    ValidateAny validate (some (.ptr none)) = some .nil ∧
    Report.nil.len = 0 := by
  refine ⟨?_, ?_, rfl, rfl, rfl, rfl, ?_, rfl⟩
  · simp [ValidateStruct, deepValidator]
  · simp [ValidateStructDeep, ValidateStruct, deepValidator]
  · simp [ValidateAny, Value.Kind, Value.IsNil]

/-- C13: on an input that is not nil, not a struct, not a pointer to a struct
and not a slice or array, `ValidateAny` returns the report whose one entry has
the key `root` and the value "provided value is neither a struct nor a
slice/array". -/
theorem ValidateAny_unsupported (validate : Validate) (x : Value)
    (hc : x.isComposite = false) (hnil : x.IsNil = false)
    (hs : x.Kind ≠ Kind.Slice) (ha : x.Kind ≠ Kind.Array) :
    ValidateAny validate (some x) = some rootError ∧
    rootError.entries = [("root", "provided value is neither a struct nor a slice/array")] := by
  refine ⟨?_, rfl⟩
  cases x with
  | basic b t => simp [ValidateAny, Value.Kind]
  | struct fs => simp [Value.isComposite, Value.fields?] at hc
  | ptr t =>
    cases t with
    | none => simp [Value.IsNil] at hnil
    | some w =>
      cases w with
      | struct fs => simp [Value.isComposite, Value.fields?] at hc
      | basic b t => simp [ValidateAny, Value.Kind, Value.IsNil, Value.deref]
      | ptr u => simp [ValidateAny, Value.Kind, Value.IsNil, Value.deref]
      | slice e es =>
        simp [ValidateAny, Value.Kind, Value.IsNil, Value.deref, ValidateSliceDeep]
      | array e es =>
        simp [ValidateAny, Value.Kind, Value.IsNil, Value.deref, ValidateSliceDeep]
  | slice e es => simp [Value.Kind] at hs
  | array e es => simp [Value.Kind] at ha

/-- The case "invalid input type" of `TestValidateAny`. -/
theorem ValidateAny_unsupported_witness :
    ValidateAny testValidate (some (str "not a struct or slice")) = some rootError ∧
    rootError.entries = [("root", "provided value is neither a struct nor a slice/array")] :=
  ValidateAny_unsupported testValidate (str "not a struct or slice") (by decide) (by decide)
    (by decide) (by decide)

/-- C14: on an input that is not nil and is neither a slice nor an array,
`ValidateSliceDeep` returns the report whose one entry has the key `root`. -/
theorem ValidateSliceDeep_unsupported (validate : Validate) (x : Value)
    (hs : x.Kind ≠ Kind.Slice) (ha : x.Kind ≠ Kind.Array) :
    ValidateSliceDeep validate (some x) = some rootError ∧
    rootError.entries = [("root", "provided value is neither a struct nor a slice/array")] ∧
    rootError.len = 1 := by
  refine ⟨?_, rfl, rfl⟩
  cases x with
  | slice e es => simp [Value.Kind] at hs
  | array e es => simp [Value.Kind] at ha
  | _ => simp [ValidateSliceDeep]

/-- A struct passed to the collection entry point. -/
theorem ValidateSliceDeep_unsupported_witness :
    ValidateSliceDeep testValidate (some validUser) = some rootError ∧
    rootError.entries = [("root", "provided value is neither a struct nor a slice/array")] ∧
    rootError.len = 1 :=
  ValidateSliceDeep_unsupported testValidate validUser (by decide) (by decide)


theorem sliceLoop_skip (validate : Validate) :
    ∀ (elems : List Value) (i : Nat) (errors : List (String × String)),
      (∀ e ∈ elems, e.Kind ≠ Kind.Struct ∧ e.Kind ≠ Kind.Ptr) →
      sliceLoop elems validate i errors = some errors := by
  intro elems
  induction elems with
  | nil => intro i errors _; simp [sliceLoop]
  | cons e rest ih =>
    intro i errors h
    have he := h e (List.mem_cons_self _ _)
    have hc : ¬ (e.Kind = Kind.Struct ∨
        (e.Kind = Kind.Ptr ∧ e.IsNil = false ∧ e.ElemKind = some Kind.Struct)) := by
      rintro (h1 | ⟨h1, -⟩)
      · exact he.1 h1
      · exact he.2 h1
    simp only [sliceLoop, if_neg hc]
    exact ih (i + 1) errors (fun q hq => h q (List.mem_cons_of_mem _ hq))

/-- C15: on a slice or array whose element type is neither a struct type nor a
pointer to a struct type, `ValidateSliceDeep` returns a report without entries,
whatever the elements. -/
theorem ValidateSliceDeep_scalar_elements (validate : Validate) (c : Value) (elemT : GoType)
    (elems : List Value) (hc : c = .slice elemT elems ∨ c = .array elemT elems)
    (hwt : c.WellTyped = true) (hs : elemT.Kind ≠ Kind.Struct)
    (hp : ¬ (elemT.Kind = Kind.Ptr ∧ elemT.ElemKind = some Kind.Struct)) :
    ∃ r, ValidateSliceDeep validate (some c) = some r ∧ r.len = 0 := by
  have hw : ∀ e ∈ elems, e.Kind = elemT.Kind ∧ e.WellTyped = true := by
    apply (wellTypedElems_iff elemT elems).mp
    rcases hc with h | h <;> subst h <;> simpa [Value.WellTyped] using hwt
  by_cases hg : elemT.Kind ≠ Kind.Struct ∧
      (elemT.Kind = Kind.Ptr ∧ elemT.ElemKind ≠ some Kind.Struct)
  · refine ⟨.nil, ?_, rfl⟩
    rcases hc with h | h <;> subst h <;> simp only [ValidateSliceDeep, if_pos hg]
  · have hnp : elemT.Kind ≠ Kind.Ptr := by
      intro h1
      by_cases h2 : elemT.ElemKind = some Kind.Struct
      · exact hp ⟨h1, h2⟩
      · exact hg ⟨hs, h1, h2⟩
    have hloop := sliceLoop_skip validate elems 0 []
      (fun e he => ⟨fun h => hs ((hw e he).1 ▸ h), fun h => hnp ((hw e he).1 ▸ h)⟩)
    refine ⟨.map [], ?_, rfl⟩
    rcases hc with h | h <;> subst h <;> simp only [ValidateSliceDeep, if_neg hg, hloop] <;> rfl

/-- A slice of ints and a slice of pointers to ints. -/
theorem ValidateSliceDeep_scalar_elements_witness :
    (∃ r, ValidateSliceDeep testValidate
        (some (.slice (.basic .Int) [int 1, int 2, int 3])) = some r ∧ r.len = 0) ∧
    (∃ r, ValidateSliceDeep testValidate
        (some (.slice (.ptr (.basic .Int)) [.ptr (some (int 1)), .ptr none])) = some r ∧
      r.len = 0) :=
  ⟨ValidateSliceDeep_scalar_elements testValidate _ (.basic .Int) [int 1, int 2, int 3]
      (Or.inl rfl) (by decide) (by decide) (by decide),
    ValidateSliceDeep_scalar_elements testValidate _ (.ptr (.basic .Int))
      [.ptr (some (int 1)), .ptr none] (Or.inl rfl) (by decide) (by decide) (by decide)⟩

theorem deepValidator_not_composite (validate : Validate) (x : Value)
    (hc : x.isComposite = false) (hnil : x.IsNil = false) : deepValidator x validate = none := by
  cases x with
  | struct fs => simp [Value.isComposite, Value.fields?] at hc
  | ptr t =>
    cases t with
    | none => simp [Value.IsNil] at hnil
    | some w =>
      cases w with
      | struct fs => simp [Value.isComposite, Value.fields?] at hc
      | _ => simp [deepValidator]
  | _ => simp [deepValidator]

/-- C17: `ValidateStruct` and `ValidateStructDeep` panic on a value that is not
a struct or a pointer to one, whatever the evaluator reports: on a string, an
int, a slice of structs and a pointer to an int there is no report. -/
theorem ValidateStruct_panics (validate : Validate) :
    ValidateStruct validate (some (str "not a struct or slice")) = none ∧
    ValidateStructDeep validate (some (str "not a struct or slice")) = none ∧
    ValidateStruct validate (some (int 42)) = none ∧
    ValidateStruct validate (some (.slice .struct [validUser])) = none ∧
    ValidateStruct validate (some (.ptr (some (int 42)))) = none := by
  refine ⟨?_, ?_, ?_, ?_, ?_⟩ <;>
    simp [ValidateStructDeep, ValidateStruct, deepValidator, str, int]

/-- C18: `ValidateAny` dispatches: on a struct or a non-nil pointer to a struct
it returns what `ValidateStruct` returns, on a slice or array what
`ValidateSliceDeep` returns; `ValidateStructDeep` is `ValidateStruct`. -/
theorem ValidateAny_dispatch (validate : Validate) :
    (∀ x : Value, x.isComposite = true →
      ValidateAny validate (some x) = ValidateStruct validate (some x)) ∧
    (∀ x : Option Value, ValidateStructDeep validate x = ValidateStruct validate x) ∧
    (∀ x : Value, (x.Kind = Kind.Slice ∨ x.Kind = Kind.Array) →
      ValidateAny validate (some x) = ValidateSliceDeep validate (some x)) := by
  refine ⟨fun x hx => ?_, fun x => rfl, fun x hx => ?_⟩
  · obtain ⟨fs, hfs⟩ := (isComposite_iff x).mp hx
    exact ValidateAny_composite validate x fs hfs
  · cases x with
    | slice e es => exact ValidateAny_collection validate _ e es (Or.inl rfl)
    | array e es => exact ValidateAny_collection validate _ e es (Or.inr rfl)
    | _ => simp [Value.Kind] at hx

/-- The invalid struct, a pointer to it, and the invalid slice of
`TestValidateAny`. -/
theorem ValidateAny_dispatch_witness :
    ValidateAny testValidate (some invalidUser) = ValidateStruct testValidate (some invalidUser) ∧
    ValidateAny testValidate (some (.ptr (some invalidUser))) =
      ValidateStruct testValidate (some (.ptr (some invalidUser))) ∧
    ValidateAny testValidate (some (.slice .struct [invalidUser])) =
      ValidateSliceDeep testValidate (some (.slice .struct [invalidUser])) :=
  ⟨(ValidateAny_dispatch testValidate).1 invalidUser (by decide),
    (ValidateAny_dispatch testValidate).1 (.ptr (some invalidUser)) (by decide),
    (ValidateAny_dispatch testValidate).2.2 (.slice .struct [invalidUser]) (Or.inl rfl)⟩

/-- C19: `ValidateStruct` and `ValidateStructDeep` return the same report on a
non-nil pointer to a struct as on the struct itself. -/
theorem ValidateStruct_pointer (validate : Validate) (fs : List (StructField × Value)) :
    ValidateStruct validate (some (.ptr (some (.struct fs)))) =
      ValidateStruct validate (some (.struct fs)) ∧
    ValidateStructDeep validate (some (.ptr (some (.struct fs)))) =
      ValidateStructDeep validate (some (.struct fs)) :=
  ⟨deepValidator_ptr validate fs, deepValidator_ptr validate fs⟩

theorem splitComma_head (l : List Char) :
    ∃ ps, splitComma l = l.takeWhile (fun c => c ≠ ',') :: ps := by
  induction l with
  | nil => exact ⟨[], rfl⟩
  | cons c rest ih =>
    obtain ⟨ps, hps⟩ := ih
    by_cases hc : c = ','
    · subst hc
      exact ⟨splitComma rest, by simp [splitComma]⟩
    · exact ⟨ps, by simp [splitComma, hc, hps]⟩

/-- C20: `getJSONFieldName` is the internal name when the json annotation is
empty or `-`, otherwise the text of the annotation before its first comma, or
the internal name when that text is empty; it reads nothing of the field but the
annotation and the internal name. -/
theorem getJSONFieldName_spec :
    (∀ f : StructField, getJSONFieldName f = specPublicName f.Name f.jsonTag) ∧
    (∀ f g : StructField, f.Name = g.Name → f.jsonTag = g.jsonTag →
      getJSONFieldName f = getJSONFieldName g) ∧
    getJSONFieldName ⟨"Name", "name,omitempty", "required"⟩ = "name" ∧
    getJSONFieldName ⟨"Name", ",omitempty", "required"⟩ = "Name" ∧
    getJSONFieldName ⟨"Name", "", "required"⟩ = "Name" ∧
    getJSONFieldName ⟨"Name", "-", "required"⟩ = "Name" := by
  have key : ∀ f : StructField, getJSONFieldName f = specPublicName f.Name f.jsonTag := by
    intro f
    unfold getJSONFieldName specPublicName
    obtain ⟨ps, hps⟩ := splitComma_head f.jsonTag.data
    by_cases h : f.jsonTag = "" ∨ f.jsonTag = "-"
    · simp only [if_pos h]
    · simp only [if_neg h, hps]
      generalize List.takeWhile (fun c => c ≠ ',') f.jsonTag.data = hd
      cases hd with
      | nil => simp
      | cons c tl => simp
  refine ⟨key, fun f g h1 h2 => ?_, by decide, by decide, by decide, by decide⟩
  rw [key f, key g, h1, h2]

/-! ## Decimal indices -/

theorem toDigitsCore_append (f : Nat) :
    ∀ (n : Nat) (ds : List Char),
      Nat.toDigitsCore 10 f n ds = Nat.toDigitsCore 10 f n [] ++ ds := by
  induction f with
  | zero => intro n ds; simp [Nat.toDigitsCore]
  | succ f ih =>
    intro n ds
    simp only [Nat.toDigitsCore]
    by_cases h : n / 10 = 0
    · simp [h]
    · simp only [h, if_false]
      rw [ih (n / 10) (Nat.digitChar (n % 10) :: ds), ih (n / 10) [Nat.digitChar (n % 10)]]
      simp

theorem digitChar_value : ∀ k < 10, (Nat.digitChar k).toNat - 48 = k := by
  decide

theorem digitChar_ne_bracket : ∀ k < 10, Nat.digitChar k ≠ ']' := by
  decide

theorem digitsValue_append (l : List Char) (c : Char) :
    digitsValue (l ++ [c]) = 10 * digitsValue l + (c.toNat - 48) := by
  simp [digitsValue, List.foldl_append]

theorem digitsValue_toDigitsCore (f : Nat) :
    ∀ n : Nat, n < f → digitsValue (Nat.toDigitsCore 10 f n []) = n := by
  induction f with
  | zero => intro n h; omega
  | succ f ih =>
    intro n hn
    simp only [Nat.toDigitsCore]
    have hmod : n % 10 < 10 := Nat.mod_lt _ (by decide)
    by_cases h : n / 10 = 0
    · simp only [h, if_true]
      have : digitsValue [Nat.digitChar (n % 10)] = (Nat.digitChar (n % 10)).toNat - 48 := by
        simp [digitsValue]
      rw [this, digitChar_value _ hmod]
      omega
    · simp only [h, if_false]
      rw [toDigitsCore_append f (n / 10) [Nat.digitChar (n % 10)], digitsValue_append,
        ih (n / 10) (by omega), digitChar_value _ hmod]
      omega

theorem toDigitsCore_no_bracket (f : Nat) :
    ∀ (n : Nat) (ds : List Char), ']' ∉ ds → ']' ∉ Nat.toDigitsCore 10 f n ds := by
  induction f with
  | zero => intro n ds h; simpa [Nat.toDigitsCore] using h
  | succ f ih =>
    intro n ds hds
    simp only [Nat.toDigitsCore]
    have hmod : n % 10 < 10 := Nat.mod_lt _ (by decide)
    have hcons : ']' ∉ Nat.digitChar (n % 10) :: ds := by
      intro hmem
      rcases List.mem_cons.mp hmem with h1 | h1
      · exact digitChar_ne_bracket _ hmod h1.symm
      · exact hds h1
    by_cases h : n / 10 = 0
    · simpa [h] using hcons
    · simp only [h, if_false]
      exact ih _ _ hcons

theorem toString_nat_data (n : Nat) : (toString n).data = Nat.toDigits 10 n := rfl

theorem toString_nat_injective (i j : Nat) (h : toString i = toString j) : i = j := by
  have h1 : Nat.toDigits 10 i = Nat.toDigits 10 j := by
    rw [← toString_nat_data, ← toString_nat_data, h]
  have hi := digitsValue_toDigitsCore (i + 1) i (by omega)
  have hj := digitsValue_toDigitsCore (j + 1) j (by omega)
  unfold Nat.toDigits at h1
  rw [h1] at hi
  omega

theorem toString_nat_no_bracket (n : Nat) : ']' ∉ (toString n).data := by
  rw [toString_nat_data]
  exact toDigitsCore_no_bracket _ _ _ (by simp)

theorem append_cons_inj (a : Char) :
    ∀ (l1 l2 r1 r2 : List Char), a ∉ l1 → a ∉ l2 → l1 ++ a :: r1 = l2 ++ a :: r2 →
      l1 = l2 ∧ r1 = r2 := by
  intro l1
  induction l1 with
  | nil =>
    intro l2 r1 r2 _ h2 h
    cases l2 with
    | nil => simpa using h
    | cons c l2 =>
      simp only [List.nil_append, List.cons_append, List.cons.injEq] at h
      exact absurd (h.1 ▸ List.mem_cons_self _ _) h2
  | cons b l1 ih =>
    intro l2 r1 r2 h1 h2 h
    cases l2 with
    | nil =>
      simp only [List.nil_append, List.cons_append, List.cons.injEq] at h
      exact absurd (h.1 ▸ List.mem_cons_self _ _) h1
    | cons c l2 =>
      simp only [List.cons_append, List.cons.injEq] at h
      obtain ⟨hl, hr⟩ := ih l2 r1 r2 (fun hm => h1 (List.mem_cons_of_mem _ hm))
        (fun hm => h2 (List.mem_cons_of_mem _ hm)) h.2
      exact ⟨by rw [h.1, hl], hr⟩

/-- The key `[i].k` determines the index `i` and the key `k`. -/
theorem rootKey_injective (i j : Nat) (k1 k2 : String)
    (h : "[" ++ toString i ++ "]." ++ k1 = "[" ++ toString j ++ "]." ++ k2) :
    i = j ∧ k1 = k2 := by
  have h1 := congrArg String.data h
  simp only [String.data_append, List.append_assoc] at h1
  simp only [List.cons_append, List.nil_append, List.cons.injEq, true_and] at h1
  obtain ⟨hd, hk⟩ := append_cons_inj ']' _ _ _ _ (toString_nat_no_bracket i)
    (toString_nat_no_bracket j) h1
  refine ⟨toString_nat_injective i j (String.ext hd), ?_⟩
  simp only [List.cons.injEq, true_and] at hk
  exact String.ext hk


/-! ## The collection entry point: entries -/

theorem lookup_cons_eq (k0 v0 : String) (rest : List (String × String)) (k : String) :
    ((k0, v0) :: rest).lookup k = if k = k0 then some v0 else rest.lookup k := by
  by_cases h : k = k0
  · simp [List.lookup, h]
  · have hb : (k == k0) = false := by simpa using h
    simp [List.lookup, h, hb]

theorem mem_keys_of_lookup (l : List (String × String)) (k m : String)
    (h : l.lookup k = some m) : k ∈ l.map Prod.fst := by
  induction l with
  | nil => simp [List.lookup] at h
  | cons p rest ih =>
    obtain ⟨k0, v0⟩ := p
    rw [lookup_cons_eq] at h
    by_cases hk : k = k0
    · simp [hk]
    · rw [if_neg hk] at h
      simp [ih h]

theorem lookup_foldl_mapSet (key : String → String) (hinj : ∀ a b, key a = key b → a = b)
    (x m : String) :
    ∀ (es : List (String × String)), (es.map Prod.fst).Nodup →
      ∀ errors : List (String × String),
      ((es.foldl (fun errors kv => mapSet errors (key kv.1) kv.2) errors).lookup x = some m ↔
        (∃ k, x = key k ∧ es.lookup k = some m) ∨
        ((∀ k ∈ es.map Prod.fst, x ≠ key k) ∧ errors.lookup x = some m)) := by
  intro es
  induction es with
  | nil => intro _ errors; simp [List.lookup]
  | cons p rest ih =>
    intro hnd errors
    obtain ⟨k0, v0⟩ := p
    simp only [List.map_cons, List.nodup_cons] at hnd
    simp only [List.foldl_cons]
    rw [ih hnd.2 (mapSet errors (key k0) v0), lookup_mapSet]
    constructor
    · rintro (⟨k, hx, hk⟩ | ⟨hno, hl⟩)
      · have hne : k ≠ k0 := fun e => hnd.1 (e ▸ mem_keys_of_lookup rest k m hk)
        exact Or.inl ⟨k, hx, by rw [lookup_cons_eq, if_neg hne]; exact hk⟩
      · by_cases hx : x = key k0
        · rw [if_pos hx] at hl
          exact Or.inl ⟨k0, hx, by rw [lookup_cons_eq, if_pos rfl]; exact hl⟩
        · rw [if_neg hx] at hl
          refine Or.inr ⟨fun k hk => ?_, hl⟩
          rcases List.mem_cons.mp hk with h1 | h1
          · rw [h1]; exact hx
          · exact hno k h1
    · rintro (⟨k, hx, hk⟩ | ⟨hno, hl⟩)
      · rw [lookup_cons_eq] at hk
        by_cases hkk : k = k0
        · rw [if_pos hkk] at hk
          subst hkk
          refine Or.inr ⟨fun k1 hk1 he => ?_, by rw [if_pos hx]; exact hk⟩
          have := hinj k k1 (hx ▸ he)
          exact hnd.1 (this ▸ hk1)
        · rw [if_neg hkk] at hk
          exact Or.inl ⟨k, hx, hk⟩
      · have hx : x ≠ key k0 := hno k0 (List.mem_cons_self _ _)
        exact Or.inr ⟨fun k hk => hno k (List.mem_cons_of_mem _ hk), by rw [if_neg hx]; exact hl⟩

theorem lookup_mergeNested (key : String → String) (hinj : ∀ a b, key a = key b → a = b)
    (nested : Report) (hnd : nested.keys.Nodup) (errors : List (String × String))
    (x m : String) :
    (mergeNested errors key nested).lookup x = some m ↔
      (∃ k, x = key k ∧ nested.get? k = some m) ∨
      ((∀ k ∈ nested.keys, x ≠ key k) ∧ errors.lookup x = some m) :=
  lookup_foldl_mapSet key hinj x m nested.entries hnd errors

theorem passes_iff (e : Value) :
    (e.Kind = Kind.Struct ∨
      (e.Kind = Kind.Ptr ∧ e.IsNil = false ∧ e.ElemKind = some Kind.Struct)) ↔
      e.isComposite = true := by
  rw [isComposite_iff]
  constructor
  · rintro (h | h)
    · obtain ⟨fs, hfs⟩ := (kind_struct_iff e).mp h
      exact ⟨fs, (fields?_eq_some e fs).mpr (Or.inl hfs)⟩
    · obtain ⟨fs, hfs⟩ := (live_ptr_iff e).mp h
      exact ⟨fs, (fields?_eq_some e fs).mpr (Or.inr hfs)⟩
  · rintro ⟨fs, hfs⟩
    rcases (fields?_eq_some e fs).mp hfs with h | h
    · exact Or.inl ((kind_struct_iff e).mpr ⟨fs, h⟩)
    · exact Or.inr ((live_ptr_iff e).mpr ⟨fs, h⟩)

theorem sliceLoop_cons_skip (validate : Validate) (e : Value) (rest : List Value) (i : Nat)
    (errors : List (String × String)) (h : e.isComposite = false) :
    sliceLoop (e :: rest) validate i errors = sliceLoop rest validate (i + 1) errors := by
  have hc : ¬ (e.Kind = Kind.Struct ∨
      (e.Kind = Kind.Ptr ∧ e.IsNil = false ∧ e.ElemKind = some Kind.Struct)) := by
    rw [passes_iff, h]
    simp
  simp only [sliceLoop, if_neg hc]

theorem sliceLoop_cons_enter (validate : Validate) (e : Value) (rest : List Value) (i : Nat)
    (errors : List (String × String)) (h : e.isComposite = true) :
    sliceLoop (e :: rest) validate i errors =
      match deepValidator e validate with
      | none => none
      | some nested =>
        sliceLoop rest validate (i + 1)
          (mergeNested errors (fun k => "[" ++ toString i ++ "]." ++ k) nested) := by
  have hc : e.Kind = Kind.Struct ∨
      (e.Kind = Kind.Ptr ∧ e.IsNil = false ∧ e.ElemKind = some Kind.Struct) :=
    (passes_iff e).mpr h
  simp only [sliceLoop, if_pos hc, Sprintf_rootIndex]


theorem lookup_sliceLoop (validate : Validate) (x m : String) :
    ∀ (elems : List Value) (i : Nat) (errors out : List (String × String)),
      sliceLoop elems validate i errors = some out →
      (out.lookup x = some m ↔
        (∃ (j : Nat) (e : Value) (re : Report) (k : String), elems[j]? = some e ∧
          e.isComposite = true ∧ deepValidator e validate = some re ∧
          re.get? k = some m ∧ x = "[" ++ toString (i + j) ++ "]." ++ k) ∨
        ((∀ (j : Nat) (e : Value) (re : Report) (k : String), elems[j]? = some e →
            e.isComposite = true → deepValidator e validate = some re → k ∈ re.keys →
            x ≠ "[" ++ toString (i + j) ++ "]." ++ k) ∧
          errors.lookup x = some m)) := by
  intro elems
  induction elems with
  | nil =>
    intro i errors out h
    simp only [sliceLoop, Option.some.injEq] at h
    subst h
    simp
  | cons e rest ih =>
    intro i errors out h
    have shift : ∀ j : Nat, i + (j + 1) = i + 1 + j := fun j => by omega
    by_cases hcomp : e.isComposite = true
    · rw [sliceLoop_cons_enter validate e rest i errors hcomp] at h
      cases hd : deepValidator e validate with
      | none => simp [hd] at h
      | some re0 =>
        simp only [hd] at h
        have hinj : ∀ a b : String,
            "[" ++ toString i ++ "]." ++ a = "[" ++ toString i ++ "]." ++ b → a = b :=
          fun a b hab => (rootKey_injective i i a b hab).2
        rw [ih (i + 1) _ out h,
          lookup_mergeNested _ hinj re0 (nodup_keys_deepValidator validate e re0 hd)]
        constructor
        · rintro (⟨j, e1, re, k, hj, hc1, hd1, hk, hx⟩ | ⟨hno, ⟨k, hx, hk⟩ | ⟨hno0, hl⟩⟩)
          · exact Or.inl ⟨j + 1, e1, re, k, by simpa using hj, hc1, hd1, hk, by rw [shift]; exact hx⟩
          · exact Or.inl ⟨0, e, re0, k, by simp, hcomp, hd, hk, by simpa using hx⟩
          · refine Or.inr ⟨fun j e1 re k hj hc1 hd1 hk => ?_, hl⟩
            cases j with
            | zero =>
              simp only [List.getElem?_cons_zero, Option.some.injEq] at hj
              subst hj
              rw [hd] at hd1
              cases hd1
              simpa using hno0 k hk
            | succ j =>
              rw [shift]
              exact hno j e1 re k (by simpa using hj) hc1 hd1 hk
        · rintro (⟨j, e1, re, k, hj, hc1, hd1, hk, hx⟩ | ⟨hno, hl⟩)
          · cases j with
            | zero =>
              simp only [List.getElem?_cons_zero, Option.some.injEq] at hj
              subst hj
              rw [hd] at hd1
              cases hd1
              have hx0 : x = "[" ++ toString i ++ "]." ++ k := by simpa using hx
              refine Or.inr ⟨fun j e1 re1 k1 _ _ _ _ he => ?_, Or.inl ⟨k, hx0, hk⟩⟩
              have := (rootKey_injective i (i + 1 + j) k k1 (hx0 ▸ he)).1
              omega
            | succ j =>
              exact Or.inl ⟨j, e1, re, k, by simpa using hj, hc1, hd1, hk,
                by rw [← shift]; exact hx⟩
          · refine Or.inr ⟨fun j e1 re k hj hc1 hd1 hk => ?_, Or.inr ⟨fun k hk => ?_, hl⟩⟩
            · rw [← shift]
              exact hno (j + 1) e1 re k (by simpa using hj) hc1 hd1 hk
            · simpa using hno 0 e re0 k (by simp) hcomp hd hk
    · have hcomp0 : e.isComposite = false := by simpa using hcomp
      rw [sliceLoop_cons_skip validate e rest i errors hcomp0] at h
      rw [ih (i + 1) errors out h]
      constructor
      · rintro (⟨j, e1, re, k, hj, hc1, hd1, hk, hx⟩ | ⟨hno, hl⟩)
        · exact Or.inl ⟨j + 1, e1, re, k, by simpa using hj, hc1, hd1, hk, by rw [shift]; exact hx⟩
        · refine Or.inr ⟨fun j e1 re k hj hc1 hd1 hk => ?_, hl⟩
          cases j with
          | zero =>
            simp only [List.getElem?_cons_zero, Option.some.injEq] at hj
            subst hj
            exact absurd hc1 hcomp
          | succ j =>
            rw [shift]
            exact hno j e1 re k (by simpa using hj) hc1 hd1 hk
      · rintro (⟨j, e1, re, k, hj, hc1, hd1, hk, hx⟩ | ⟨hno, hl⟩)
        · cases j with
          | zero =>
            simp only [List.getElem?_cons_zero, Option.some.injEq] at hj
            subst hj
            exact absurd hc1 hcomp
          | succ j =>
            exact Or.inl ⟨j, e1, re, k, by simpa using hj, hc1, hd1, hk,
              by rw [← shift]; exact hx⟩
        · refine Or.inr ⟨fun j e1 re k hj hc1 hd1 hk => ?_, hl⟩
          rw [← shift]
          exact hno (j + 1) e1 re k (by simpa using hj) hc1 hd1 hk

theorem nodup_sliceLoop (validate : Validate) :
    ∀ (elems : List Value) (i : Nat) (errors out : List (String × String)),
      sliceLoop elems validate i errors = some out →
      (errors.map Prod.fst).Nodup → (out.map Prod.fst).Nodup := by
  intro elems
  induction elems with
  | nil =>
    intro i errors out h hn
    simp only [sliceLoop, Option.some.injEq] at h
    subst h
    exact hn
  | cons e rest ih =>
    intro i errors out h hn
    by_cases hcomp : e.isComposite = true
    · rw [sliceLoop_cons_enter validate e rest i errors hcomp] at h
      cases hd : deepValidator e validate with
      | none => simp [hd] at h
      | some re0 =>
        simp only [hd] at h
        exact ih _ _ out h (nodup_mergeNested _ re0 errors hn)
    · have hcomp0 : e.isComposite = false := by simpa using hcomp
      rw [sliceLoop_cons_skip validate e rest i errors hcomp0] at h
      exact ih _ _ out h hn

/-- C16: whenever `ValidateSliceDeep` returns a report on a slice or array of
structs or of pointers to structs, the report maps a key to a message exactly
when the key is `[i].k` for the position `i`, counted from zero, of an element
that is a struct or a non-nil pointer to one, and the report of that element
maps `k` to the message; a nil pointer adds nothing and leaves the positions of
the other elements as they are. -/
theorem ValidateSliceDeep_entries (validate : Validate) (c : Value) (elemT : GoType)
    (elems : List Value) (hc : c = .slice elemT elems ∨ c = .array elemT elems)
    (hT : elemT.Kind = Kind.Struct ∨
      (elemT.Kind = Kind.Ptr ∧ elemT.ElemKind = some Kind.Struct))
    (r : Report) (hr : ValidateSliceDeep validate (some c) = some r) :
    r.keys.Nodup ∧
      ∀ x m, r.get? x = some m ↔
        ∃ (i : Nat) (e : Value) (re : Report) (k : String), elems[i]? = some e ∧
          e.isComposite = true ∧ deepValidator e validate = some re ∧
          re.get? k = some m ∧ x = "[" ++ toString i ++ "]." ++ k := by
  have hg : ¬ (elemT.Kind ≠ Kind.Struct ∧
      (elemT.Kind = Kind.Ptr ∧ elemT.ElemKind ≠ some Kind.Struct)) := by
    rintro ⟨h1, h2, h3⟩
    rcases hT with h | ⟨-, h⟩
    · exact h1 h
    · exact h3 h
  have hS : ValidateSliceDeep validate (some c) =
      (sliceLoop elems validate 0 []).map Report.map := by
    rcases hc with h | h <;> subst h <;> simp only [ValidateSliceDeep, if_neg hg]
  rw [hS] at hr
  cases hout : sliceLoop elems validate 0 [] with
  | none => simp [hout] at hr
  | some out =>
    simp only [hout, Option.map_some', Option.some.injEq] at hr
    subst hr
    refine ⟨nodup_sliceLoop validate elems 0 [] out hout (by simp), fun x m => ?_⟩
    show out.lookup x = some m ↔ _
    rw [lookup_sliceLoop validate x m elems 0 [] out hout]
    simp only [Nat.zero_add, List.lookup, and_false, or_false, reduceCtorEq]

/-- The slice of a nil pointer and a pointer to the invalid address: the
entries are those of the second element, at index 1. -/
theorem ValidateSliceDeep_entries_witness :
    ∃ r, ValidateSliceDeep testValidate (some pointerSlice) = some r ∧ r.keys.Nodup ∧
      (∀ x m, r.get? x = some m ↔
        ∃ (i : Nat) (e : Value) (re : Report) (k : String),
          [Value.ptr none, .ptr (some invalidAddress)][i]? = some e ∧
          e.isComposite = true ∧ deepValidator e testValidate = some re ∧
          re.get? k = some m ∧ x = "[" ++ toString i ++ "]." ++ k) ∧
      r.get? "[1].city" = some "the field 'city' is required" ∧
      r.get? "[0].city" = none ∧ r.len = 3 := by
  have hval : ValidateSliceDeep testValidate (some pointerSlice) =
      some (.map [("[1].address", "the field 'address' is required"),
        ("[1].city", "the field 'city' is required"),
        ("[1].zip_code", "the field 'zip_code' must be a valid numeric value")]) := by
    decide
  obtain ⟨hnd, hall⟩ :=
    ValidateSliceDeep_entries testValidate pointerSlice (.ptr .struct)
      [.ptr none, .ptr (some invalidAddress)] (Or.inl rfl) (Or.inr (by decide)) _ hval
  exact ⟨_, hval, hnd, hall, by decide, by decide, by decide⟩

/-! ## The formatter: operands and placeholders -/

theorem doPrintf_substitute_aux (n : Nat) : ∀ (fmt : List Char) (args : List String),
    fmt.length ≤ n → stringVerbs fmt = true → placeholders fmt = args.length →
    doPrintf fmt (args.map Arg.str) = substitute fmt args := by
  induction n with
  | zero =>
    intro fmt args hl _ hp
    cases fmt with
    | nil =>
      cases args with
      | nil => simp [doPrintf, substitute]
      | cons a more => simp [placeholders] at hp
    | cons c rest => simp at hl
  | succ n ih =>
    intro fmt args hl hs hp
    match fmt, hl, hs, hp with
    | [], _, _, hp =>
      cases args with
      | nil => simp [doPrintf, substitute]
      | cons a more => simp [placeholders] at hp
    | [c], _, _, hp =>
      cases args with
      | nil => simp [doPrintf, substitute]
      | cons a more => simp [placeholders] at hp
    | c :: v :: rest, hl, hs, hp =>
      simp only [List.length_cons] at hl
      by_cases hc : c = '%'
      · subst hc
        simp only [stringVerbs, if_true, Bool.and_eq_true, decide_eq_true_eq] at hs
        obtain ⟨hv, hs⟩ := hs
        subst hv
        simp only [placeholders, and_self, if_true] at hp
        cases args with
        | nil => simp at hp
        | cons a more =>
          simp only [List.length_cons, Nat.add_right_cancel_iff] at hp
          have := ih rest more (by omega) hs hp
          simp [doPrintf, substitute, this]
      · simp only [stringVerbs, if_neg hc] at hs
        simp only [placeholders, hc, false_and, if_false] at hp
        have := ih (v :: rest) args (by simp; omega) hs hp
        simp [doPrintf, substitute, hc, this]

theorem doPrintf_substitute (fmt : List Char) (args : List String)
    (hs : stringVerbs fmt = true) (hp : placeholders fmt = args.length) :
    doPrintf fmt (args.map Arg.str) = substitute fmt args :=
  doPrintf_substitute_aux fmt.length fmt args (Nat.le_refl _) hs hp

theorem mem_of_lookup {α : Type} (l : List (String × α)) (k : String) (v : α)
    (h : l.lookup k = some v) : (k, v) ∈ l := by
  induction l with
  | nil => simp at h
  | cons p rest ih =>
    obtain ⟨k0, v0⟩ := p
    by_cases hk : k = k0
    · subst hk
      simp at h
      simp [h]
    · have hb : (k == k0) = false := by simpa using hk
      simp only [List.lookup, hb] at h
      exact List.mem_cons_of_mem _ (ih h)

/-- The call of `Sprintf` that `formatErrorMessage` makes for a kind of the
catalog: the format it selects and the operands it passes. -/
theorem formatErrorMessage_call (err : FieldError) (n t : String)
    (h : errorMessages.lookup err.Tag = some t) :
    ∃ (sel : String) (args : List String),
      ((args = [n] ∧ (err.Tag ∈ caseNameOnly ∨ err.Tag ∉ twoArgKinds)) ∨
        (args = [n, err.Param] ∧ err.Tag ∉ caseNameOnly ∧ err.Tag ∈ twoArgKinds)) ∧
      (sel = t ∨ (err.Tag ∈ ["max", "min"] ∧
        sel ∈ [mapIndex errorMessages "len", "the field '%s' must be at least %s",
          "the field '%s' must be no more than %s"])) ∧
      formatErrorMessage err n = Sprintf sel (args.map Arg.str) := by
  unfold formatErrorMessage
  simp only [h]
  by_cases h1 : err.Tag ∈ caseNameOnly
  · exact ⟨t, [n], Or.inl ⟨rfl, Or.inl h1⟩, Or.inl rfl, by simp [h1]⟩
  simp only [if_neg h1]
  by_cases h2 : err.Tag ∈ caseCompare
  · exact ⟨t, [n, err.Param], Or.inr ⟨rfl, h1, by simp [twoArgKinds, h2]⟩, Or.inl rfl,
      by simp [h2]⟩
  simp only [if_neg h2]
  by_cases h3 : err.Tag = "len"
  · exact ⟨t, [n, err.Param], Or.inr ⟨rfl, h1, by simp [twoArgKinds, h3]⟩, Or.inl rfl,
      by simp [h3]⟩
  simp only [if_neg h3]
  by_cases h4 : err.Tag ∈ ["max", "min"]
  · simp only [if_pos h4]
    have hm : err.Tag ∈ twoArgKinds := by
      simp only [twoArgKinds, List.mem_append]
      simp only [List.mem_cons, List.mem_singleton, List.not_mem_nil, or_false] at h4
      rcases h4 with h4 | h4 <;> simp [h4]
    by_cases hk : err.Kind = Kind.String
    · exact ⟨mapIndex errorMessages "len", [n, err.Param], Or.inr ⟨rfl, h1, hm⟩,
        Or.inr ⟨h4, by simp⟩, by simp [hk]⟩
    · by_cases hmin : err.Tag = "min"
      · exact ⟨"the field '%s' must be at least %s", [n, err.Param], Or.inr ⟨rfl, h1, hm⟩,
          Or.inr ⟨h4, by simp⟩, by simp [hk, hmin]⟩
      · exact ⟨"the field '%s' must be no more than %s", [n, err.Param],
          Or.inr ⟨rfl, h1, hm⟩, Or.inr ⟨h4, by simp⟩, by simp [hk, hmin]⟩
  simp only [if_neg h4]
  by_cases h5 : err.Tag = "oneof"
  · exact ⟨t, [n, err.Param], Or.inr ⟨rfl, h1, by simp [twoArgKinds, h5]⟩, Or.inl rfl,
      by simp [h5]⟩
  simp only [if_neg h5]
  by_cases h6 : err.Tag ∈ caseFieldCompare
  · exact ⟨t, [n, err.Param], Or.inr ⟨rfl, h1, by simp [twoArgKinds, h6]⟩, Or.inl rfl,
      by simp [h6]⟩
  simp only [if_neg h6]
  by_cases h7 : err.Tag ∈ caseContains
  · exact ⟨t, [n, err.Param], Or.inr ⟨rfl, h1, by simp [twoArgKinds, h7]⟩, Or.inl rfl,
      by simp [h7]⟩
  simp only [if_neg h7]
  by_cases h8 : err.Tag ∈ caseConditional
  · exact ⟨t, [n, err.Param], Or.inr ⟨rfl, h1, by simp [twoArgKinds, h8]⟩, Or.inl rfl,
      by simp [h8]⟩
  simp only [if_neg h8]
  by_cases h9 : err.Tag ∈ casePostcode
  · exact ⟨t, [n, err.Param], Or.inr ⟨rfl, h1, by simp [twoArgKinds, h9]⟩, Or.inl rfl,
      by simp [h9]⟩
  simp only [if_neg h9]
  by_cases h10 : err.Tag = "datetime"
  · exact ⟨t, [n, err.Param], Or.inr ⟨rfl, h1, by simp [twoArgKinds, h10]⟩, Or.inl rfl,
      by simp [h10]⟩
  simp only [if_neg h10]
  refine ⟨t, [n], Or.inl ⟨rfl, Or.inr ?_⟩, Or.inl rfl, by simp⟩
  simp only [twoArgKinds, List.mem_append, not_or]
  simp only [List.mem_cons, List.mem_singleton, List.not_mem_nil, or_false, not_or] at h4
  simp [h2, h3, h4, h5, h6, h7, h8, h9, h10]

set_option maxRecDepth 100000 in
theorem catalog_arity : ∀ p ∈ errorMessages,
    stringVerbs p.2.data = true ∧
    placeholders p.2.data =
      (if p.1 ∈ caseNameOnly then 1 else if p.1 ∈ twoArgKinds then 2 else 1) := by
  decide

theorem literal_arity :
    ∀ s ∈ [mapIndex errorMessages "len", "the field '%s' must be at least %s",
      "the field '%s' must be no more than %s"],
    stringVerbs s.data = true ∧ placeholders s.data = 2 := by
  decide

theorem startsWith_append : ∀ (p l : List Char), startsWith p l = true → ∃ rest, l = p ++ rest
  | [], l, _ => ⟨l, rfl⟩
  | _ :: _, [], h => by simp [startsWith] at h
  | a :: p, b :: l, h => by
    simp only [startsWith, Bool.and_eq_true, decide_eq_true_eq] at h
    obtain ⟨rest, hr⟩ := startsWith_append p l h.2
    exact ⟨rest, by rw [h.1, hr]; rfl⟩

set_option maxRecDepth 100000 in
theorem catalog_starts : ∀ p ∈ errorMessages,
    startsWith "the field '%s'".data p.2.data = true := by
  decide

theorem literal_starts :
    ∀ s ∈ [mapIndex errorMessages "len", "the field '%s' must be at least %s",
      "the field '%s' must be no more than %s"],
    startsWith "the field '%s'".data s.data = true := by
  decide

theorem Sprintf_starts (sel n : String) (more : List Arg)
    (h : startsWith "the field '%s'".data sel.data = true) :
    ∃ tail : String, Sprintf sel (.str n :: more) = "the field '" ++ n ++ "'" ++ tail := by
  obtain ⟨rest, hr⟩ := startsWith_append _ _ h
  have hL : sel.data = "the field '".data ++ '%' :: 's' :: ("'".data ++ rest) := by
    rw [hr]; rfl
  refine ⟨⟨doPrintf rest more⟩, ?_⟩
  apply String.ext
  show doPrintf _ _ = _
  rw [hL, doPrintf_string _ _ _ _ (by decide), doPrintf_plain _ _ _ (by decide)]
  simp [String.data_append]

set_option maxRecDepth 100000 in
/-- C23: for a kind of the catalog `formatErrorMessage` passes exactly as many
operands as the format it selects has `%s` verbs, and as the kind's own
template has: the public name alone for one verb, the public name followed by
the raw parameter for two. The message is therefore the plain substitution of
the operands into the format, with no marker for a missing or a surplus
operand. -/
theorem formatErrorMessage_arity (err : FieldError) (n t : String)
    (h : errorMessages.lookup err.Tag = some t) :
    ∃ (sel : String) (args : List String),
      (sel = t ∨ (err.Tag ∈ ["max", "min"] ∧
        sel ∈ [mapIndex errorMessages "len", "the field '%s' must be at least %s",
          "the field '%s' must be no more than %s"])) ∧
      formatErrorMessage err n = Sprintf sel (args.map Arg.str) ∧
      placeholders sel.data = args.length ∧
      placeholders t.data = args.length ∧
      ((placeholders t.data = 1 ∧ args = [n]) ∨
        (placeholders t.data = 2 ∧ args = [n, err.Param])) ∧
      formatErrorMessage err n = ⟨substitute sel.data args⟩ := by
  obtain ⟨sel, args, hargs, hsel, hcall⟩ := formatErrorMessage_call err n t h
  have hcat := catalog_arity (err.Tag, t) (mem_of_lookup _ _ _ h)
  simp only at hcat
  have ht : placeholders t.data = args.length := by
    rcases hargs with ⟨ha, hk | hk⟩ | ⟨ha, hk1, hk2⟩
    · rw [hcat.2, if_pos hk, ha]; rfl
    · rw [hcat.2, ha]
      by_cases hk1 : err.Tag ∈ caseNameOnly
      · rw [if_pos hk1]; rfl
      · rw [if_neg hk1, if_neg hk]; rfl
    · rw [hcat.2, if_neg hk1, if_pos hk2, ha]; rfl
  have hs : stringVerbs sel.data = true ∧ placeholders sel.data = args.length := by
    rcases hsel with rfl | ⟨hk, hm⟩
    · exact ⟨hcat.1, ht⟩
    · have hl := literal_arity sel hm
      refine ⟨hl.1, ?_⟩
      have h2 : placeholders t.data = 2 := by
        rw [hcat.2]
        simp only [List.mem_cons, List.mem_singleton, List.not_mem_nil, or_false] at hk
        rcases hk with hk | hk <;> rw [hk] <;> rfl
      rw [hl.2, ← h2, ht]
  refine ⟨sel, args, hsel, hcall, hs.2, ht, ?_, ?_⟩
  · rcases hargs with ⟨ha, _⟩ | ⟨ha, _⟩
    · exact Or.inl ⟨by rw [ht, ha]; rfl, ha⟩
    · exact Or.inr ⟨by rw [ht, ha]; rfl, ha⟩
  · rw [hcall]
    apply String.ext
    exact doPrintf_substitute sel.data args hs.1 hs.2

/-- The kind `eqfield`, whose template has two verbs. -/
theorem formatErrorMessage_arity_witness :
    ∃ (sel : String) (args : List String),
      (sel = "the field '%s' must be equal to the field '%s'" ∨ ("eqfield" ∈ ["max", "min"] ∧
        sel ∈ [mapIndex errorMessages "len", "the field '%s' must be at least %s",
          "the field '%s' must be no more than %s"])) ∧
      formatErrorMessage ⟨"eqfield", "Password", Kind.String, "Confirm", ""⟩ "confirm" =
        Sprintf sel (args.map Arg.str) ∧
      placeholders sel.data = args.length ∧
      placeholders "the field '%s' must be equal to the field '%s'".data = args.length ∧
      ((placeholders "the field '%s' must be equal to the field '%s'".data = 1 ∧
          args = ["confirm"]) ∨
        (placeholders "the field '%s' must be equal to the field '%s'".data = 2 ∧
          args = ["confirm", "Password"])) ∧
      formatErrorMessage ⟨"eqfield", "Password", Kind.String, "Confirm", ""⟩ "confirm" =
        ⟨substitute sel.data args⟩ :=
  formatErrorMessage_arity ⟨"eqfield", "Password", Kind.String, "Confirm", ""⟩ "confirm"
    "the field '%s' must be equal to the field '%s'" (by decide)

/-- C25: for a kind of the catalog the message starts with `the field '`, the
public name and a closing quote, whatever the name, the parameter and the kind
of the value; it is never empty. -/
theorem formatErrorMessage_starts (err : FieldError) (n t : String)
    (h : errorMessages.lookup err.Tag = some t) :
    (∃ tail : String, formatErrorMessage err n = "the field '" ++ n ++ "'" ++ tail) ∧
    formatErrorMessage err n ≠ "" := by
  obtain ⟨sel, args, hargs, hsel, hcall⟩ := formatErrorMessage_call err n t h
  have hst : startsWith "the field '%s'".data sel.data = true := by
    rcases hsel with rfl | ⟨_, hm⟩
    · exact catalog_starts (err.Tag, sel) (mem_of_lookup _ _ _ h)
    · exact literal_starts sel hm
  have hex : ∃ tail : String, formatErrorMessage err n = "the field '" ++ n ++ "'" ++ tail := by
    rw [hcall]
    rcases hargs with ⟨ha, _⟩ | ⟨ha, _⟩
    · rw [ha]
      exact Sprintf_starts sel n [] hst
    · rw [ha]
      exact Sprintf_starts sel n [.str err.Param] hst
  refine ⟨hex, ?_⟩
  obtain ⟨tail, ht⟩ := hex
  rw [ht]
  intro he
  have := congrArg String.length he
  simp only [String.length_append] at this
  have h0 : "the field '".length = 11 := by decide
  have h1 : "".length = 0 := by decide
  omega

/-- The kind `required` on a field with an empty public name. -/
theorem formatErrorMessage_starts_witness :
    (∃ tail : String,
      formatErrorMessage ⟨"required", "", Kind.String, "Name", ""⟩ "" =
        "the field '" ++ "" ++ "'" ++ tail) ∧
    formatErrorMessage ⟨"required", "", Kind.String, "Name", ""⟩ "" ≠ "" :=
  formatErrorMessage_starts ⟨"required", "", Kind.String, "Name", ""⟩ ""
    "the field '%s' is required" (by decide)

/-! ## The formatter: strings, dead labels; pointers to collections; empty reports -/

theorem string_length_rule (err : FieldError) (n : String)
    (h : err.Tag = "min" ∨ err.Tag = "max") (hk : err.Kind = Kind.String) :
    formatErrorMessage err n = "the field '" ++ n ++ "' must have a length of " ++ err.Param := by
  have h1 : ¬ (err.Tag ∈ caseNameOnly) := by rcases h with h | h <;> rw [h] <;> decide
  have h2 : ¬ (err.Tag ∈ caseCompare) := by rcases h with h | h <;> rw [h] <;> decide
  have h3 : ¬ (err.Tag = "len") := by rcases h with h | h <;> rw [h] <;> decide
  have h4 : err.Tag ∈ ["max", "min"] := by rcases h with h | h <;> rw [h] <;> decide
  have h5 : (errorMessages.lookup err.Tag).isSome = true := by
    rcases h with h | h <;> rw [h] <;> decide
  obtain ⟨t, ht⟩ := Option.isSome_iff_exists.mp h5
  unfold formatErrorMessage
  simp only [ht, h1, h2, h3, h4, hk, if_true, if_false, mapIndex, lookup_len, Option.getD]
  exact Sprintf_length _ _

/-- C28: on a string a `min` violation and a `max` violation with the same
parameter render as the same message for the same public name: the length
message, which does not tell a lower bound from an upper bound. -/
theorem min_max_same_on_strings (a b : FieldError) (n : String)
    (ha : a.Tag = "min") (hb : b.Tag = "max") (hka : a.Kind = Kind.String)
    (hkb : b.Kind = Kind.String) (hp : a.Param = b.Param) :
    formatErrorMessage a n = formatErrorMessage b n ∧
    formatErrorMessage a n = "the field '" ++ n ++ "' must have a length of " ++ a.Param := by
  rw [string_length_rule a n (Or.inl ha) hka, string_length_rule b n (Or.inr hb) hkb, hp]
  exact ⟨rfl, rfl⟩

/-- The rules `min=8` and `max=8` on a string field `password`. -/
theorem min_max_same_on_strings_witness :
    formatErrorMessage ⟨"min", "8", Kind.String, "Password", ""⟩ "password" =
      formatErrorMessage ⟨"max", "8", Kind.String, "Password", ""⟩ "password" ∧
    formatErrorMessage ⟨"min", "8", Kind.String, "Password", ""⟩ "password" =
      "the field '" ++ "password" ++ "' must have a length of " ++ "8" :=
  min_max_same_on_strings ⟨"min", "8", Kind.String, "Password", ""⟩
    ⟨"max", "8", Kind.String, "Password", ""⟩ "password" rfl rfl rfl rfl rfl

/-- C29: the labels `dir`, `file`, `image` and `isdefault` stand in the
name-only clause of the switch but are not keys of `errorMessages`: for each of
them the result is the evaluator's own message, and no kind for which the
switch runs, a key of the catalog, is one of the four. -/
theorem formatErrorMessage_dead_labels :
    (∀ tag ∈ ["dir", "file", "image", "isdefault"],
      tag ∈ caseNameOnly ∧ errorMessages.lookup tag = none) ∧
    (∀ (err : FieldError) (n : String), err.Tag ∈ ["dir", "file", "image", "isdefault"] →
      formatErrorMessage err n = err.Error) ∧
    (∀ (tag t : String), errorMessages.lookup tag = some t →
      tag ∉ ["dir", "file", "image", "isdefault"]) := by
  have hnone : ∀ tag ∈ ["dir", "file", "image", "isdefault"],
      tag ∈ caseNameOnly ∧ errorMessages.lookup tag = none := by decide
  refine ⟨hnone, ?_, ?_⟩
  · intro err n h
    unfold formatErrorMessage
    simp only [(hnone err.Tag h).2]
  · intro tag t h hm
    rw [(hnone tag hm).2] at h
    cases h

/-- A violation of the rule `file` with the message of the evaluator. -/
theorem formatErrorMessage_dead_labels_witness :
    formatErrorMessage
      ⟨"file", "", Kind.String, "Path", defaultError "Upload.Path" "Path" "file"⟩ "path" =
      defaultError "Upload.Path" "Path" "file" :=
  formatErrorMessage_dead_labels.2.1 _ "path" (by decide)

/-- C24: for a non-nil pointer to a slice or array `ValidateAny` returns the
one-entry usage-error report under the key `root`: it looks through the pointer
to choose the collection branch, but hands the pointer itself to
`ValidateSliceDeep`, which refuses it. -/
theorem ValidateAny_pointer_collection (validate : Validate) (elemT : GoType)
    (elems : List Value) :
    ValidateAny validate (some (.ptr (some (.slice elemT elems)))) = some rootError ∧
    ValidateAny validate (some (.ptr (some (.array elemT elems)))) = some rootError ∧
    ValidateAny validate (some (.ptr (some (.slice elemT elems)))) =
      ValidateSliceDeep validate (some (.ptr (some (.slice elemT elems)))) ∧
    ValidateAny validate (some (.ptr (some (.array elemT elems)))) =
      ValidateSliceDeep validate (some (.ptr (some (.array elemT elems)))) ∧
    rootError.entries = [("root", "provided value is neither a struct nor a slice/array")] := by
  simp [ValidateAny, ValidateSliceDeep, Value.Kind, Value.IsNil, Value.deref, rootError,
    Report.entries]

/-- C27: when the report of `deepValidator` has no entry, the evaluator
reported, at no composite the traversal visited, a violation whose subject
field is in the layout of that composite. -/
theorem empty_report_no_violation (validate : Validate) (v : Value)
    (fs : List (StructField × Value)) (hv : v.fields? = some fs) (r : Report)
    (hr : deepValidator v validate = some r) (h0 : r.len = 0) :
    ∀ path segs c cfs e, descend v path = some (segs, c) → c.fields? = some cfs →
      e ∈ validate.report (.struct cfs) → FieldByName cfs e.StructField = none := by
  intro path segs c cfs e hd hc he
  cases hf : FieldByName cfs e.StructField with
  | none => rfl
  | some f =>
    have hk : pathKey segs (getJSONFieldName f) ∈ r.keys :=
      (mem_keys_iff_path validate v fs hv r hr _).mpr ⟨path, segs, c, cfs, e, f, hd, hc, he, hf, rfl⟩
    have hlen : r.keys.length = 0 := by simpa [Report.keys, Report.len] using h0
    rw [List.length_eq_zero] at hlen
    rw [hlen] at hk
    cases hk

/-- The valid input of `TestValidateStructDeep`, whose report is empty. -/
theorem empty_report_no_violation_witness :
    deepValidator validComplex testValidate = some (.map []) ∧
    ∀ path segs c cfs e, descend validComplex path = some (segs, c) → c.fields? = some cfs →
      e ∈ testValidate.report (.struct cfs) → FieldByName cfs e.StructField = none :=
  ⟨by decide, empty_report_no_violation testValidate validComplex _ rfl (.map []) (by decide) rfl⟩

/-! ## Violations the layout does not resolve -/

theorem Value.induct2 {Q : Value → Prop}
    (basic : ∀ b t, Q (.basic b t))
    (struct : ∀ fields, (∀ p ∈ fields, Q p.2) →
      (∀ p ∈ fields, ∀ elemT elems, (p.2 = .slice elemT elems ∨ p.2 = .array elemT elems) →
        ∀ e ∈ elems, Q e) → Q (.struct fields))
    (ptrNil : Q (.ptr none))
    (ptr : ∀ v, Q v → Q (.ptr (some v)))
    (slice : ∀ elemT elems, Q (.slice elemT elems))
    (array : ∀ elemT elems, Q (.array elemT elems)) :
    ∀ v, Q v := by
  have key : ∀ v, Q v ∧ ∀ elemT elems, (v = .slice elemT elems ∨ v = .array elemT elems) →
      ∀ e ∈ elems, Q e := by
    intro v
    induction v using Value.induct with
    | basic b t => exact ⟨basic b t, by rintro _ _ (h | h) <;> cases h⟩
    | struct fields ih =>
      refine ⟨struct fields (fun p hp => (ih p hp).1)
        (fun p hp elemT elems h => (ih p hp).2 elemT elems h), ?_⟩
      rintro _ _ (h | h) <;> cases h
    | ptrNil => exact ⟨ptrNil, by rintro _ _ (h | h) <;> cases h⟩
    | ptr v ih => exact ⟨ptr v ih.1, by rintro _ _ (h | h) <;> cases h⟩
    | slice elemT elems ih =>
      refine ⟨slice elemT elems, ?_⟩
      rintro _ _ (h | h) <;> cases h
      exact fun e he => (ih e he).1
    | array elemT elems ih =>
      refine ⟨array elemT elems, ?_⟩
      rintro _ _ (h | h) <;> cases h
      exact fun e he => (ih e he).1
  exact fun v => (key v).1

theorem walkFields_step (validate : Validate) (ft : StructField) (fv : Value)
    (rest : List (StructField × Value)) (errors : List (String × String)) :
    walkFields ((ft, fv) :: rest) validate errors =
      (fieldStep validate ft fv errors).bind (fun mid => walkFields rest validate mid) := by
  cases fv with
  | basic b t => simp [walkFields, Value.Kind, fieldStep]
  | struct fs =>
    simp only [walkFields, Value.Kind, fieldStep]
    cases deepValidator (.struct fs) validate <;> simp
  | ptr t =>
    cases t with
    | none => simp [walkFields, Value.Kind, fieldStep, Value.IsNil]
    | some w =>
      cases w with
      | struct fs =>
        simp only [walkFields, Value.Kind, fieldStep, Value.IsNil, Value.ElemKind]
        cases deepValidator (.ptr (some (.struct fs))) validate <;> simp
      | _ => simp [walkFields, Value.Kind, fieldStep, Value.IsNil, Value.ElemKind]
  | slice elemT elems =>
    simp only [walkFields, Value.Kind, fieldStep]
    by_cases hk : elemT.Kind = Kind.Struct
    · simp only [if_pos hk]
      cases walkElems elems validate (getJSONFieldName ft) 0 errors <;> simp
    · simp [if_neg hk]
  | array elemT elems =>
    simp only [walkFields, Value.Kind, fieldStep]
    by_cases hk : elemT.Kind = Kind.Struct
    · simp only [if_pos hk]
      cases walkElems elems validate (getJSONFieldName ft) 0 errors <;> simp
    · simp [if_neg hk]

theorem walkElems_congr (validate validate' : Validate) (name : String) :
    ∀ (elems : List Value), (∀ e ∈ elems, deepValidator e validate' = deepValidator e validate) →
      ∀ (j : Nat) (errors : List (String × String)),
        walkElems elems validate' name j errors = walkElems elems validate name j errors := by
  intro elems
  induction elems with
  | nil => intro _ j errors; simp [walkElems]
  | cons e rest ih =>
    intro h j errors
    simp only [walkElems, h e (List.mem_cons_self _ _)]
    cases deepValidator e validate with
    | none => rfl
    | some nested => exact ih (fun x hx => h x (List.mem_cons_of_mem _ hx)) _ _

theorem fieldStep_congr (validate validate' : Validate) (ft : StructField) (fv : Value)
    (hc : (∃ cfs, fv = .struct cfs ∨ fv = .ptr (some (.struct cfs))) →
      deepValidator fv validate' = deepValidator fv validate)
    (he : ∀ elemT elems, (fv = .slice elemT elems ∨ fv = .array elemT elems) →
      elemT.Kind = Kind.Struct → ∀ e ∈ elems, deepValidator e validate' = deepValidator e validate)
    (errors : List (String × String)) :
    fieldStep validate' ft fv errors = fieldStep validate ft fv errors := by
  cases fv with
  | basic b t => rfl
  | struct fs => simp only [fieldStep, hc ⟨fs, Or.inl rfl⟩]
  | ptr t =>
    cases t with
    | none => rfl
    | some w =>
      cases w with
      | struct fs => simp only [fieldStep, hc ⟨fs, Or.inr rfl⟩]
      | _ => rfl
  | slice elemT elems =>
    simp only [fieldStep]
    by_cases hk : elemT.Kind = Kind.Struct
    · simp only [if_pos hk]
      exact walkElems_congr validate validate' _ elems (he elemT elems (Or.inl rfl) hk) _ _
    · simp [if_neg hk]
  | array elemT elems =>
    simp only [fieldStep]
    by_cases hk : elemT.Kind = Kind.Struct
    · simp only [if_pos hk]
      exact walkElems_congr validate validate' _ elems (he elemT elems (Or.inr rfl) hk) _ _
    · simp [if_neg hk]

theorem walkFields_congr (validate validate' : Validate) :
    ∀ (fs : List (StructField × Value)),
      (∀ p ∈ fs, ((∃ cfs, p.2 = .struct cfs ∨ p.2 = .ptr (some (.struct cfs))) →
          deepValidator p.2 validate' = deepValidator p.2 validate) ∧
        (∀ elemT elems, (p.2 = .slice elemT elems ∨ p.2 = .array elemT elems) →
          elemT.Kind = Kind.Struct →
          ∀ e ∈ elems, deepValidator e validate' = deepValidator e validate)) →
      ∀ errors, walkFields fs validate' errors = walkFields fs validate errors := by
  intro fs
  induction fs with
  | nil => intro _ errors; simp [walkFields]
  | cons p rest ih =>
    intro h errors
    obtain ⟨ft, fv⟩ := p
    rw [walkFields_step, walkFields_step,
      fieldStep_congr validate validate' ft fv (h (ft, fv) (List.mem_cons_self _ _)).1
        (h (ft, fv) (List.mem_cons_self _ _)).2]
    cases fieldStep validate ft fv errors with
    | none => rfl
    | some mid => exact ih (fun q hq => h q (List.mem_cons_of_mem _ hq)) mid

/-- The outcome of `deepValidator` on a composite is fixed by the entries of
its own level and the outcomes one step below. -/
theorem deepValidator_congr_level (validate validate' : Validate) (v : Value)
    (fs : List (StructField × Value)) (hv : v.fields? = some fs)
    (hlevel : levelErrors fs (validate'.report (.struct fs)) [] =
      levelErrors fs (validate.report (.struct fs)) [])
    (hbelow : ∀ st seg c, v.step st = some (seg, c) →
      deepValidator c validate' = deepValidator c validate) :
    deepValidator v validate' = deepValidator v validate := by
  rw [deepValidator_struct_of_fields? validate' v fs hv,
    deepValidator_struct_of_fields? validate v fs hv, deepValidator_struct, deepValidator_struct,
    hlevel]
  congr 1
  apply walkFields_congr
  intro p hp
  obtain ⟨ft, fv⟩ := p
  obtain ⟨i, hi⟩ := List.mem_iff_getElem?.mp hp
  refine ⟨?_, ?_⟩
  · rintro ⟨cfs, hc⟩
    exact hbelow (.field i) ⟨getJSONFieldName ft, none⟩ fv
      ((step_field_iff v fs hv i _ fv).mpr ⟨ft, hi, rfl, cfs, hc⟩)
  · intro elemT elems hw hk e he
    obtain ⟨j, hj⟩ := List.mem_iff_getElem?.mp he
    exact hbelow (.elem i j) ⟨getJSONFieldName ft, some j⟩ e
      ((step_elem_iff v fs hv i j _ e).mpr ⟨ft, fv, elemT, elems, hi, hw, hk, hj, rfl⟩)

theorem deepValidator_no_fields (validate validate' : Validate) (v : Value)
    (hv : v.fields? = none) : deepValidator v validate' = deepValidator v validate := by
  cases v with
  | struct fs => simp [Value.fields?] at hv
  | ptr t =>
    cases t with
    | none => simp [deepValidator]
    | some w =>
      cases w with
      | struct fs => simp [Value.fields?] at hv
      | _ => simp [deepValidator]
  | _ => simp [deepValidator]

/-- Two evaluators that report the same violations on every composite reached
from a value give the same outcome on it. -/
theorem deepValidator_congr (validate validate' : Validate) :
    ∀ (n : Nat) (v : Value), sizeOf v ≤ n →
      (∀ path segs c cfs, descend v path = some (segs, c) → c.fields? = some cfs →
        validate'.report (.struct cfs) = validate.report (.struct cfs)) →
      deepValidator v validate' = deepValidator v validate := by
  intro n
  induction n with
  | zero =>
    intro v hn
    cases v <;> simp at hn
  | succ n ih =>
    intro v hn h
    cases hv : v.fields? with
    | none => exact deepValidator_no_fields validate validate' v hv
    | some fs =>
      apply deepValidator_congr_level validate validate' v fs hv
      · rw [h [] [] v fs rfl hv]
      · intro st seg c hst
        have hlt := step_sizeOf_lt v st seg c hst
        apply ih c (by omega)
        intro path segs d dfs hd hdf
        exact h (st :: path) (seg :: segs) d dfs
          ((descend_cons v st path _ d).mpr ⟨seg, c, segs, hst, hd, rfl⟩) hdf

theorem levelErrors_skip (fs : List (StructField × Value)) (l1 l2 : List FieldError)
    (e : FieldError) (he : FieldByName fs e.StructField = none)
    (errors : List (String × String)) :
    levelErrors fs (l1 ++ e :: l2) errors = levelErrors fs (l1 ++ l2) errors := by
  simp only [levelErrors, List.foldl_append, List.foldl_cons, he]

/-- C22: a violation whose subject field is not the internal name of a field
of the layout changes nothing: the outcome of `deepValidator` on a composite is
the same, failure or report with all its entries, whether or not the evaluator
reports that violation among the others at that level. -/
theorem unresolvable_violation_ignored (validate validate' : Validate) (v : Value)
    (fs : List (StructField × Value)) (hv : v.fields? = some fs)
    (l1 l2 : List FieldError) (e : FieldError)
    (he : FieldByName fs e.StructField = none)
    (h1 : validate'.report (.struct fs) = l1 ++ e :: l2)
    (h2 : validate.report (.struct fs) = l1 ++ l2)
    (hbelow : ∀ st path segs c cfs, descend v (st :: path) = some (segs, c) →
      c.fields? = some cfs → validate'.report (.struct cfs) = validate.report (.struct cfs)) :
    deepValidator v validate' = deepValidator v validate ∧
    ∀ errors, levelErrors fs (l1 ++ e :: l2) errors = levelErrors fs (l1 ++ l2) errors := by
  refine ⟨?_, levelErrors_skip fs l1 l2 e he⟩
  apply deepValidator_congr_level validate validate' v fs hv
  · rw [h1, h2, levelErrors_skip fs l1 l2 e he]
  · intro st seg c hst
    apply deepValidator_congr validate validate' (sizeOf c) c (Nat.le_refl _)
    intro path segs d dfs hd hdf
    exact hbelow st path (seg :: segs) d dfs
      ((descend_cons v st path _ d).mpr ⟨seg, c, segs, hst, hd, rfl⟩) hdf

/-- The sub-record with an empty `Name`: a violation on a field `Ghost`, which
it does not have, leaves the one entry for `name`. -/
theorem unresolvable_violation_ignored_witness :
    (deepValidator missingName ghostValidate = deepValidator missingName itemValidate ∧
      ∀ errors,
        levelErrors [(⟨"Name", "name", "required"⟩, str "")]
          ([] ++ ⟨"required", "", Kind.String, "Ghost",
            defaultError "Item.Ghost" "Ghost" "required"⟩ ::
            [⟨"required", "", Kind.String, "Name",
              defaultError "Item.Name" "Name" "required"⟩]) errors =
        levelErrors [(⟨"Name", "name", "required"⟩, str "")]
          ([] ++ [⟨"required", "", Kind.String, "Name",
              defaultError "Item.Name" "Name" "required"⟩]) errors) ∧
    deepValidator missingName ghostValidate =
      some (.map [("name", "the field 'name' is required")]) :=
  ⟨unresolvable_violation_ignored itemValidate ghostValidate missingName _ rfl [] _ _
      (by decide) (by decide) (by decide)
      (fun st path segs c cfs hd _ =>
        absurd (flat_descend missingName _ rfl (by decide) (st :: path) segs c hd).1
          (List.cons_ne_nil _ _)),
    by decide⟩

/-! ## The report as the list of the resolvable violations -/

theorem fieldsEntries_cons (validate : Validate) (ft : StructField) (fv : Value)
    (rest : List (StructField × Value)) :
    fieldsEntries ((ft, fv) :: rest) validate =
      fieldEntries validate ft fv ++ fieldsEntries rest validate := by
  cases fv with
  | basic b t => simp [fieldsEntries, Value.Kind, fieldEntries]
  | struct fs => simp [fieldsEntries, Value.Kind, fieldEntries]
  | ptr t =>
    cases t with
    | none => simp [fieldsEntries, Value.Kind, fieldEntries, Value.IsNil]
    | some w =>
      cases w <;> simp [fieldsEntries, Value.Kind, fieldEntries, Value.IsNil, Value.ElemKind]
  | slice elemT elems => simp [fieldsEntries, Value.Kind, fieldEntries]
  | array elemT elems => simp [fieldsEntries, Value.Kind, fieldEntries]

theorem violationEntries_fields (validate : Validate) (v : Value)
    (fs : List (StructField × Value)) (hv : v.fields? = some fs) :
    violationEntries v validate =
      levelEntries fs (validate.report (.struct fs)) ++ fieldsEntries fs validate := by
  rcases (fields?_eq_some v fs).mp hv with h | h <;> subst h <;> simp [violationEntries]

theorem violationEntries_no_fields (validate : Validate) (v : Value) (hv : v.fields? = none) :
    violationEntries v validate = [] := by
  cases v with
  | struct fs => simp [Value.fields?] at hv
  | ptr t =>
    cases t with
    | none => simp [violationEntries]
    | some w =>
      cases w with
      | struct fs => simp [Value.fields?] at hv
      | _ => simp [violationEntries]
  | _ => simp [violationEntries]

theorem mapSet_fresh (errors : List (String × String)) (k v : String)
    (h : k ∉ errors.map Prod.fst) : mapSet errors k v = errors ++ [(k, v)] := by
  induction errors with
  | nil => rfl
  | cons p rest ih =>
    obtain ⟨k0, v0⟩ := p
    simp only [List.map_cons, List.mem_cons, not_or] at h
    have hne : ¬ k0 = k := fun e => h.1 e.symm
    simp only [mapSet, if_neg hne, ih h.2, List.cons_append]

theorem setAll_fresh : ∀ (l errors : List (String × String)),
    (errors.map Prod.fst ++ l.map Prod.fst).Nodup →
    l.foldl (fun m kv => mapSet m kv.1 kv.2) errors = errors ++ l := by
  intro l
  induction l with
  | nil => intro errors _; simp
  | cons kv rest ih =>
    intro errors h
    have hk : kv.1 ∉ errors.map Prod.fst := by
      intro hm
      have := (List.nodup_append.mp h).2.2
      exact this hm (by simp)
    rw [List.foldl_cons, mapSet_fresh errors kv.1 kv.2 hk, ih]
    · simp
    · simpa using h

theorem levelErrors_setAll (fs : List (StructField × Value)) :
    ∀ (errs : List FieldError) (errors : List (String × String)),
      levelErrors fs errs errors =
        (levelEntries fs errs).foldl (fun m kv => mapSet m kv.1 kv.2) errors := by
  intro errs
  induction errs with
  | nil => intro errors; rfl
  | cons e rest ih =>
    intro errors
    have h0 : levelErrors fs (e :: rest) errors =
        levelErrors fs rest (levelErrors fs [e] errors) := by
      simp [levelErrors]
    rw [h0, ih]
    cases hf : FieldByName fs e.StructField with
    | none => simp [levelErrors, levelEntries, hf]
    | some f => simp [levelErrors, levelEntries, hf]

theorem mergeNested_setAll (errors : List (String × String)) (key : String → String)
    (nested : Report) :
    mergeNested errors key nested =
      (nested.entries.map (fun kv => (key kv.1, kv.2))).foldl
        (fun m kv => mapSet m kv.1 kv.2) errors := by
  simp [mergeNested, List.foldl_map]

theorem keys_map_key (key : String → String) (l : List (String × String)) :
    (l.map (fun kv => (key kv.1, kv.2))).map Prod.fst = (l.map Prod.fst).map key := by
  simp [List.map_map, Function.comp_def]

theorem mergeNested_fresh (errors : List (String × String)) (key1 key2 : String → String)
    (hkey : ∀ k, key1 k = key2 k) (nested : Report) (l : List (String × String))
    (hl : nested.entries = l)
    (h : (errors.map Prod.fst ++ (l.map (fun kv => (key2 kv.1, kv.2))).map Prod.fst).Nodup) :
    mergeNested errors key1 nested = errors ++ l.map (fun kv => (key2 kv.1, kv.2)) := by
  have hf : (fun kv : String × String => (key1 kv.1, kv.2)) = fun kv => (key2 kv.1, kv.2) := by
    funext kv
    rw [hkey]
  rw [mergeNested_setAll, hl, hf]
  exact setAll_fresh _ _ h

theorem walkElems_entries (validate : Validate) (name : String) :
    ∀ (elems : List Value),
      (∀ e ∈ elems, ∀ r, deepValidator e validate = some r →
        ((violationEntries e validate).map Prod.fst).Nodup →
        r.entries = violationEntries e validate) →
      ∀ (j : Nat) (errors out : List (String × String)),
      walkElems elems validate name j errors = some out →
      (errors.map Prod.fst ++ (elemsEntries elems validate name j).map Prod.fst).Nodup →
      out = errors ++ elemsEntries elems validate name j := by
  intro elems
  induction elems with
  | nil =>
    intro _ j errors out h _
    simp only [walkElems, Option.some.injEq] at h
    simp [elemsEntries, h]
  | cons e rest ih =>
    intro hch j errors out h hnd
    simp only [walkElems] at h
    cases hd : deepValidator e validate with
    | none => simp [hd] at h
    | some nested =>
      simp only [hd] at h
      simp only [elemsEntries, List.map_append, ← List.append_assoc] at hnd
      have hnd1 := (List.nodup_append.mp hnd).1
      have hnd2 := (List.nodup_append.mp hnd1).2.1
      rw [keys_map_key] at hnd2
      have hen := hch e (List.mem_cons_self _ _) nested hd hnd2.of_map
      have hm := mergeNested_fresh errors
        (fun k => Sprintf "%s[%d].%s" [.str name, .int j, .str k])
        (fun k => name ++ "[" ++ toString j ++ "]." ++ k) (fun k => Sprintf_index _ _ _)
        nested _ hen hnd1
      rw [hm] at h
      have := ih (fun x hx => hch x (List.mem_cons_of_mem _ hx)) (j + 1) _ out h
        (by simpa [List.map_append] using hnd)
      rw [this]
      simp [elemsEntries]

theorem fieldStep_entries (validate : Validate) (ft : StructField) (fv : Value)
    (hc : ∀ r, deepValidator fv validate = some r →
      ((violationEntries fv validate).map Prod.fst).Nodup →
      r.entries = violationEntries fv validate)
    (he : ∀ elemT elems, (fv = .slice elemT elems ∨ fv = .array elemT elems) →
      ∀ e ∈ elems, ∀ r, deepValidator e validate = some r →
        ((violationEntries e validate).map Prod.fst).Nodup →
        r.entries = violationEntries e validate)
    (errors mid : List (String × String))
    (h : fieldStep validate ft fv errors = some mid)
    (hnd : (errors.map Prod.fst ++ (fieldEntries validate ft fv).map Prod.fst).Nodup) :
    mid = errors ++ fieldEntries validate ft fv := by
  have hdot : ∀ (w : Value), fieldStep validate ft w errors =
      (deepValidator w validate).map (fun nestedErrors =>
        mergeNested errors
          (fun k => Sprintf "%s.%s" [.str (getJSONFieldName ft), .str k]) nestedErrors) →
      fieldEntries validate ft w = (violationEntries w validate).map
        (fun kv => (getJSONFieldName ft ++ "." ++ kv.1, kv.2)) →
      (∀ r, deepValidator w validate = some r →
        ((violationEntries w validate).map Prod.fst).Nodup →
        r.entries = violationEntries w validate) →
      fieldStep validate ft w errors = some mid →
      (errors.map Prod.fst ++ (fieldEntries validate ft w).map Prod.fst).Nodup →
      mid = errors ++ fieldEntries validate ft w := by
    intro w h1 h2 hc h hnd
    rw [h1] at h
    rw [h2] at hnd ⊢
    cases hd : deepValidator w validate with
    | none => simp [hd] at h
    | some nested =>
      simp only [hd, Option.map_some', Option.some.injEq] at h
      have hnd2 := (List.nodup_append.mp hnd).2.1
      rw [keys_map_key] at hnd2
      have hen := hc nested hd hnd2.of_map
      rw [← h]
      exact mergeNested_fresh errors _
        (fun k => getJSONFieldName ft ++ "." ++ k) (fun k => Sprintf_dot _ _) nested _ hen hnd
  cases fv with
  | basic b t =>
    simp only [fieldStep, Option.some.injEq] at h
    simp [fieldEntries, h]
  | struct fs => exact hdot _ rfl rfl hc h hnd
  | ptr t =>
    cases t with
    | none =>
      simp only [fieldStep, Option.some.injEq] at h
      simp [fieldEntries, h]
    | some w =>
      cases w with
      | struct fs => exact hdot _ rfl rfl hc h hnd
      | _ =>
        simp only [fieldStep, Option.some.injEq] at h
        simp [fieldEntries, h]
  | slice elemT elems =>
    simp only [fieldStep] at h
    simp only [fieldEntries] at hnd ⊢
    by_cases hk : elemT.Kind = Kind.Struct
    · simp only [if_pos hk] at h hnd ⊢
      exact walkElems_entries validate _ elems (he elemT elems (Or.inl rfl)) 0 errors mid h hnd
    · simp only [if_neg hk, Option.some.injEq] at h ⊢
      simp [h]
  | array elemT elems =>
    simp only [fieldStep] at h
    simp only [fieldEntries] at hnd ⊢
    by_cases hk : elemT.Kind = Kind.Struct
    · simp only [if_pos hk] at h hnd ⊢
      exact walkElems_entries validate _ elems (he elemT elems (Or.inr rfl)) 0 errors mid h hnd
    · simp only [if_neg hk, Option.some.injEq] at h ⊢
      simp [h]

theorem walkFields_entries (validate : Validate) :
    ∀ (fs : List (StructField × Value)),
      (∀ p ∈ fs, ∀ r, deepValidator p.2 validate = some r →
        ((violationEntries p.2 validate).map Prod.fst).Nodup →
        r.entries = violationEntries p.2 validate) →
      (∀ p ∈ fs, ∀ elemT elems, (p.2 = .slice elemT elems ∨ p.2 = .array elemT elems) →
        ∀ e ∈ elems, ∀ r, deepValidator e validate = some r →
          ((violationEntries e validate).map Prod.fst).Nodup →
          r.entries = violationEntries e validate) →
      ∀ (errors out : List (String × String)),
      walkFields fs validate errors = some out →
      (errors.map Prod.fst ++ (fieldsEntries fs validate).map Prod.fst).Nodup →
      out = errors ++ fieldsEntries fs validate := by
  intro fs
  induction fs with
  | nil =>
    intro _ _ errors out h _
    simp only [walkFields, Option.some.injEq] at h
    simp [fieldsEntries, h]
  | cons p rest ih =>
    intro hc he errors out h hnd
    obtain ⟨ft, fv⟩ := p
    rw [walkFields_step] at h
    rw [fieldsEntries_cons] at hnd ⊢
    cases hs : fieldStep validate ft fv errors with
    | none => simp [hs] at h
    | some mid =>
      simp only [hs, Option.some_bind] at h
      simp only [List.map_append, ← List.append_assoc] at hnd
      have hmid := fieldStep_entries validate ft fv (hc (ft, fv) (List.mem_cons_self _ _))
        (he (ft, fv) (List.mem_cons_self _ _)) errors mid hs (List.nodup_append.mp hnd).1
      have := ih (fun q hq => hc q (List.mem_cons_of_mem _ hq))
        (fun q hq => he q (List.mem_cons_of_mem _ hq)) mid out h
        (by rw [hmid]; simpa [List.map_append] using hnd)
      rw [this, hmid]
      simp

/-- When no two resolvable violations share a field path, the report of
`deepValidator` is the list of the resolvable violations: every write adds an
entry and none overwrites one. -/
theorem entries_eq_violationEntries (validate : Validate) :
    ∀ (v : Value) (r : Report), deepValidator v validate = some r →
      ((violationEntries v validate).map Prod.fst).Nodup →
      r.entries = violationEntries v validate := by
  intro v
  induction v using Value.induct2 with
  | basic b t => intro r h; simp [deepValidator] at h
  | struct fields ih1 ih2 =>
    intro r h hnd
    rw [deepValidator_struct] at h
    rw [violationEntries_fields validate (.struct fields) fields rfl] at hnd ⊢
    cases hw : walkFields fields validate
        (levelErrors fields (validate.report (.struct fields)) []) with
    | none => simp [hw] at h
    | some out =>
      simp only [hw, Option.map_some', Option.some.injEq] at h
      subst h
      have hlev : levelErrors fields (validate.report (.struct fields)) [] =
          levelEntries fields (validate.report (.struct fields)) := by
        rw [levelErrors_setAll, setAll_fresh]
        · simp
        · simp only [List.map_append] at hnd
          simpa using (List.nodup_append.mp hnd).1
      rw [hlev] at hw
      have := walkFields_entries validate fields ih1 ih2 _ out hw
        (by simpa [List.map_append] using hnd)
      simpa [Report.entries] using this
  | ptrNil =>
    intro r h _
    simp only [deepValidator, Option.some.injEq] at h
    subst h
    simp [Report.entries, violationEntries]
  | ptr w ih =>
    intro r h hnd
    cases w with
    | struct fs =>
      rw [deepValidator_ptr] at h
      have e : violationEntries (.ptr (some (.struct fs))) validate =
          violationEntries (.struct fs) validate := by
        simp [violationEntries]
      rw [e] at hnd ⊢
      exact ih r h hnd
    | _ => simp [deepValidator] at h
  | slice elemT elems => intro r h; simp [deepValidator] at h
  | array elemT elems => intro r h; simp [deepValidator] at h

/-! ## Regular inputs: no two violations share a key -/

theorem head_inj : ∀ (l1 l2 r1 r2 : List Char) (c1 c2 : Char),
    (c1 = '.' ∨ c1 = '[') → (c2 = '.' ∨ c2 = '[') →
    ('.' ∉ l1 ∧ '[' ∉ l1) → ('.' ∉ l2 ∧ '[' ∉ l2) →
    l1 ++ c1 :: r1 = l2 ++ c2 :: r2 → l1 = l2 := by
  intro l1
  induction l1 with
  | nil =>
    intro l2 r1 r2 c1 c2 h1 _ _ hp2 h
    cases l2 with
    | nil => rfl
    | cons b l2 =>
      exfalso
      simp only [List.nil_append, List.cons_append, List.cons.injEq] at h
      rcases h1 with e | e
      · exact hp2.1 (by rw [← h.1, e]; exact List.mem_cons_self _ _)
      · exact hp2.2 (by rw [← h.1, e]; exact List.mem_cons_self _ _)
  | cons a l1 ih =>
    intro l2 r1 r2 c1 c2 h1 h2 hp1 hp2 h
    cases l2 with
    | nil =>
      exfalso
      simp only [List.nil_append, List.cons_append, List.cons.injEq] at h
      rcases h2 with e | e
      · exact hp1.1 (by rw [h.1, e]; exact List.mem_cons_self _ _)
      · exact hp1.2 (by rw [h.1, e]; exact List.mem_cons_self _ _)
    | cons b l2 =>
      simp only [List.cons_append, List.cons.injEq] at h
      rw [h.1, ih l2 r1 r2 c1 c2 h1 h2
        ⟨fun m => hp1.1 (List.mem_cons_of_mem _ m), fun m => hp1.2 (List.mem_cons_of_mem _ m)⟩
        ⟨fun m => hp2.1 (List.mem_cons_of_mem _ m), fun m => hp2.2 (List.mem_cons_of_mem _ m)⟩
        h.2]

theorem keyBelow_inj (n1 n2 x : String) (h1 : plainName n1) (h2 : plainName n2)
    (hx1 : keyBelow n1 x) (hx2 : keyBelow n2 x) : n1 = n2 := by
  obtain ⟨c1, t1, hc1, e1⟩ := hx1
  obtain ⟨c2, t2, hc2, e2⟩ := hx2
  rw [e1] at e2
  exact String.ext (head_inj _ _ _ _ _ _ hc1 hc2 h1 h2 e2)

theorem keyBelow_not_plain (n x : String) (hx : keyBelow n x) : ¬ plainName x := by
  obtain ⟨c, t, hc, e⟩ := hx
  rintro ⟨h1, h2⟩
  rw [e] at h1 h2
  rcases hc with rfl | rfl
  · exact h1 (by simp)
  · exact h2 (by simp)

theorem keyBelow_dot (n k : String) : keyBelow n (n ++ "." ++ k) :=
  ⟨'.', k.data, Or.inl rfl, by simp [String.data_append]⟩

theorem keyBelow_index (n k : String) (j : Nat) :
    keyBelow n (n ++ "[" ++ toString j ++ "]." ++ k) :=
  ⟨'[', (toString j).data ++ (']' :: '.' :: k.data), Or.inr rfl, by
    simp [String.data_append]⟩

theorem dotKey_inj (n k1 k2 : String) (h : n ++ "." ++ k1 = n ++ "." ++ k2) : k1 = k2 := by
  have h1 := congrArg String.data h
  simp only [String.data_append, List.append_assoc] at h1
  have h2 := List.append_cancel_left h1
  simp only [List.cons_append, List.nil_append, List.cons.injEq, true_and] at h2
  exact String.ext h2

theorem indexKey_inj (n : String) (i j : Nat) (k1 k2 : String)
    (h : n ++ "[" ++ toString i ++ "]." ++ k1 = n ++ "[" ++ toString j ++ "]." ++ k2) :
    i = j ∧ k1 = k2 := by
  apply rootKey_injective
  apply String.ext
  have h1 := congrArg String.data h
  simp only [String.data_append, List.append_assoc] at h1 ⊢
  exact List.append_cancel_left h1

theorem FieldByName_mem (fs : List (StructField × Value)) (name : String) (f : StructField)
    (h : FieldByName fs name = some f) : ∃ p ∈ fs, p.1 = f := by
  simp only [FieldByName, Option.map_eq_some'] at h
  obtain ⟨p, hp, rfl⟩ := h
  exact ⟨p, List.mem_of_find?_eq_some hp, rfl⟩

theorem keys_levelEntries (fs : List (StructField × Value)) (errs : List FieldError) :
    (levelEntries fs errs).map Prod.fst =
      (errs.filterMap (fun e => FieldByName fs e.StructField)).map getJSONFieldName := by
  induction errs with
  | nil => rfl
  | cons e rest ih =>
    simp only [levelEntries] at ih ⊢
    cases hf : FieldByName fs e.StructField with
    | none => simpa [List.filterMap_cons, hf] using ih
    | some f => simpa [List.filterMap_cons, hf] using ih

theorem mem_keys_levelEntries (fs : List (StructField × Value)) (errs : List FieldError)
    (x : String) (h : x ∈ (levelEntries fs errs).map Prod.fst) :
    ∃ p ∈ fs, x = getJSONFieldName p.1 := by
  rw [keys_levelEntries] at h
  obtain ⟨f, hf, rfl⟩ := List.mem_map.mp h
  obtain ⟨e, -, he⟩ := List.mem_filterMap.mp hf
  obtain ⟨p, hp, rfl⟩ := FieldByName_mem fs _ f he
  exact ⟨p, hp, rfl⟩

theorem nodup_levelEntries (fs : List (StructField × Value)) (errs : List FieldError)
    (hnames : (fs.map (fun p => getJSONFieldName p.1)).Nodup)
    (hone : (errs.filterMap (fun e => FieldByName fs e.StructField)).Nodup) :
    ((levelEntries fs errs).map Prod.fst).Nodup := by
  rw [keys_levelEntries]
  apply List.Nodup.map_on _ hone
  intro f hf g hg hfg
  obtain ⟨e1, -, he1⟩ := List.mem_filterMap.mp hf
  obtain ⟨e2, -, he2⟩ := List.mem_filterMap.mp hg
  obtain ⟨p, hp, rfl⟩ := FieldByName_mem fs _ f he1
  obtain ⟨q, hq, rfl⟩ := FieldByName_mem fs _ g he2
  have := List.inj_on_of_nodup_map hnames hp hq hfg
  rw [this]

theorem mem_keys_elemsEntries (validate : Validate) (name : String) (x : String) :
    ∀ (elems : List Value) (j : Nat), x ∈ (elemsEntries elems validate name j).map Prod.fst →
      ∃ i k, j ≤ i ∧ x = name ++ "[" ++ toString i ++ "]." ++ k := by
  intro elems
  induction elems with
  | nil => intro j h; simp [elemsEntries] at h
  | cons e rest ih =>
    intro j h
    simp only [elemsEntries, List.map_append, List.mem_append, keys_map_key] at h
    rcases h with h | h
    · obtain ⟨k, -, rfl⟩ := List.mem_map.mp h
      exact ⟨j, k, Nat.le_refl _, rfl⟩
    · obtain ⟨i, k, hi, rfl⟩ := ih (j + 1) h
      exact ⟨i, k, by omega, rfl⟩

theorem nodup_elemsEntries (validate : Validate) (name : String) :
    ∀ (elems : List Value),
      (∀ e ∈ elems, ((violationEntries e validate).map Prod.fst).Nodup) →
      ∀ j, ((elemsEntries elems validate name j).map Prod.fst).Nodup := by
  intro elems
  induction elems with
  | nil => intro _ j; simp [elemsEntries]
  | cons e rest ih =>
    intro h j
    simp only [elemsEntries, List.map_append, keys_map_key]
    refine List.nodup_append.mpr ⟨?_, ih (fun x hx => h x (List.mem_cons_of_mem _ hx)) _, ?_⟩
    · exact (h e (List.mem_cons_self _ _)).map (fun a b hab => (indexKey_inj name j j a b hab).2)
    · intro x hx1 hx2
      obtain ⟨k, -, rfl⟩ := List.mem_map.mp hx1
      obtain ⟨i, k2, hi, hk⟩ := mem_keys_elemsEntries validate name _ rest (j + 1) hx2
      have := (indexKey_inj name j i k k2 hk).1
      omega

theorem mem_keys_fieldEntries (validate : Validate) (ft : StructField) (fv : Value)
    (x : String) (h : x ∈ (fieldEntries validate ft fv).map Prod.fst) :
    keyBelow (getJSONFieldName ft) x := by
  have hdot : ∀ l : List (String × String),
      x ∈ (l.map (fun kv => (getJSONFieldName ft ++ "." ++ kv.1, kv.2))).map Prod.fst →
      keyBelow (getJSONFieldName ft) x := by
    intro l hl
    rw [keys_map_key] at hl
    obtain ⟨k, -, rfl⟩ := List.mem_map.mp hl
    exact keyBelow_dot _ _
  have hidx : ∀ elems, x ∈ (elemsEntries elems validate (getJSONFieldName ft) 0).map Prod.fst →
      keyBelow (getJSONFieldName ft) x := by
    intro elems hl
    obtain ⟨i, k, -, rfl⟩ := mem_keys_elemsEntries validate _ _ elems 0 hl
    exact keyBelow_index _ _ _
  cases fv with
  | basic b t => simp [fieldEntries] at h
  | struct fs => exact hdot _ h
  | ptr t =>
    cases t with
    | none => simp [fieldEntries] at h
    | some w =>
      cases w with
      | struct fs => exact hdot _ h
      | _ => simp [fieldEntries] at h
  | slice elemT elems =>
    simp only [fieldEntries] at h
    by_cases hk : elemT.Kind = Kind.Struct
    · rw [if_pos hk] at h
      exact hidx _ h
    · simp [if_neg hk] at h
  | array elemT elems =>
    simp only [fieldEntries] at h
    by_cases hk : elemT.Kind = Kind.Struct
    · rw [if_pos hk] at h
      exact hidx _ h
    · simp [if_neg hk] at h

theorem mem_keys_fieldsEntries (validate : Validate) (x : String) :
    ∀ (fs : List (StructField × Value)), x ∈ (fieldsEntries fs validate).map Prod.fst →
      ∃ p ∈ fs, keyBelow (getJSONFieldName p.1) x := by
  intro fs
  induction fs with
  | nil => intro h; simp [fieldsEntries] at h
  | cons p rest ih =>
    intro h
    obtain ⟨ft, fv⟩ := p
    rw [fieldsEntries_cons, List.map_append, List.mem_append] at h
    rcases h with h | h
    · exact ⟨(ft, fv), List.mem_cons_self _ _, mem_keys_fieldEntries validate ft fv x h⟩
    · obtain ⟨q, hq, hx⟩ := ih h
      exact ⟨q, List.mem_cons_of_mem _ hq, hx⟩

theorem nodup_fieldEntries (validate : Validate) (ft : StructField) (fv : Value)
    (hc : (∃ cfs, fv = .struct cfs ∨ fv = .ptr (some (.struct cfs))) →
      ((violationEntries fv validate).map Prod.fst).Nodup)
    (he : ∀ elemT elems, (fv = .slice elemT elems ∨ fv = .array elemT elems) →
      elemT.Kind = Kind.Struct →
      ∀ e ∈ elems, ((violationEntries e validate).map Prod.fst).Nodup) :
    ((fieldEntries validate ft fv).map Prod.fst).Nodup := by
  cases fv with
  | basic b t => simp [fieldEntries]
  | struct fs =>
    simp only [fieldEntries, keys_map_key]
    exact (hc ⟨fs, Or.inl rfl⟩).map (fun a b hab => dotKey_inj _ a b hab)
  | ptr t =>
    cases t with
    | none => simp [fieldEntries]
    | some w =>
      cases w with
      | struct fs =>
        simp only [fieldEntries, keys_map_key]
        exact (hc ⟨fs, Or.inr rfl⟩).map (fun a b hab => dotKey_inj _ a b hab)
      | _ => simp [fieldEntries]
  | slice elemT elems =>
    simp only [fieldEntries]
    by_cases hk : elemT.Kind = Kind.Struct
    · rw [if_pos hk]
      exact nodup_elemsEntries validate _ elems (he elemT elems (Or.inl rfl) hk) 0
    · simp [if_neg hk]
  | array elemT elems =>
    simp only [fieldEntries]
    by_cases hk : elemT.Kind = Kind.Struct
    · rw [if_pos hk]
      exact nodup_elemsEntries validate _ elems (he elemT elems (Or.inr rfl) hk) 0
    · simp [if_neg hk]

theorem nodup_fieldsEntries (validate : Validate) :
    ∀ (fs : List (StructField × Value)),
      (fs.map (fun p => getJSONFieldName p.1)).Nodup →
      (∀ p ∈ fs, plainName (getJSONFieldName p.1)) →
      (∀ p ∈ fs, ((fieldEntries validate p.1 p.2).map Prod.fst).Nodup) →
      ((fieldsEntries fs validate).map Prod.fst).Nodup := by
  intro fs
  induction fs with
  | nil => intro _ _ _; simp [fieldsEntries]
  | cons p rest ih =>
    intro hn hp hf
    obtain ⟨ft, fv⟩ := p
    rw [fieldsEntries_cons, List.map_append]
    simp only [List.map_cons, List.nodup_cons] at hn
    refine List.nodup_append.mpr ⟨hf (ft, fv) (List.mem_cons_self _ _),
      ih hn.2 (fun q hq => hp q (List.mem_cons_of_mem _ hq))
        (fun q hq => hf q (List.mem_cons_of_mem _ hq)), ?_⟩
    intro x hx1 hx2
    have h1 := mem_keys_fieldEntries validate ft fv x hx1
    obtain ⟨q, hq, h2⟩ := mem_keys_fieldsEntries validate x rest hx2
    have := keyBelow_inj _ _ x (hp (ft, fv) (List.mem_cons_self _ _))
      (hp q (List.mem_cons_of_mem _ hq)) h1 h2
    exact hn.1 (List.mem_map.mpr ⟨q, hq, this.symm⟩)

theorem Regular_step (validate : Validate) (v : Value) (h : Regular validate v) (st : Step)
    (seg : Segment) (c : Value) (hst : v.step st = some (seg, c)) : Regular validate c := by
  intro path segs d dfs hd hdf
  exact h (st :: path) (seg :: segs) d dfs
    ((descend_cons v st path _ d).mpr ⟨seg, c, segs, hst, hd, rfl⟩) hdf

/-- On a regular input no two resolvable violations share a field path. -/
theorem nodup_violationEntries (validate : Validate) :
    ∀ (n : Nat) (v : Value), sizeOf v ≤ n → Regular validate v →
      ((violationEntries v validate).map Prod.fst).Nodup := by
  intro n
  induction n with
  | zero =>
    intro v hn
    cases v <;> simp at hn
  | succ n ih =>
    intro v hn hreg
    cases hv : v.fields? with
    | none => simp [violationEntries_no_fields validate v hv]
    | some fs =>
      obtain ⟨hnames, hplain, hone⟩ := hreg [] [] v fs rfl hv
      rw [violationEntries_fields validate v fs hv, List.map_append]
      refine List.nodup_append.mpr ⟨nodup_levelEntries fs _ hnames hone, ?_, ?_⟩
      · apply nodup_fieldsEntries validate fs hnames hplain
        intro p hp
        obtain ⟨ft, fv⟩ := p
        obtain ⟨i, hi⟩ := List.mem_iff_getElem?.mp hp
        apply nodup_fieldEntries
        · rintro ⟨cfs, hc⟩
          have hst := (step_field_iff v fs hv i ⟨getJSONFieldName ft, none⟩ fv).mpr
            ⟨ft, hi, rfl, cfs, hc⟩
          have hlt := step_sizeOf_lt v _ _ fv hst
          exact ih fv (by omega) (Regular_step validate v hreg _ _ fv hst)
        · intro elemT elems hw hk e he
          obtain ⟨j, hj⟩ := List.mem_iff_getElem?.mp he
          have hst := (step_elem_iff v fs hv i j ⟨getJSONFieldName ft, some j⟩ e).mpr
            ⟨ft, fv, elemT, elems, hi, hw, hk, hj, rfl⟩
          have hlt := step_sizeOf_lt v _ _ e hst
          exact ih e (by omega) (Regular_step validate v hreg _ _ e hst)
      · intro x hx1 hx2
        obtain ⟨p, hp, rfl⟩ := mem_keys_levelEntries fs _ x hx1
        obtain ⟨q, hq, hb⟩ := mem_keys_fieldsEntries validate _ fs hx2
        exact keyBelow_not_plain _ _ hb (hplain p hp)

theorem sliceLoop_entries (validate : Validate) :
    ∀ (elems : List Value) (i : Nat) (errors out : List (String × String)),
      sliceLoop elems validate i errors = some out →
      (errors.map Prod.fst ++ (rootEntries elems validate i).map Prod.fst).Nodup →
      out = errors ++ rootEntries elems validate i := by
  intro elems
  induction elems with
  | nil =>
    intro i errors out h _
    simp only [sliceLoop, Option.some.injEq] at h
    simp [rootEntries, h]
  | cons e rest ih =>
    intro i errors out h hnd
    by_cases hcomp : e.isComposite = true
    · rw [sliceLoop_cons_enter validate e rest i errors hcomp] at h
      cases hd : deepValidator e validate with
      | none => simp [hd] at h
      | some nested =>
        simp only [hd] at h
        simp only [rootEntries, List.map_append, ← List.append_assoc] at hnd
        have hnd1 := (List.nodup_append.mp hnd).1
        have hnd2 := (List.nodup_append.mp hnd1).2.1
        rw [keys_map_key] at hnd2
        have hen := entries_eq_violationEntries validate e nested hd hnd2.of_map
        have hm := mergeNested_fresh errors (fun k => "[" ++ toString i ++ "]." ++ k)
          (fun k => "[" ++ toString i ++ "]." ++ k) (fun k => rfl) nested _ hen hnd1
        rw [hm] at h
        have := ih (i + 1) _ out h (by simpa [List.map_append] using hnd)
        rw [this]
        simp [rootEntries]
    · have hcomp0 : e.isComposite = false := by simpa using hcomp
      rw [sliceLoop_cons_skip validate e rest i errors hcomp0] at h
      have hnone : violationEntries e validate = [] :=
        violationEntries_no_fields validate e (by simpa [Value.isComposite] using hcomp0)
      simp only [rootEntries, hnone, List.map_nil, List.nil_append] at hnd ⊢
      exact ih (i + 1) errors out h hnd

theorem mem_keys_rootEntries (validate : Validate) (x : String) :
    ∀ (elems : List Value) (i : Nat), x ∈ (rootEntries elems validate i).map Prod.fst →
      ∃ j k, i ≤ j ∧ x = "[" ++ toString j ++ "]." ++ k := by
  intro elems
  induction elems with
  | nil => intro i h; simp [rootEntries] at h
  | cons e rest ih =>
    intro i h
    simp only [rootEntries, List.map_append, List.mem_append, keys_map_key] at h
    rcases h with h | h
    · obtain ⟨k, -, rfl⟩ := List.mem_map.mp h
      exact ⟨i, k, Nat.le_refl _, rfl⟩
    · obtain ⟨j, k, hj, rfl⟩ := ih (i + 1) h
      exact ⟨j, k, by omega, rfl⟩

theorem nodup_rootEntries (validate : Validate) :
    ∀ (elems : List Value),
      (∀ e ∈ elems, ((violationEntries e validate).map Prod.fst).Nodup) →
      ∀ i, ((rootEntries elems validate i).map Prod.fst).Nodup := by
  intro elems
  induction elems with
  | nil => intro _ i; simp [rootEntries]
  | cons e rest ih =>
    intro h i
    simp only [rootEntries, List.map_append, keys_map_key]
    refine List.nodup_append.mpr ⟨?_, ih (fun x hx => h x (List.mem_cons_of_mem _ hx)) _, ?_⟩
    · exact (h e (List.mem_cons_self _ _)).map (fun a b hab => (rootKey_injective i i a b hab).2)
    · intro x hx1 hx2
      obtain ⟨k, -, rfl⟩ := List.mem_map.mp hx1
      obtain ⟨j, k2, hj, hk⟩ := mem_keys_rootEntries validate _ rest (i + 1) hx2
      have := (rootKey_injective i j k k2 hk).1
      omega

theorem twoItems_reached (path : List Step) (segs : List Segment) (c : Value)
    (hd : descend twoItems path = some (segs, c)) : c = twoItems ∨ c = missingName := by
  cases path with
  | nil =>
    simp only [descend, Option.some.injEq, Prod.mk.injEq] at hd
    exact Or.inl hd.2.symm
  | cons st rest =>
    obtain ⟨seg, c1, segs1, hst, hd1, -⟩ := (descend_cons twoItems st rest segs c).mp hd
    cases st with
    | field i =>
      exfalso
      obtain ⟨f, hi, -, cfs1, hc1⟩ := (step_field_iff twoItems _ rfl i seg c1).mp hst
      cases i with
      | zero =>
        simp only [List.getElem?_cons_zero, Option.some.injEq, Prod.mk.injEq] at hi
        obtain ⟨-, rfl⟩ := hi
        rcases hc1 with h | h <;> cases h
      | succ i => simp at hi
    | elem i j =>
      obtain ⟨f, w, elemT, elems, hi, hw, -, hj, -⟩ :=
        (step_elem_iff twoItems _ rfl i j seg c1).mp hst
      cases i with
      | succ i => simp at hi
      | zero =>
        simp only [List.getElem?_cons_zero, Option.some.injEq, Prod.mk.injEq] at hi
        obtain ⟨-, rfl⟩ := hi
        have he : elems = [missingName, missingName] := by
          rcases hw with h | h <;> cases h
          rfl
        subst he
        have hflat : c1 = missingName → c = missingName := fun h => by
          subst h
          exact (flat_descend missingName _ rfl (by decide) rest segs1 c hd1).2
        cases j with
        | zero =>
          simp only [List.getElem?_cons_zero, Option.some.injEq] at hj
          exact Or.inr (hflat hj.symm)
        | succ j =>
          cases j with
          | zero =>
            simp only [List.getElem?_cons_succ, List.getElem?_cons_zero,
              Option.some.injEq] at hj
            exact Or.inr (hflat hj.symm)
          | succ j => simp at hj

theorem regular_twoItems : Regular itemValidate twoItems := by
  intro path segs c cfs hd hc
  rcases twoItems_reached path segs c hd with rfl | rfl
  · cases hc
    exact ⟨by decide, by decide, by decide⟩
  · cases hc
    exact ⟨by decide, by decide, by decide⟩

theorem regular_missingName : Regular itemValidate missingName := by
  intro path segs c cfs hd hc
  obtain ⟨-, rfl⟩ := flat_descend missingName _ rfl (by decide) path segs c hd
  cases hc
  exact ⟨by decide, by decide, by decide⟩

/-- C26: when, on every composite reached from the input, the public names of
the fields are pairwise distinct and hold neither `.` nor `[`, and no two
violations the evaluator reports resolve to the same field, then no two
resolvable violations of the traversal have the same key, and the report is the
list of the resolvable violations over all visited composites, one entry for
each: nothing is overwritten and the number of entries is the number of
resolvable violations. The same holds for `ValidateSliceDeep` on a collection
whose elements meet the condition, unless its element type is a pointer to
something other than a struct, which the function does not enter. -/
theorem report_one_entry_per_violation (validate : Validate) :
    (∀ (v : Value) (r : Report), Regular validate v → deepValidator v validate = some r →
      ((violationEntries v validate).map Prod.fst).Nodup ∧
      r.entries = violationEntries v validate ∧
      r.len = (violationEntries v validate).length) ∧
    (∀ (c : Value) (elemT : GoType) (elems : List Value) (r : Report),
      (c = .slice elemT elems ∨ c = .array elemT elems) →
      (elemT.Kind = Kind.Ptr → elemT.ElemKind = some Kind.Struct) →
      (∀ e ∈ elems, Regular validate e) → ValidateSliceDeep validate (some c) = some r →
      ((rootEntries elems validate 0).map Prod.fst).Nodup ∧
      r.entries = rootEntries elems validate 0 ∧
      r.len = (rootEntries elems validate 0).length) := by
  refine ⟨fun v r hreg hr => ?_, fun c elemT elems r hc hT hreg hr => ?_⟩
  · have hnd := nodup_violationEntries validate (sizeOf v) v (Nat.le_refl _) hreg
    have he := entries_eq_violationEntries validate v r hr hnd
    exact ⟨hnd, he, by rw [Report.len, he]⟩
  · have hnd := nodup_rootEntries validate elems
      (fun e he => nodup_violationEntries validate (sizeOf e) e (Nat.le_refl _) (hreg e he)) 0
    have hg : ¬ (elemT.Kind ≠ Kind.Struct ∧
        (elemT.Kind = Kind.Ptr ∧ elemT.ElemKind ≠ some Kind.Struct)) := by
      rintro ⟨-, h2, h3⟩
      exact h3 (hT h2)
    have hS : ValidateSliceDeep validate (some c) =
        (sliceLoop elems validate 0 []).map Report.map := by
      rcases hc with h | h <;> subst h <;> simp only [ValidateSliceDeep, if_neg hg]
    rw [hS] at hr
    cases hl : sliceLoop elems validate 0 [] with
    | none => simp [hl] at hr
    | some out =>
      simp only [hl, Option.map_some', Option.some.injEq] at hr
      subst hr
      have he := sliceLoop_entries validate elems 0 [] out hl (by simpa using hnd)
      simp only [List.nil_append] at he
      exact ⟨hnd, by simpa [Report.entries] using he, by simp [Report.len, Report.entries, he]⟩

/-- A list of two sub-records with an empty required `Name`, as a field and as
the collection handed to `ValidateSliceDeep`: two violations, two entries. -/
theorem report_one_entry_per_violation_witness :
    (((violationEntries twoItems itemValidate).map Prod.fst).Nodup ∧
      (Report.map [("items[0].name", "the field 'name' is required"),
        ("items[1].name", "the field 'name' is required")]).entries =
        violationEntries twoItems itemValidate ∧
      (Report.map [("items[0].name", "the field 'name' is required"),
        ("items[1].name", "the field 'name' is required")]).len =
        (violationEntries twoItems itemValidate).length) ∧
    (((rootEntries [missingName, missingName] itemValidate 0).map Prod.fst).Nodup ∧
      (Report.map [("[0].name", "the field 'name' is required"),
        ("[1].name", "the field 'name' is required")]).entries =
        rootEntries [missingName, missingName] itemValidate 0 ∧
      (Report.map [("[0].name", "the field 'name' is required"),
        ("[1].name", "the field 'name' is required")]).len =
        (rootEntries [missingName, missingName] itemValidate 0).length) :=
  ⟨(report_one_entry_per_violation itemValidate).1 twoItems _ regular_twoItems (by decide),
    (report_one_entry_per_violation itemValidate).2 (.slice .struct [missingName, missingName])
      .struct [missingName, missingName] _ (Or.inl rfl) (by decide)
      (fun e he => by
        rcases List.mem_cons.mp he with h | h
        · rw [h]; exact regular_missingName
        · rw [List.mem_singleton.mp h]; exact regular_missingName)
      (by decide)⟩

/-! ## Renaming the json name of a field -/

theorem FieldByName_cons (g : StructField) (u : Value) (rest : List (StructField × Value))
    (x : String) :
    FieldByName ((g, u) :: rest) x = if g.Name = x then some g else FieldByName rest x := by
  by_cases h : g.Name = x
  · simp [FieldByName, List.find?_cons, h]
  · simp [FieldByName, List.find?_cons, h]

theorem FieldByName_name (fs : List (StructField × Value)) (x : String) (g : StructField)
    (h : FieldByName fs x = some g) : g.Name = x := by
  induction fs with
  | nil => simp [FieldByName] at h
  | cons p rest ih =>
    obtain ⟨g0, u⟩ := p
    rw [FieldByName_cons] at h
    by_cases hx : g0.Name = x
    · rw [if_pos hx] at h
      cases h
      exact hx
    · rw [if_neg hx] at h
      exact ih h

theorem FieldByName_rename (f : StructField) (w : Value) (tag : String)
    (post : List (StructField × Value)) :
    ∀ (pre : List (StructField × Value)),
      ((pre ++ (f, w) :: post).map (fun p => p.1.Name)).Nodup → ∀ x,
      FieldByName (pre ++ (renamed f tag, w) :: post) x =
        (FieldByName (pre ++ (f, w) :: post) x).map
          (fun g => if g.Name = f.Name then renamed f tag else g) := by
  intro pre
  induction pre with
  | nil =>
    intro hn x
    simp only [List.nil_append, List.map_cons, List.nodup_cons] at hn ⊢
    rw [FieldByName_cons, FieldByName_cons]
    by_cases hx : f.Name = x
    · have hx2 : (renamed f tag).Name = x := hx
      simp [hx, hx2]
    · have hx2 : ¬ (renamed f tag).Name = x := hx
      rw [if_neg hx, if_neg hx2]
      cases hp : FieldByName post x with
      | none => rfl
      | some g =>
        have hg : ¬ g.Name = f.Name := by
          rw [FieldByName_name post x g hp]
          exact fun e => hx e.symm
        simp [hg]
  | cons p pre ih =>
    intro hn x
    obtain ⟨g0, u⟩ := p
    simp only [List.cons_append, List.map_cons, List.nodup_cons] at hn
    rw [List.cons_append, List.cons_append, FieldByName_cons, FieldByName_cons]
    by_cases hx : g0.Name = x
    · have hg : ¬ g0.Name = f.Name := by
        intro e
        apply hn.1
        rw [e]
        simp
      have hg2 : ¬ x = f.Name := fun e => hg (hx.trans e)
      simp [hx, hg2]
    · rw [if_neg hx, if_neg hx]
      exact ih hn.2 x

theorem fieldsEntries_append (validate : Validate) (q : StructField × Value)
    (post : List (StructField × Value)) :
    ∀ (pre : List (StructField × Value)),
      fieldsEntries (pre ++ q :: post) validate =
        fieldsEntries pre validate ++
          (fieldEntries validate q.1 q.2 ++ fieldsEntries post validate) := by
  intro pre
  induction pre with
  | nil =>
    obtain ⟨ft, fv⟩ := q
    rw [List.nil_append, fieldsEntries_cons]
    simp [fieldsEntries]
  | cons p pre ih =>
    obtain ⟨ft, fv⟩ := p
    rw [List.cons_append, fieldsEntries_cons, ih, fieldsEntries_cons, List.append_assoc]

theorem elemsEntries_below (validate : Validate) (name : String) :
    ∀ (elems : List Value) (j : Nat),
      elemsEntries elems validate name j =
        (elemsEntries elems validate "" j).map (fun sm => (name ++ sm.1, sm.2)) := by
  intro elems
  induction elems with
  | nil => intro j; simp [elemsEntries]
  | cons e rest ih =>
    intro j
    simp only [elemsEntries, List.map_append, List.map_map]
    rw [ih (j + 1)]
    congr 1
    apply List.map_congr_left
    intro kv _
    simp [String.append_assoc]

/-- The entries below a field are those of a list that does not depend on the
descriptor of the field, each behind the public name of the field. -/
theorem fieldEntries_below (validate : Validate) (w : Value) :
    ∃ below : List (String × String), ∀ ft : StructField,
      fieldEntries validate ft w =
        below.map (fun sm => (getJSONFieldName ft ++ sm.1, sm.2)) := by
  have hdot : ∀ l : List (String × String), ∀ n : String,
      l.map (fun kv => (n ++ "." ++ kv.1, kv.2)) =
        (l.map (fun kv => ("." ++ kv.1, kv.2))).map (fun sm => (n ++ sm.1, sm.2)) := by
    intro l n
    rw [List.map_map]
    apply List.map_congr_left
    intro kv _
    simp [String.append_assoc]
  cases w with
  | basic b t => exact ⟨[], fun ft => by simp [fieldEntries]⟩
  | struct fs =>
    exact ⟨(violationEntries (.struct fs) validate).map (fun kv => ("." ++ kv.1, kv.2)),
      fun ft => by simp only [fieldEntries]; exact hdot _ _⟩
  | ptr t =>
    cases t with
    | none => exact ⟨[], fun ft => by simp [fieldEntries]⟩
    | some u =>
      cases u with
      | struct fs =>
        exact ⟨(violationEntries (.ptr (some (.struct fs))) validate).map
          (fun kv => ("." ++ kv.1, kv.2)),
          fun ft => by simp only [fieldEntries]; exact hdot _ _⟩
      | _ => exact ⟨[], fun ft => by simp [fieldEntries]⟩
  | slice elemT elems =>
    by_cases hk : elemT.Kind = Kind.Struct
    · exact ⟨elemsEntries elems validate "" 0, fun ft => by
        simp only [fieldEntries, if_pos hk]
        exact elemsEntries_below validate _ elems 0⟩
    · exact ⟨[], fun ft => by simp [fieldEntries, hk]⟩
  | array elemT elems =>
    by_cases hk : elemT.Kind = Kind.Struct
    · exact ⟨elemsEntries elems validate "" 0, fun ft => by
        simp only [fieldEntries, if_pos hk]
        exact elemsEntries_below validate _ elems 0⟩
    · exact ⟨[], fun ft => by simp [fieldEntries, hk]⟩

theorem levelEntries_rename (f : StructField) (w : Value) (tag : String)
    (pre post : List (StructField × Value))
    (hn : ((pre ++ (f, w) :: post).map (fun p => p.1.Name)).Nodup) (errs : List FieldError) :
    levelEntries (pre ++ (renamed f tag, w) :: post) errs =
      levelEntriesAs
        (fun g => if g.Name = f.Name then getJSONFieldName (renamed f tag)
          else getJSONFieldName g)
        (pre ++ (f, w) :: post) errs := by
  simp only [levelEntries, levelEntriesAs]
  congr 1
  funext e
  rw [FieldByName_rename f w tag post pre hn]
  cases FieldByName (pre ++ (f, w) :: post) e.StructField with
  | none => rfl
  | some g =>
    by_cases hg : g.Name = f.Name
    · simp [hg]
    · simp [hg]

/-- C21, as stated, fails: in a form with an empty `Name` and an invalid
`Email`, changing only the json name of `Email` to `name` leaves the
evaluator's violations as they were, yet the entry of the other field `Name`
changes from the `required` message to the message of `Email`, and the report
has one entry for two flagged fields. Read the other way, from `name` to
`email`, the renaming removes a shared key and the entry of `Name` changes
again. -/
theorem rename_collision :
    formValidate.report signupCollision = formValidate.report signup ∧
    deepValidator signup formValidate =
      some (.map [("name", "the field 'name' is required"),
        ("email", "the field 'email' must be a valid email address")]) ∧
    deepValidator signupCollision formValidate =
      some (.map [("name", "the field 'name' must be a valid email address")]) ∧
    (deepValidator signup formValidate).map (fun r => r.get? "name") ≠
      (deepValidator signupCollision formValidate).map (fun r => r.get? "name") ∧
    (deepValidator signup formValidate).map Report.len = some 2 ∧
    (deepValidator signupCollision formValidate).map Report.len = some 1 := by
  decide

/-! ## The report as the last-write map of the violations -/

theorem lastWrite_append (a b : List (String × String)) (x : String) :
    lastWrite (a ++ b) x = (lastWrite b x).or (lastWrite a x) := by
  induction a with
  | nil => simp [lastWrite]
  | cons p rest ih =>
    obtain ⟨k, v⟩ := p
    show (lastWrite (rest ++ b) x).or (if k = x then some v else none) = _
    rw [ih, Option.or_assoc]
    rfl

theorem lastWrite_none (l : List (String × String)) (x : String)
    (h : x ∉ l.map Prod.fst) : lastWrite l x = none := by
  induction l with
  | nil => rfl
  | cons p rest ih =>
    obtain ⟨k, v⟩ := p
    simp only [List.map_cons, List.mem_cons, not_or] at h
    have hk : ¬ k = x := fun e => h.1 e.symm
    simp [lastWrite, ih h.2, hk]

theorem lastWrite_nodup (l : List (String × String)) (x : String)
    (h : (l.map Prod.fst).Nodup) : lastWrite l x = l.lookup x := by
  induction l with
  | nil => rfl
  | cons p rest ih =>
    obtain ⟨k, v⟩ := p
    simp only [List.map_cons, List.nodup_cons] at h
    rw [lookup_cons_eq, lastWrite]
    by_cases hx : x = k
    · subst hx
      simp [lastWrite_none rest x h.1]
    · have hk : ¬ k = x := fun e => hx e.symm
      simp [hx, hk, ih h.2]

theorem lookup_setAll (x : String) : ∀ (l errors : List (String × String)),
    (l.foldl (fun m kv => mapSet m kv.1 kv.2) errors).lookup x =
      (lastWrite l x).or (errors.lookup x) := by
  intro l
  induction l with
  | nil => intro errors; simp [lastWrite]
  | cons p rest ih =>
    intro errors
    obtain ⟨k, v⟩ := p
    rw [List.foldl_cons, ih, lookup_mapSet, lastWrite, Option.or_assoc]
    by_cases hx : x = k
    · subst hx
      simp
    · have hk : ¬ k = x := fun e => hx e.symm
      simp [hx, hk]

theorem lastWrite_map_key (key : String → String) (hinj : ∀ a b, key a = key b → a = b)
    (l : List (String × String)) (k : String) :
    lastWrite (l.map (fun kv => (key kv.1, kv.2))) (key k) = lastWrite l k := by
  induction l with
  | nil => rfl
  | cons p rest ih =>
    obtain ⟨k0, v⟩ := p
    simp only [List.map_cons, lastWrite, ih]
    by_cases hk : k0 = k
    · simp [hk]
    · have : ¬ key k0 = key k := fun e => hk (hinj _ _ e)
      simp [hk, this]

theorem lastWrite_map_congr (key : String → String) (hinj : ∀ a b, key a = key b → a = b)
    (l1 l2 : List (String × String)) (h : ∀ k, lastWrite l1 k = lastWrite l2 k) (x : String) :
    lastWrite (l1.map (fun kv => (key kv.1, kv.2))) x =
      lastWrite (l2.map (fun kv => (key kv.1, kv.2))) x := by
  by_cases hx : ∃ k, x = key k
  · obtain ⟨k, rfl⟩ := hx
    rw [lastWrite_map_key key hinj, lastWrite_map_key key hinj, h]
  · have hnot : ∀ l : List (String × String),
        x ∉ (l.map (fun kv => (key kv.1, kv.2))).map Prod.fst := by
      intro l hm
      rw [keys_map_key] at hm
      obtain ⟨k, -, hk⟩ := List.mem_map.mp hm
      exact hx ⟨k, hk.symm⟩
    rw [lastWrite_none _ x (hnot l1), lastWrite_none _ x (hnot l2)]

theorem mergeNested_lookup (errors : List (String × String)) (key1 key2 : String → String)
    (hkey : ∀ k, key1 k = key2 k) (hinj : ∀ a b, key2 a = key2 b → a = b) (nested : Report)
    (hnd : nested.keys.Nodup) (l : List (String × String))
    (hl : ∀ k, nested.get? k = lastWrite l k) (x : String) :
    (mergeNested errors key1 nested).lookup x =
      (lastWrite (l.map (fun kv => (key2 kv.1, kv.2))) x).or (errors.lookup x) := by
  have hf : (fun kv : String × String => (key1 kv.1, kv.2)) = fun kv => (key2 kv.1, kv.2) := by
    funext kv
    rw [hkey]
  rw [mergeNested_setAll, hf, lookup_setAll]
  congr 1
  apply lastWrite_map_congr key2 hinj
  intro k
  rw [lastWrite_nodup nested.entries k hnd]
  exact hl k

theorem walkElems_lookup (validate : Validate) (name x : String) :
    ∀ (elems : List Value),
      (∀ e ∈ elems, ∀ r, deepValidator e validate = some r →
        ∀ k, r.get? k = lastWrite (violationEntries e validate) k) →
      ∀ (j : Nat) (errors out : List (String × String)),
      walkElems elems validate name j errors = some out →
      out.lookup x = (lastWrite (elemsEntries elems validate name j) x).or (errors.lookup x) := by
  intro elems
  induction elems with
  | nil =>
    intro _ j errors out h
    simp only [walkElems, Option.some.injEq] at h
    simp [elemsEntries, lastWrite, h]
  | cons e rest ih =>
    intro hch j errors out h
    simp only [walkElems] at h
    cases hd : deepValidator e validate with
    | none => simp [hd] at h
    | some nested =>
      simp only [hd] at h
      rw [ih (fun q hq => hch q (List.mem_cons_of_mem _ hq)) (j + 1) _ out h,
        mergeNested_lookup errors _ (fun k => name ++ "[" ++ toString j ++ "]." ++ k)
          (fun k => Sprintf_index _ _ _) (fun a b hab => (indexKey_inj name j j a b hab).2)
          nested (nodup_keys_deepValidator validate e nested hd) _
          (hch e (List.mem_cons_self _ _) nested hd) x]
      simp only [elemsEntries, lastWrite_append, Option.or_assoc]

theorem fieldStep_lookup (validate : Validate) (x : String) (ft : StructField) (fv : Value)
    (hc : ∀ r, deepValidator fv validate = some r →
      ∀ k, r.get? k = lastWrite (violationEntries fv validate) k)
    (he : ∀ elemT elems, (fv = .slice elemT elems ∨ fv = .array elemT elems) →
      ∀ e ∈ elems, ∀ r, deepValidator e validate = some r →
        ∀ k, r.get? k = lastWrite (violationEntries e validate) k)
    (errors mid : List (String × String))
    (h : fieldStep validate ft fv errors = some mid) :
    mid.lookup x = (lastWrite (fieldEntries validate ft fv) x).or (errors.lookup x) := by
  have hdot : ∀ (w : Value), fieldStep validate ft w errors =
      (deepValidator w validate).map (fun nestedErrors =>
        mergeNested errors
          (fun k => Sprintf "%s.%s" [.str (getJSONFieldName ft), .str k]) nestedErrors) →
      fieldEntries validate ft w = (violationEntries w validate).map
        (fun kv => (getJSONFieldName ft ++ "." ++ kv.1, kv.2)) →
      (∀ r, deepValidator w validate = some r →
        ∀ k, r.get? k = lastWrite (violationEntries w validate) k) →
      fieldStep validate ft w errors = some mid →
      mid.lookup x = (lastWrite (fieldEntries validate ft w) x).or (errors.lookup x) := by
    intro w h1 h2 hc h
    rw [h1] at h
    rw [h2]
    cases hd : deepValidator w validate with
    | none => simp [hd] at h
    | some nested =>
      simp only [hd, Option.map_some', Option.some.injEq] at h
      rw [← h]
      exact mergeNested_lookup errors _ (fun k => getJSONFieldName ft ++ "." ++ k)
        (fun k => Sprintf_dot _ _) (fun a b hab => dotKey_inj _ a b hab) nested
        (nodup_keys_deepValidator validate w nested hd) _ (hc nested hd) x
  cases fv with
  | basic b t =>
    simp only [fieldStep, Option.some.injEq] at h
    simp [fieldEntries, lastWrite, h]
  | struct fs => exact hdot _ rfl rfl hc h
  | ptr t =>
    cases t with
    | none =>
      simp only [fieldStep, Option.some.injEq] at h
      simp [fieldEntries, lastWrite, h]
    | some w =>
      cases w with
      | struct fs => exact hdot _ rfl rfl hc h
      | _ =>
        simp only [fieldStep, Option.some.injEq] at h
        simp [fieldEntries, lastWrite, h]
  | slice elemT elems =>
    simp only [fieldStep] at h
    simp only [fieldEntries]
    by_cases hk : elemT.Kind = Kind.Struct
    · simp only [if_pos hk] at h ⊢
      exact walkElems_lookup validate _ x elems (he elemT elems (Or.inl rfl)) 0 errors mid h
    · simp only [if_neg hk, Option.some.injEq] at h ⊢
      simp [lastWrite, h]
  | array elemT elems =>
    simp only [fieldStep] at h
    simp only [fieldEntries]
    by_cases hk : elemT.Kind = Kind.Struct
    · simp only [if_pos hk] at h ⊢
      exact walkElems_lookup validate _ x elems (he elemT elems (Or.inr rfl)) 0 errors mid h
    · simp only [if_neg hk, Option.some.injEq] at h ⊢
      simp [lastWrite, h]

theorem walkFields_lookup (validate : Validate) (x : String) :
    ∀ (fs : List (StructField × Value)),
      (∀ p ∈ fs, ∀ r, deepValidator p.2 validate = some r →
        ∀ k, r.get? k = lastWrite (violationEntries p.2 validate) k) →
      (∀ p ∈ fs, ∀ elemT elems, (p.2 = .slice elemT elems ∨ p.2 = .array elemT elems) →
        ∀ e ∈ elems, ∀ r, deepValidator e validate = some r →
          ∀ k, r.get? k = lastWrite (violationEntries e validate) k) →
      ∀ (errors out : List (String × String)),
      walkFields fs validate errors = some out →
      out.lookup x = (lastWrite (fieldsEntries fs validate) x).or (errors.lookup x) := by
  intro fs
  induction fs with
  | nil =>
    intro _ _ errors out h
    simp only [walkFields, Option.some.injEq] at h
    simp [fieldsEntries, lastWrite, h]
  | cons p rest ih =>
    intro hc he errors out h
    obtain ⟨ft, fv⟩ := p
    rw [walkFields_step] at h
    rw [fieldsEntries_cons]
    cases hs : fieldStep validate ft fv errors with
    | none => simp [hs] at h
    | some mid =>
      simp only [hs, Option.some_bind] at h
      rw [ih (fun q hq => hc q (List.mem_cons_of_mem _ hq))
          (fun q hq => he q (List.mem_cons_of_mem _ hq)) mid out h,
        fieldStep_lookup validate x ft fv (hc (ft, fv) (List.mem_cons_self _ _))
          (he (ft, fv) (List.mem_cons_self _ _)) errors mid hs,
        lastWrite_append, Option.or_assoc]

/-- The report of `deepValidator` is the map the resolvable violations of the
traversal leave when they are written in order: under each key it holds the
message of the last violation with that key. -/
theorem get_eq_lastWrite (validate : Validate) :
    ∀ (v : Value) (r : Report), deepValidator v validate = some r →
      ∀ x, r.get? x = lastWrite (violationEntries v validate) x := by
  intro v
  induction v using Value.induct2 with
  | basic b t => intro r h; simp [deepValidator] at h
  | struct fields ih1 ih2 =>
    intro r h x
    rw [deepValidator_struct] at h
    rw [violationEntries_fields validate (.struct fields) fields rfl]
    cases hw : walkFields fields validate
        (levelErrors fields (validate.report (.struct fields)) []) with
    | none => simp [hw] at h
    | some out =>
      simp only [hw, Option.map_some', Option.some.injEq] at h
      subst h
      show out.lookup x = _
      rw [walkFields_lookup validate x fields ih1 ih2 _ out hw, levelErrors_setAll,
        lookup_setAll, lastWrite_append]
      simp
  | ptrNil =>
    intro r h x
    simp only [deepValidator, Option.some.injEq] at h
    subst h
    simp [Report.get?, Report.entries, violationEntries, lastWrite]
  | ptr w ih =>
    intro r h x
    cases w with
    | struct fs =>
      rw [deepValidator_ptr] at h
      have e : violationEntries (.ptr (some (.struct fs))) validate =
          violationEntries (.struct fs) validate := by
        simp [violationEntries]
      rw [e]
      exact ih r h x
    | _ => simp [deepValidator] at h
  | slice elemT elems => intro r h; simp [deepValidator] at h
  | array elemT elems => intro r h; simp [deepValidator] at h

/-! ## Renaming: the entries of the field and of the others -/

theorem lastWrite_filterMap_drop {α : Type} (g : α → Option (String × String)) (p : α → Bool)
    (x : String) :
    ∀ (errs : List α), (∀ e ∈ errs, p e = true → ∀ kv, g e = some kv → kv.1 ≠ x) →
      lastWrite (errs.filterMap g) x =
        lastWrite ((errs.filter (fun e => !p e)).filterMap g) x := by
  intro errs
  induction errs with
  | nil => intro _; rfl
  | cons e rest ih =>
    intro h
    have ihr := ih (fun q hq => h q (List.mem_cons_of_mem _ hq))
    cases hg : g e with
    | none =>
      by_cases hp : p e = true
      · simp [List.filterMap_cons, List.filter_cons, hg, hp, ihr]
      · simp [List.filterMap_cons, List.filter_cons, hg, hp, ihr]
    | some kv =>
      obtain ⟨k, m⟩ := kv
      by_cases hp : p e = true
      · have hk : ¬ k = x := h e (List.mem_cons_self _ _) hp (k, m) hg
        simp [List.filterMap_cons, List.filter_cons, hg, hp, lastWrite, hk, ihr]
      · simp [List.filterMap_cons, List.filter_cons, hg, hp, lastWrite, ihr]

theorem levelEntriesAs_own (name : StructField → String) (fs : List (StructField × Value))
    (f : StructField) :
    ∀ (errs : List FieldError),
      levelEntriesAs name fs
          (errs.filter (fun e => decide (FieldByName fs e.StructField = some f))) =
        ownEntries fs errs f (name f) := by
  intro errs
  induction errs with
  | nil => rfl
  | cons e rest ih =>
    simp only [levelEntriesAs, ownEntries] at ih ⊢
    by_cases hf : FieldByName fs e.StructField = some f
    · simp [List.filter_cons, hf, List.filterMap_cons, ih]
    · simp [List.filter_cons, hf, ih]

theorem levelEntriesAs_congr (name1 name2 : StructField → String)
    (fs : List (StructField × Value)) (errs : List FieldError)
    (h : ∀ e ∈ errs, ∀ g, FieldByName fs e.StructField = some g → name1 g = name2 g) :
    levelEntriesAs name1 fs errs = levelEntriesAs name2 fs errs := by
  induction errs with
  | nil => rfl
  | cons e rest ih =>
    have ihr := ih (fun q hq => h q (List.mem_cons_of_mem _ hq))
    simp only [levelEntriesAs] at ihr ⊢
    cases hf : FieldByName fs e.StructField with
    | none => simp [List.filterMap_cons, hf, ihr]
    | some g =>
      have := h e (List.mem_cons_self _ _) g hf
      simp [List.filterMap_cons, hf, ihr, this]

theorem lastWrite_level_other (name : StructField → String) (fs : List (StructField × Value))
    (errs : List FieldError) (f : StructField) (x : String)
    (hx : x ∉ (ownEntries fs errs f (name f)).map Prod.fst) :
    lastWrite (levelEntriesAs name fs errs) x =
      lastWrite (levelEntriesAs name fs
        (errs.filter (fun e => !decide (FieldByName fs e.StructField = some f)))) x := by
  exact lastWrite_filterMap_drop
    (fun e => (FieldByName fs e.StructField).map
      (fun g => (name g, formatErrorMessage e (name g))))
    (fun e => decide (FieldByName fs e.StructField = some f)) x errs (by
      intro e he hp kv hkv hk
      have hf : FieldByName fs e.StructField = some f := by simpa using hp
      apply hx
      simp only [hf, Option.map_some', Option.some.injEq] at hkv
      rw [← hkv] at hk
      simp only [ownEntries, List.map_map, List.mem_map, List.mem_filter, decide_eq_true_eq]
      exact ⟨e, ⟨he, hf⟩, hk⟩)

theorem lastWrite_level_own (name : StructField → String) (fs : List (StructField × Value))
    (errs : List FieldError) (f : StructField) (x : String)
    (hx : x ∉ (levelEntriesAs name fs
      (errs.filter (fun e => !decide (FieldByName fs e.StructField = some f)))).map Prod.fst) :
    lastWrite (levelEntriesAs name fs errs) x =
      lastWrite (ownEntries fs errs f (name f)) x := by
  have h := lastWrite_filterMap_drop
    (fun e => (FieldByName fs e.StructField).map
      (fun g => (name g, formatErrorMessage e (name g))))
    (fun e => !decide (FieldByName fs e.StructField = some f)) x errs (by
      intro e he hp kv hkv hk
      apply hx
      rw [← hk]
      simp only [levelEntriesAs, List.mem_map, List.mem_filterMap, List.mem_filter]
      exact ⟨kv, ⟨e, ⟨he, hp⟩, hkv⟩, rfl⟩)
  simp only [Bool.not_not] at h
  rw [← levelEntriesAs_own name fs f errs]
  exact h

theorem lastWrite_same_key (n : String) (h : FieldError → String) :
    ∀ (l : List FieldError) (e : FieldError), l.getLast? = some e →
      lastWrite (l.map (fun e => (n, h e))) n = some (h e) := by
  intro l
  induction l with
  | nil => intro e he; simp at he
  | cons a rest ih =>
    intro e he
    cases rest with
    | nil =>
      simp only [List.getLast?_singleton, Option.some.injEq] at he
      subst he
      simp [lastWrite]
    | cons b l =>
      rw [List.getLast?_cons_cons] at he
      have := ih e he
      simp only [List.map_cons] at this ⊢
      simp only [lastWrite] at this ⊢
      rw [this]
      rfl

theorem head_cancel (n a b : String) (h : n ++ a = n ++ b) : a = b := by
  have h1 := congrArg String.data h
  simp only [String.data_append] at h1
  exact String.ext (List.append_cancel_left h1)

theorem keyBelow_ne (n x : String) (h : keyBelow n x) : x ≠ n := by
  obtain ⟨c, t, -, e⟩ := h
  intro hx
  rw [hx] at e
  have := congrArg List.length e
  simp at this

theorem mem_keys_ownEntries (fs : List (StructField × Value)) (errs : List FieldError)
    (f : StructField) (name x : String) (h : x ∈ (ownEntries fs errs f name).map Prod.fst) :
    x = name := by
  simp only [ownEntries, List.map_map, List.mem_map] at h
  obtain ⟨e, -, he⟩ := h
  exact he.symm

theorem not_mem_otherEntries (validate : Validate) (pre post fs : List (StructField × Value))
    (errs : List FieldError) (f : StructField) (x : String)
    (h : x ∉ (otherEntries validate pre post fs errs f).map Prod.fst) :
    x ∉ (levelEntries fs
        (errs.filter (fun e => !decide (FieldByName fs e.StructField = some f)))).map Prod.fst ∧
      x ∉ (fieldsEntries pre validate).map Prod.fst ∧
      x ∉ (fieldsEntries post validate).map Prod.fst := by
  simp only [otherEntries, List.map_append, List.mem_append, not_or] at h
  exact ⟨h.1, h.2.1, h.2.2⟩

/-- One side of the renaming, for a report that is the last-write map of the
level entries under the names `nm`, the entries of the fields before `f`, the
entries below `f` under the descriptor `ft`, and the entries of the fields
after `f`: a key that is not written for `f` has the entry the other fields
leave. -/
theorem rename_untouched (validate : Validate) (pre post fs : List (StructField × Value))
    (f ft : StructField) (w : Value) (errs : List FieldError) (nm : StructField → String)
    (r0 : Report) (hnm : nm f = getJSONFieldName ft)
    (hother : levelEntriesAs nm fs
        (errs.filter (fun e => !decide (FieldByName fs e.StructField = some f))) =
      levelEntries fs (errs.filter (fun e => !decide (FieldByName fs e.StructField = some f))))
    (hget : ∀ x, r0.get? x = lastWrite (levelEntriesAs nm fs errs ++
      (fieldsEntries pre validate ++ (fieldEntries validate ft w ++ fieldsEntries post validate)))
      x)
    (x : String)
    (hx : x ∉ (ownEntries fs errs f (getJSONFieldName ft) ++
      fieldEntries validate ft w).map Prod.fst) :
    r0.get? x = lastWrite (otherEntries validate pre post fs errs f) x := by
  simp only [List.map_append, List.mem_append, not_or] at hx
  rw [hget x]
  simp only [lastWrite_append]
  rw [lastWrite_none _ x hx.2,
    lastWrite_level_other nm fs errs f x (by rw [hnm]; exact hx.1), hother]
  simp only [otherEntries, lastWrite_append, Option.or_none]

/-- One side of the renaming, when no key written for `f` is a key of another
field: the entry of `f` is that of the last violation on `f`, and the entries
below `f` are those of the traversal below it. -/
theorem rename_core (validate : Validate) (pre post fs : List (StructField × Value))
    (f ft : StructField) (w : Value) (errs : List FieldError) (nm : StructField → String)
    (r0 : Report) (hnm : nm f = getJSONFieldName ft)
    (hother : levelEntriesAs nm fs
        (errs.filter (fun e => !decide (FieldByName fs e.StructField = some f))) =
      levelEntries fs (errs.filter (fun e => !decide (FieldByName fs e.StructField = some f))))
    (hget : ∀ x, r0.get? x = lastWrite (levelEntriesAs nm fs errs ++
      (fieldsEntries pre validate ++ (fieldEntries validate ft w ++ fieldsEntries post validate)))
      x)
    (hdisj : ∀ x ∈ (ownEntries fs errs f (getJSONFieldName ft) ++
        fieldEntries validate ft w).map Prod.fst,
      x ∉ (otherEntries validate pre post fs errs f).map Prod.fst) :
    (∀ e, (errs.filter (fun e => decide (FieldByName fs e.StructField = some f))).getLast? =
        some e →
      r0.get? (getJSONFieldName ft) = some (formatErrorMessage e (getJSONFieldName ft))) ∧
    (∀ x ∈ (fieldEntries validate ft w).map Prod.fst,
      r0.get? x = lastWrite (fieldEntries validate ft w) x) := by
  have hexp : ∀ x, r0.get? x =
      (((lastWrite (fieldsEntries post validate) x).or
          (lastWrite (fieldEntries validate ft w) x)).or
        (lastWrite (fieldsEntries pre validate) x)).or
        (lastWrite (levelEntriesAs nm fs errs) x) := by
    intro x
    rw [hget x]
    simp only [lastWrite_append]
  refine ⟨fun e he => ?_, fun x hx => ?_⟩
  · have hmem : e ∈ errs.filter (fun e => decide (FieldByName fs e.StructField = some f)) :=
      List.mem_of_getLast?_eq_some he
    have hown : getJSONFieldName ft ∈
        (ownEntries fs errs f (getJSONFieldName ft) ++ fieldEntries validate ft w).map
          Prod.fst := by
      simp only [List.map_append, List.mem_append, ownEntries, List.map_map, List.mem_map]
      exact Or.inl ⟨e, hmem, rfl⟩
    obtain ⟨h1, h2, h3⟩ := not_mem_otherEntries validate pre post fs errs f _
      (hdisj _ hown)
    have h4 : getJSONFieldName ft ∉ (fieldEntries validate ft w).map Prod.fst := fun hm =>
      keyBelow_ne _ _ (mem_keys_fieldEntries validate ft w _ hm) rfl
    rw [hexp, lastWrite_none _ _ h2, lastWrite_none _ _ h3, lastWrite_none _ _ h4,
      lastWrite_level_own nm fs errs f _ (by rw [hother]; exact h1), hnm]
    simp only [Option.or_none, Option.none_or]
    exact lastWrite_same_key _ _ _ e he
  · have hx2 : x ∈ (ownEntries fs errs f (getJSONFieldName ft) ++
        fieldEntries validate ft w).map Prod.fst := by
      simp only [List.map_append, List.mem_append]
      exact Or.inr hx
    obtain ⟨h1, h2, h3⟩ := not_mem_otherEntries validate pre post fs errs f _ (hdisj _ hx2)
    have hne : x ≠ getJSONFieldName ft :=
      keyBelow_ne _ _ (mem_keys_fieldEntries validate ft w _ hx)
    have hown : x ∉ (ownEntries fs errs f (nm f)).map Prod.fst := fun hm =>
      hne ((mem_keys_ownEntries fs errs f _ x hm).trans hnm)
    rw [hexp, lastWrite_none _ _ h2, lastWrite_none _ _ h3,
      lastWrite_level_other nm fs errs f x hown, hother, lastWrite_none _ _ h1]
    simp only [Option.or_none, Option.none_or]

/-- C21, amended: let the json name of a field `f` of a composite change, the
internal names of the layout being distinct and the evaluator reporting the
same violations before and after. Then the same violations resolve to `f`;
every key that is not written for `f`, neither before nor after, has the same
entry in both reports; and when the public name does not change the reports
map every key alike. If moreover no key written for `f`, its own key or a key
below it, is also written for another field, before or after the renaming,
then every key of another field has the same entry in both reports; when a
violation resolves to `f`, the old report has its message under the old public
name and the new report under the new one, rendered with that name; and the
entries below `f` are the same, each key with the new public name in place of
the old one at its head. Keys that other fields share among themselves are not
excluded. -/
theorem rename_json_name (validate : Validate) (v v' : Value)
    (pre post fs fs' : List (StructField × Value)) (f : StructField) (w : Value) (tag : String)
    (errs : List FieldError) (r r' : Report)
    (hfs : fs = pre ++ (f, w) :: post) (hfs' : fs' = pre ++ (renamed f tag, w) :: post)
    (hv : v.fields? = some fs) (hv' : v'.fields? = some fs')
    (hnames : (fs.map (fun p => p.1.Name)).Nodup)
    (herrs : validate.report (.struct fs) = errs)
    (herrs' : validate.report (.struct fs') = errs)
    (hr : deepValidator v validate = some r) (hr' : deepValidator v' validate = some r') :
    (∀ x : String, FieldByName fs' x = some (renamed f tag) ↔ FieldByName fs x = some f) ∧
    (∀ x : String,
      x ∉ (ownEntries fs errs f (getJSONFieldName f) ++
        fieldEntries validate f w).map Prod.fst →
      x ∉ (ownEntries fs errs f (getJSONFieldName (renamed f tag)) ++
        fieldEntries validate (renamed f tag) w).map Prod.fst →
      r'.get? x = r.get? x ∧
      r.get? x = lastWrite (otherEntries validate pre post fs errs f) x) ∧
    (getJSONFieldName (renamed f tag) = getJSONFieldName f → ∀ x, r'.get? x = r.get? x) ∧
    ((∀ x ∈ (ownEntries fs errs f (getJSONFieldName f) ++
          fieldEntries validate f w).map Prod.fst,
        x ∉ (otherEntries validate pre post fs errs f).map Prod.fst) →
      (∀ x ∈ (ownEntries fs errs f (getJSONFieldName (renamed f tag)) ++
          fieldEntries validate (renamed f tag) w).map Prod.fst,
        x ∉ (otherEntries validate pre post fs errs f).map Prod.fst) →
      (∀ x ∈ (otherEntries validate pre post fs errs f).map Prod.fst,
        r'.get? x = r.get? x ∧
        r.get? x = lastWrite (otherEntries validate pre post fs errs f) x) ∧
      (∀ e,
        (errs.filter (fun e => decide (FieldByName fs e.StructField = some f))).getLast? =
          some e →
        r.get? (getJSONFieldName f) = some (formatErrorMessage e (getJSONFieldName f)) ∧
        r'.get? (getJSONFieldName (renamed f tag)) =
          some (formatErrorMessage e (getJSONFieldName (renamed f tag)))) ∧
      ∃ below : List (String × String),
        (∀ ft : StructField, fieldEntries validate ft w =
          below.map (fun sm => (getJSONFieldName ft ++ sm.1, sm.2))) ∧
        ∀ s ∈ below.map Prod.fst,
          r.get? (getJSONFieldName f ++ s) = lastWrite below s ∧
          r'.get? (getJSONFieldName (renamed f tag) ++ s) = lastWrite below s) := by
  subst hfs hfs'
  have hflag : ∀ x : String,
      FieldByName (pre ++ (renamed f tag, w) :: post) x = some (renamed f tag) ↔
        FieldByName (pre ++ (f, w) :: post) x = some f := by
    intro x
    rw [FieldByName_rename f w tag post pre hnames x]
    constructor
    · intro h
      obtain ⟨g, hg, hs⟩ := Option.map_eq_some'.mp h
      by_cases hgn : g.Name = f.Name
      · obtain ⟨p, hp, hpg⟩ := FieldByName_mem _ _ g hg
        have hf : (f, w) ∈ pre ++ (f, w) :: post := by simp
        have := List.inj_on_of_nodup_map hnames hp hf (by rw [hpg]; exact hgn)
        rw [hg, ← hpg, this]
      · rw [if_neg hgn] at hs
        exact absurd (by rw [hs]; rfl) hgn
    · intro h
      simp [h]
  have hget : ∀ x, r.get? x = lastWrite (levelEntriesAs getJSONFieldName
      (pre ++ (f, w) :: post) errs ++ (fieldsEntries pre validate ++
        (fieldEntries validate f w ++ fieldsEntries post validate))) x := by
    intro x
    rw [get_eq_lastWrite validate v r hr x, violationEntries_fields validate v _ hv, herrs,
      fieldsEntries_append]
    rfl
  have hget' : ∀ x, r'.get? x = lastWrite (levelEntriesAs
      (fun g => if g.Name = f.Name then getJSONFieldName (renamed f tag)
        else getJSONFieldName g)
      (pre ++ (f, w) :: post) errs ++ (fieldsEntries pre validate ++
        (fieldEntries validate (renamed f tag) w ++ fieldsEntries post validate))) x := by
    intro x
    rw [get_eq_lastWrite validate v' r' hr' x, violationEntries_fields validate v' _ hv', herrs',
      fieldsEntries_append, levelEntries_rename f w tag pre post hnames]
  have hother' : levelEntriesAs
      (fun g => if g.Name = f.Name then getJSONFieldName (renamed f tag)
        else getJSONFieldName g)
      (pre ++ (f, w) :: post)
      (errs.filter (fun e =>
        !decide (FieldByName (pre ++ (f, w) :: post) e.StructField = some f))) =
      levelEntries (pre ++ (f, w) :: post)
        (errs.filter (fun e =>
          !decide (FieldByName (pre ++ (f, w) :: post) e.StructField = some f))) := by
    apply levelEntriesAs_congr
    intro e he g hg
    have hne : ¬ FieldByName (pre ++ (f, w) :: post) e.StructField = some f := by
      simpa using (List.mem_filter.mp he).2
    have hgn : ¬ g.Name = f.Name := by
      intro hgn
      obtain ⟨p, hp, hpg⟩ := FieldByName_mem _ _ g hg
      have hf : (f, w) ∈ pre ++ (f, w) :: post := by simp
      have := List.inj_on_of_nodup_map hnames hp hf (by rw [hpg]; exact hgn)
      exact hne (by rw [hg, ← hpg, this])
    simp [hgn]
  have hun : ∀ x : String,
      x ∉ (ownEntries (pre ++ (f, w) :: post) errs f (getJSONFieldName f) ++
        fieldEntries validate f w).map Prod.fst →
      x ∉ (ownEntries (pre ++ (f, w) :: post) errs f (getJSONFieldName (renamed f tag)) ++
        fieldEntries validate (renamed f tag) w).map Prod.fst →
      r'.get? x = r.get? x ∧
      r.get? x = lastWrite (otherEntries validate pre post (pre ++ (f, w) :: post) errs f) x := by
    intro x h1 h2
    have e1 := rename_untouched validate pre post _ f f w errs getJSONFieldName r rfl rfl
      hget x h1
    have e2 := rename_untouched validate pre post _ f (renamed f tag) w errs _ r'
      (by simp) hother' hget' x h2
    exact ⟨e2.trans e1.symm, e1⟩
  refine ⟨hflag, hun, fun hsame x => ?_, fun hbefore hafter => ?_⟩
  · obtain ⟨below, hbelow⟩ := fieldEntries_below validate w
    have hlev : levelEntriesAs
        (fun g => if g.Name = f.Name then getJSONFieldName (renamed f tag)
          else getJSONFieldName g)
        (pre ++ (f, w) :: post) errs =
        levelEntriesAs getJSONFieldName (pre ++ (f, w) :: post) errs := by
      apply levelEntriesAs_congr
      intro e _ g hg
      by_cases hgn : g.Name = f.Name
      · obtain ⟨p, hp, hpg⟩ := FieldByName_mem _ _ g hg
        have hf : (f, w) ∈ pre ++ (f, w) :: post := by simp
        have := List.inj_on_of_nodup_map hnames hp hf (by rw [hpg]; exact hgn)
        have hgf : g = f := by rw [← hpg, this]
        simp [hgf, hsame]
      · simp [hgn]
    rw [hget' x, hget x, hlev, hbelow f, hbelow (renamed f tag), hsame]
  · obtain ⟨b1, c1⟩ := rename_core validate pre post _ f f w errs getJSONFieldName r rfl rfl
      hget hbefore
    obtain ⟨b2, c2⟩ := rename_core validate pre post _ f (renamed f tag) w errs _ r'
      (by simp) hother' hget' hafter
    refine ⟨fun x hx => hun x (fun hm => hbefore x hm hx) (fun hm => hafter x hm hx),
      fun e he => ⟨b1 e he, b2 e he⟩, ?_⟩
    obtain ⟨below, hbelow⟩ := fieldEntries_below validate w
    refine ⟨below, hbelow, fun s hs => ?_⟩
    have hkey : ∀ ft : StructField, getJSONFieldName ft ++ s ∈
        (fieldEntries validate ft w).map Prod.fst := by
      intro ft
      rw [hbelow ft, keys_map_key]
      exact List.mem_map.mpr ⟨s, hs, rfl⟩
    have hlw : ∀ ft : StructField,
        lastWrite (fieldEntries validate ft w) (getJSONFieldName ft ++ s) =
          lastWrite below s := by
      intro ft
      rw [hbelow ft]
      exact lastWrite_map_key (fun k => getJSONFieldName ft ++ k)
        (fun a b hab => head_cancel _ a b hab) below s
    exact ⟨(c1 _ (hkey f)).trans (hlw f), (c2 _ (hkey (renamed f tag))).trans (hlw _)⟩

/-- The order `customerOrder`, whose sub-record `Customer` gets the json name
`client`. Two violations share the key `name` before and after; the key
`customer.name` becomes `client.name` and the entry `name` stays. -/
theorem rename_json_name_witness :
    ((violationEntries customerOrder orderValidate).map Prod.fst =
      ["name", "name", "customer.name"]) ∧
    deepValidator customerOrder orderValidate =
      some (.map [("name", "the field 'name' is required"),
        ("customer.name", "the field 'name' is required")]) ∧
    deepValidator
        (.struct [(⟨"Name", "name", "required"⟩, str ""),
          (renamed ⟨"Customer", "customer", ""⟩ "client", missingName)]) orderValidate =
      some (.map [("name", "the field 'name' is required"),
        ("client.name", "the field 'name' is required")]) ∧
    (∀ x ∈ (otherEntries orderValidate [(⟨"Name", "name", "required"⟩, str "")] []
        [(⟨"Name", "name", "required"⟩, str ""), (⟨"Customer", "customer", ""⟩, missingName)]
        (orderValidate.report customerOrder) ⟨"Customer", "customer", ""⟩).map Prod.fst,
      (Report.map [("name", "the field 'name' is required"),
          ("client.name", "the field 'name' is required")]).get? x =
        (Report.map [("name", "the field 'name' is required"),
          ("customer.name", "the field 'name' is required")]).get? x ∧
      (Report.map [("name", "the field 'name' is required"),
          ("customer.name", "the field 'name' is required")]).get? x =
        lastWrite (otherEntries orderValidate [(⟨"Name", "name", "required"⟩, str "")] []
          [(⟨"Name", "name", "required"⟩, str ""), (⟨"Customer", "customer", ""⟩, missingName)]
          (orderValidate.report customerOrder) ⟨"Customer", "customer", ""⟩) x) :=
  ⟨by decide, by decide, by decide,
    ((rename_json_name orderValidate customerOrder
      (.struct [(⟨"Name", "name", "required"⟩, str ""),
        (renamed ⟨"Customer", "customer", ""⟩ "client", missingName)])
      [(⟨"Name", "name", "required"⟩, str "")] [] _ _ ⟨"Customer", "customer", ""⟩ missingName
      "client" (orderValidate.report customerOrder) _ _ rfl rfl rfl rfl (by decide) rfl
      (by decide) (by decide) (by decide)).2.2.2 (by decide) (by decide)).1⟩

end friendlyerrors
